import Mathlib

/-!
Verification of the CareFit habit-coaching app (`app.py`) against its
natural-language specification.

The app's semi-structured data (plans parsed from generative-model output,
check-in records) is JSON-shaped Python data.  We embed JSON values as the
inductive type `JVal`.  Modelling conventions, used throughout:

* Python dicts are association lists in insertion order (`Obj`); `d[k] = v`
  updates the first matching key in place and appends otherwise, exactly as
  Python dicts preserve insertion position.  `json.loads` never produces
  aliased sub-objects, so values are finite trees and in-place mutation of a
  sub-object is modelled by rebuilding the tree with the mutated part.
* JSON numbers are modelled as integers (`jnum : Int`).  No claim being
  checked depends on fractional JSON literals.
* Python `float` arithmetic on completion rates is modelled as exact rational
  arithmetic (`ℚ`); at every comparison exercised by the claims the float
  computation is exact (e.g. `4 / 5 * 100 == 80.0` exactly in IEEE doubles).
* Exceptions are modelled with `Except String`; a `try/except` is a `match`
  on the `Except` result.
-/

/-- A JSON-shaped Python value (`None`/`bool`/number/`str`/`list`/`dict`). -/
inductive JVal where
  | jnull : JVal
  | jbool : Bool → JVal
  | jnum : Int → JVal
  | jstr : String → JVal
  | jarr : List JVal → JVal
  | jobj : List (String × JVal) → JVal

mutual

/-- Decidable equality for `JVal` (written by hand: `deriving` does not
handle the nested occurrence of `List`). -/
def decEqJVal : (a b : JVal) → Decidable (a = b)
  | .jnull, .jnull => isTrue rfl
  | .jnull, .jbool _ => isFalse nofun
  | .jnull, .jnum _ => isFalse nofun
  | .jnull, .jstr _ => isFalse nofun
  | .jnull, .jarr _ => isFalse nofun
  | .jnull, .jobj _ => isFalse nofun
  | .jbool _, .jnull => isFalse nofun
  | .jbool a, .jbool b =>
      if h : a = b then isTrue (by rw [h]) else isFalse (fun he => h (by injection he))
  | .jbool _, .jnum _ => isFalse nofun
  | .jbool _, .jstr _ => isFalse nofun
  | .jbool _, .jarr _ => isFalse nofun
  | .jbool _, .jobj _ => isFalse nofun
  | .jnum _, .jnull => isFalse nofun
  | .jnum _, .jbool _ => isFalse nofun
  | .jnum a, .jnum b =>
      if h : a = b then isTrue (by rw [h]) else isFalse (fun he => h (by injection he))
  | .jnum _, .jstr _ => isFalse nofun
  | .jnum _, .jarr _ => isFalse nofun
  | .jnum _, .jobj _ => isFalse nofun
  | .jstr _, .jnull => isFalse nofun
  | .jstr _, .jbool _ => isFalse nofun
  | .jstr _, .jnum _ => isFalse nofun
  | .jstr a, .jstr b =>
      if h : a = b then isTrue (by rw [h]) else isFalse (fun he => h (by injection he))
  | .jstr _, .jarr _ => isFalse nofun
  | .jstr _, .jobj _ => isFalse nofun
  | .jarr _, .jnull => isFalse nofun
  | .jarr _, .jbool _ => isFalse nofun
  | .jarr _, .jnum _ => isFalse nofun
  | .jarr _, .jstr _ => isFalse nofun
  | .jarr xs, .jarr ys =>
      match decEqJList xs ys with
      | isTrue h => isTrue (by rw [h])
      | isFalse h => isFalse (fun he => h (by injection he))
  | .jarr _, .jobj _ => isFalse nofun
  | .jobj _, .jnull => isFalse nofun
  | .jobj _, .jbool _ => isFalse nofun
  | .jobj _, .jnum _ => isFalse nofun
  | .jobj _, .jstr _ => isFalse nofun
  | .jobj _, .jarr _ => isFalse nofun
  | .jobj xs, .jobj ys =>
      match decEqJFields xs ys with
      | isTrue h => isTrue (by rw [h])
      | isFalse h => isFalse (fun he => h (by injection he))

/-- Decidable equality for lists of `JVal`. -/
def decEqJList : (a b : List JVal) → Decidable (a = b)
  | [], [] => isTrue rfl
  | [], _ :: _ => isFalse nofun
  | _ :: _, [] => isFalse nofun
  | x :: xs, y :: ys =>
      match decEqJVal x y, decEqJList xs ys with
      | isTrue h1, isTrue h2 => isTrue (by rw [h1, h2])
      | isFalse h1, _ => isFalse (fun he => h1 (by injection he))
      | _, isFalse h2 => isFalse (fun he => h2 (by injection he))

/-- Decidable equality for dict field lists. -/
def decEqJFields : (a b : List (String × JVal)) → Decidable (a = b)
  | [], [] => isTrue rfl
  | [], _ :: _ => isFalse nofun
  | _ :: _, [] => isFalse nofun
  | (k, v) :: xs, (k2, v2) :: ys =>
      match decEq k k2, decEqJVal v v2, decEqJFields xs ys with
      | isTrue h0, isTrue h1, isTrue h2 => isTrue (by rw [h0, h1, h2])
      | isFalse h0, _, _ =>
          isFalse (fun he => h0 (by injection he with h h'; injection h))
      | _, isFalse h1, _ =>
          isFalse (fun he => h1 (by injection he with h h'; injection h))
      | _, _, isFalse h2 => isFalse (fun he => h2 (by injection he))

end

instance : DecidableEq JVal := decEqJVal

/-- Fields of a Python dict, in insertion order. -/
abbrev Obj := List (String × JVal)

/-- First value bound to `key`, if any (Python `d[key]` / `d.get(key)`). -/
def lookupKey : Obj → String → Option JVal
  | [], _ => none
  | (k, v) :: rest, key => if k = key then some v else lookupKey rest key

/-- Python `d.get(key, dflt)`. -/
def getKeyD (o : Obj) (key : String) (dflt : JVal) : JVal :=
  (lookupKey o key).getD dflt

/-- Python `d[key] = v`: update in place if present, append otherwise. -/
def setKey : Obj → String → JVal → Obj
  | [], key, v => [(key, v)]
  | (k, w) :: rest, key, v =>
      if k = key then (k, v) :: rest else (k, w) :: setKey rest key v

/-- Python `d.setdefault(key, v)` (the effect on the dict). -/
def setdefaultKey (o : Obj) (key : String) (v : JVal) : Obj :=
  match lookupKey o key with
  | some _ => o
  | none => o ++ [(key, v)]

/-- Python truthiness of a JSON-shaped value. -/
def pyTruthy : JVal → Bool
  | .jnull => false
  | .jbool b => b
  | .jnum n => n ≠ 0
  | .jstr s => s ≠ ""
  | .jarr xs => ¬xs.isEmpty
  | .jobj fs => ¬fs.isEmpty

/-- Python `a or b` on JSON-shaped values. -/
def pyOr (a b : JVal) : JVal := if pyTruthy a then a else b

/-- The decimal digit characters (used to model Python `str(int)`). -/
def digitChar : Nat → Char
  | 0 => '0' | 1 => '1' | 2 => '2' | 3 => '3' | 4 => '4'
  | 5 => '5' | 6 => '6' | 7 => '7' | 8 => '8' | _ => '9'

/-- Decimal digits of `n`, most significant first (fuel-driven). -/
def natDigitsAux : Nat → Nat → List Char
  | 0, _ => []
  | fuel + 1, n =>
      if n < 10 then [digitChar n]
      else natDigitsAux fuel (n / 10) ++ [digitChar (n % 10)]

/-- Decimal digits of `n`, most significant first. -/
def natDigits (n : Nat) : List Char := natDigitsAux (n + 1) n

/-- Model of Python `str` applied to an `int`. -/
def pyIntRepr (n : Int) : String :=
  if n < 0 then ⟨'-' :: natDigits n.natAbs⟩ else ⟨natDigits n.natAbs⟩

mutual

/-- Model of Python `repr` on JSON-shaped values (the form `str` uses for
elements of containers).  String escaping inside `repr` is not modelled:
the claims only consult the result through a 5-character time pattern and a
`"FREQ="`-prefix test, and for containers only the opening bracket matters.
The single-quote character is written `Char.ofNat 39`. -/
def pyRepr : JVal → String
  | .jnull => "None"
  | .jbool true => "True"
  | .jbool false => "False"
  | .jnum n => pyIntRepr n
  | .jstr s => ⟨Char.ofNat 39 :: s.data ++ [Char.ofNat 39]⟩
  | .jarr xs => ⟨'[' :: (pyReprList xs).data ++ [']']⟩
  | .jobj fs => ⟨'\x7b' :: (pyReprFields fs).data ++ ['\x7d']⟩

/-- Comma-separated `repr`s of list elements. -/
def pyReprList : List JVal → String
  | [] => ""
  | [x] => pyRepr x
  | x :: xs => ⟨(pyRepr x).data ++ ',' :: ' ' :: (pyReprList xs).data⟩

/-- Comma-separated `repr`s of dict fields. -/
def pyReprFields : List (String × JVal) → String
  | [] => ""
  | [(k, v)] => ⟨(pyRepr (.jstr k)).data ++ ':' :: ' ' :: (pyRepr v).data⟩
  | (k, v) :: fs =>
      ⟨(pyRepr (.jstr k)).data ++ ':' :: ' ' :: (pyRepr v).data
        ++ ',' :: ' ' :: (pyReprFields fs).data⟩

end

/-- Model of Python `str` on JSON-shaped values. -/
def pyStr : JVal → String
  | .jstr s => s
  | v => pyRepr v

/-- Model of `re.match(r"^\d{2}:\d{2}$", t)`: two digits, a colon, two
digits, anchored at both ends.  `$` in Python also matches just before one
trailing newline, which is modelled; `\d` is modelled as the ASCII digits. -/
def matchesTimeRe (s : String) : Bool :=
  match s.data with
  | [a, b, c, d, e] => a.isDigit && b.isDigit && c == ':' && d.isDigit && e.isDigit
  | [a, b, c, d, e, f] =>
      a.isDigit && b.isDigit && c == ':' && d.isDigit && e.isDigit && f == '\n'
  | _ => false

/-- `WEEKDAYS = ["Mon", ..., "Sun"]`. -/
def WEEKDAYS : List String := ["Mon", "Tue", "Wed", "Thu", "Fri", "Sat", "Sun"]

/-- The weekday tokens as JSON values. -/
def weekdayVals : List JVal := WEEKDAYS.map .jstr

/-- The fallback day list `["Mon", "Wed", "Fri"]`. -/
def defaultDays : List JVal := [.jstr "Mon", .jstr "Wed", .jstr "Fri"]

/-- The days-normalization step of `normalize_plan`:
`sch["days"] = [d for d in days if d in WEEKDAYS] or ["Mon","Wed","Fri"]`
when `days` (= `sch.get("days") or []`) is a list, the fallback otherwise. -/
def normDays (v : JVal) : JVal :=
  match v with
  | .jarr ds =>
      let kept := ds.filter (fun d => d ∈ weekdayVals)
      if kept.isEmpty then .jarr defaultDays else .jarr kept
  | _ => .jarr defaultDays

/-- Model of Python `str.startswith`. -/
def pyStartsWith (s pre : String) : Bool := pre.data.isPrefixOf s.data

/-- The schedule part of the habit loop of `normalize_plan`: `setdefault`s
for `days` / `time` / `frequency_per_week`, then the day-list filter and the
time-pattern check. -/
def normSchedule (sch0 : Obj) : Obj :=
  let sch1 := setdefaultKey sch0 "days" (.jarr defaultDays)
  let sch2 := setdefaultKey sch1 "time" (.jstr "09:00")
  let sch3 := setdefaultKey sch2 "frequency_per_week" (.jnum 3)
  -- days = sch.get("days") or []; sch["days"] = ...
  let sch4 := setKey sch3 "days" (normDays (pyOr (getKeyD sch3 "days" .jnull) (.jarr [])))
  -- t = str(sch.get("time") or "09:00"); replace unless it matches the pattern
  let t := pyStr (pyOr (getKeyD sch4 "time" .jnull) (.jstr "09:00"))
  if matchesTimeRe t then sch4 else setKey sch4 "time" (.jstr "09:00")

/-- The body of the `for h in plan.get("new_habits", []) or []` loop of
`normalize_plan`, acting on the fields of one habit dict. -/
def normHabitFields (hf0 : Obj) : Obj :=
  let hf1 := setdefaultKey hf0 "name" (.jstr "새 습관")
  let hf2 := setdefaultKey hf1 "why" (.jstr "")
  let hf3 := setdefaultKey hf2 "difficulty" (.jstr "easy")
  -- sch = h.setdefault("schedule", {}); if not isinstance(sch, dict): h["schedule"] = {}
  let hf4 := setdefaultKey hf3 "schedule" (.jobj [])
  let sch0 : Obj :=
    match getKeyD hf4 "schedule" .jnull with
    | .jobj s => s
    | _ => []
  let hf5 := setKey hf4 "schedule" (.jobj (normSchedule sch0))
  -- if h.get("difficulty") not in ["easy", "mid", "hard"]: h["difficulty"] = "easy"
  if getKeyD hf5 "difficulty" .jnull ∈ [JVal.jstr "easy", .jstr "mid", .jstr "hard"]
  then hf5 else setKey hf5 "difficulty" (.jstr "easy")

/-- One iteration of the habit loop; non-dict entries are skipped
(`if not isinstance(h, dict): continue`). -/
def normHabit : JVal → JVal
  | .jobj hf => .jobj (normHabitFields hf)
  | h => h

/-- The body of the `for r in plan.get("reminders", []) or []` loop. -/
def normReminderFields (rf0 : Obj) : Obj :=
  let rf1 := setdefaultKey rf0 "title" (.jstr "리마인더")
  let rf2 := setdefaultKey rf1 "time" (.jstr "09:00")
  let rf3 := setdefaultKey rf2 "rrule" (.jstr "FREQ=DAILY")
  let t := pyStr (pyOr (getKeyD rf3 "time" .jnull) (.jstr "09:00"))
  let rf4 := if matchesTimeRe t then rf3 else setKey rf3 "time" (.jstr "09:00")
  if pyStartsWith (pyStr (pyOr (getKeyD rf4 "rrule" .jnull) (.jstr ""))) "FREQ="
  then rf4 else setKey rf4 "rrule" (.jstr "FREQ=DAILY")

/-- One iteration of the reminder loop; non-dict entries are skipped. -/
def normReminder : JVal → JVal
  | .jobj rf => .jobj (normReminderFields rf)
  | r => r

/-- Model of `for x in (v or []): <mutate x in place>`.

`v or []` short-circuits falsy values to an empty iteration, leaving `v`
itself untouched.  Iterating a string yields fresh one-character strings and
iterating a dict yields its keys, so in both cases the loop body (which only
mutates dict items) changes nothing.  Iterating a truthy number or `True`
raises `TypeError`. -/
def iterMut (f : JVal → JVal) (v : JVal) : Except String JVal :=
  if pyTruthy v = false then .ok v
  else match v with
  | .jarr xs => .ok (.jarr (xs.map f))
  | .jstr s => .ok (.jstr s)
  | .jobj fs => .ok (.jobj fs)
  | _ => .error "TypeError: object is not iterable"

/-- The six `plan.setdefault(...)` lines at the top of `normalize_plan`. -/
def planDefaults (fs0 : Obj) : Obj :=
  let fs1 := setdefaultKey fs0 "summary" (.jstr "")
  let fs2 := setdefaultKey fs1 "pain_points" (.jarr [])
  let fs3 := setdefaultKey fs2 "solutions" (.jarr [])
  let fs4 := setdefaultKey fs3 "new_habits" (.jarr [])
  let fs5 := setdefaultKey fs4 "reminders" (.jarr [])
  setdefaultKey fs5 "next_adjustment_rules" (.jarr [])

/-- `normalize_plan` (app.py lines 203-260): fill the six required keys with
`setdefault`, normalize each habit dict and each reminder dict in place, and
return the (mutated) plan.  A non-dict argument yields `{}`.  The `Except`
layer carries the `TypeError` raised when `new_habits` or `reminders` is a
truthy non-iterable value. -/
def normalize_plan (plan : JVal) : Except String JVal :=
  match plan with
  | .jobj fs0 =>
      let fs6 := planDefaults fs0
      match iterMut normHabit (getKeyD fs6 "new_habits" .jnull) with
      | .error e => .error e
      | .ok nh =>
          let fs7 := setKey fs6 "new_habits" nh
          match iterMut normReminder (getKeyD fs7 "reminders" .jnull) with
          | .error e => .error e
          | .ok rm => .ok (.jobj (setKey fs7 "reminders" rm))
  | _ => .ok (.jobj [])

theorem lookupKey_append_of_none {o : Obj} {k : String} (o' : Obj)
    (h : lookupKey o k = none) : lookupKey (o ++ o') k = lookupKey o' k := by
  induction o with
  | nil => rfl
  | cons a rest ih =>
      obtain ⟨a1, a2⟩ := a
      by_cases hk : a1 = k
      · simp [lookupKey, hk] at h
      · simp only [lookupKey, hk, if_false, List.cons_append] at h ⊢
        exact ih h

theorem lookupKey_append_of_some {o : Obj} {k : String} {v : JVal} (o' : Obj)
    (h : lookupKey o k = some v) : lookupKey (o ++ o') k = some v := by
  induction o with
  | nil => simp [lookupKey] at h
  | cons a rest ih =>
      obtain ⟨a1, a2⟩ := a
      by_cases hk : a1 = k
      · simp_all [lookupKey]
      · simp only [lookupKey, hk, if_false, List.cons_append] at h ⊢
        exact ih h

theorem lookupKey_setKey_self (o : Obj) (k : String) (v : JVal) :
    lookupKey (setKey o k v) k = some v := by
  induction o with
  | nil => simp [setKey, lookupKey]
  | cons a rest ih =>
      obtain ⟨a1, a2⟩ := a
      by_cases hk : a1 = k <;> simp [setKey, lookupKey, hk, ih]

theorem lookupKey_setKey_ne (o : Obj) {k k' : String} (v : JVal) (h : k ≠ k') :
    lookupKey (setKey o k v) k' = lookupKey o k' := by
  induction o with
  | nil => simp [setKey, lookupKey, h]
  | cons a rest ih =>
      obtain ⟨a1, a2⟩ := a
      by_cases hk : a1 = k
      · subst hk
        simp [setKey, lookupKey, h, ih]
      · simp [setKey, lookupKey, hk, ih]

theorem setKey_of_lookupKey_eq {o : Obj} {k : String} {v : JVal}
    (h : lookupKey o k = some v) : setKey o k v = o := by
  induction o with
  | nil => simp [lookupKey] at h
  | cons a rest ih =>
      obtain ⟨a1, a2⟩ := a
      by_cases hk : a1 = k
      · subst hk
        simp only [lookupKey, if_pos] at h
        cases h
        simp [setKey]
      · simp only [lookupKey, hk, if_false] at h
        simp [setKey, hk, ih h]

theorem setdefaultKey_of_some {o : Obj} {k : String} {w : JVal} (v : JVal)
    (h : lookupKey o k = some w) : setdefaultKey o k v = o := by
  simp [setdefaultKey, h]

theorem lookupKey_setdefaultKey_self (o : Obj) (k : String) (v : JVal) :
    lookupKey (setdefaultKey o k v) k = some ((lookupKey o k).getD v) := by
  unfold setdefaultKey
  cases h : lookupKey o k with
  | some w => simp [h]
  | none => simp [lookupKey_append_of_none _ h, lookupKey]

theorem lookupKey_setdefaultKey_ne (o : Obj) {k k' : String} (v : JVal) (h : k ≠ k') :
    lookupKey (setdefaultKey o k v) k' = lookupKey o k' := by
  unfold setdefaultKey
  cases hp : lookupKey o k with
  | some w => rfl
  | none =>
      cases hq : lookupKey o k' with
      | some w => exact lookupKey_append_of_some _ hq
      | none => simp [lookupKey_append_of_none _ hq, lookupKey, h]

theorem digitChar_isDigit (d : Nat) : (digitChar d).isDigit = true := by
  unfold digitChar
  split <;> decide

theorem mem_natDigitsAux {fuel n : Nat} {c : Char} (h : c ∈ natDigitsAux fuel n) :
    ∃ d, c = digitChar d := by
  induction fuel generalizing n with
  | zero => simp [natDigitsAux] at h
  | succ fuel ih =>
      unfold natDigitsAux at h
      by_cases hn : n < 10
      · simp [hn] at h
        exact ⟨n, h⟩
      · simp only [hn, if_false, List.mem_append, List.mem_singleton] at h
        rcases h with h | h
        · exact ih h
        · exact ⟨n % 10, h⟩

theorem pyIntRepr_chars {n : Int} {c : Char} (h : c ∈ (pyIntRepr n).data) :
    c = '-' ∨ ∃ d, c = digitChar d := by
  unfold pyIntRepr at h
  by_cases hn : n < 0
  · simp only [hn, if_true, if_pos] at h
    rcases List.mem_cons.mp h with h | h
    · exact Or.inl h
    · exact Or.inr (mem_natDigitsAux h)
  · simp only [hn, if_false] at h
    exact Or.inr (mem_natDigitsAux h)

/-- Anatomy of a string accepted by the time pattern: it starts with a
digit and its third character is the colon. -/
theorem matchesTimeRe_spec {s : String} (h : matchesTimeRe s = true) :
    ∃ a b d e rest, s.data = a :: b :: ':' :: d :: e :: rest ∧ a.isDigit = true := by
  unfold matchesTimeRe at h
  rcases hl : s.data with _ | ⟨a, _ | ⟨b, _ | ⟨c, _ | ⟨d, _ | ⟨e, _ | ⟨f, _ | ⟨g, tail⟩⟩⟩⟩⟩⟩⟩
  all_goals rw [hl] at h
  · simp at h
  · simp at h
  · simp at h
  · simp at h
  · simp at h
  · simp only [Bool.and_eq_true, beq_iff_eq] at h
    obtain ⟨⟨⟨⟨ha, hb⟩, hc⟩, hd⟩, he⟩ := h
    subst hc
    exact ⟨a, b, d, e, [], rfl, ha⟩
  · simp only [Bool.and_eq_true, beq_iff_eq] at h
    obtain ⟨⟨⟨⟨⟨ha, hb⟩, hc⟩, hd⟩, he⟩, hf⟩ := h
    subst hc
    subst hf
    exact ⟨a, b, d, e, ['\n'], rfl, ha⟩
  · simp at h

theorem matchesTimeRe_colon {s : String} (h : matchesTimeRe s = true) : ':' ∈ s.data := by
  obtain ⟨a, b, d, e, rest, hl, -⟩ := matchesTimeRe_spec h
  rw [hl]
  simp

theorem matchesTimeRe_head {s : String} (h : matchesTimeRe s = true) :
    ∃ c l, s.data = c :: l ∧ c.isDigit = true := by
  obtain ⟨a, b, d, e, rest, hl, ha⟩ := matchesTimeRe_spec h
  exact ⟨a, _, hl, ha⟩

theorem matchesTimeRe_pyIntRepr (n : Int) : matchesTimeRe (pyIntRepr n) = false := by
  cases h : matchesTimeRe (pyIntRepr n)
  · rfl
  · rcases pyIntRepr_chars (matchesTimeRe_colon h) with hc | ⟨d, hc⟩
    · simp at hc
    · have hd := digitChar_isDigit d
      rw [← hc] at hd
      simp at hd

theorem pyStr_jbool_true : pyStr (JVal.jbool true) = "True" := by
  have h1 : pyStr (JVal.jbool true) = pyRepr (JVal.jbool true) := rfl
  rw [h1, pyRepr]

theorem pyStr_jnum (n : Int) : pyStr (JVal.jnum n) = pyIntRepr n := by
  have h1 : pyStr (JVal.jnum n) = pyRepr (JVal.jnum n) := rfl
  rw [h1, pyRepr]

theorem pyStr_jarr_data (xs : List JVal) :
    (pyStr (JVal.jarr xs)).data = '[' :: ((pyReprList xs).data ++ [']']) := by
  have h1 : pyStr (JVal.jarr xs) = pyRepr (JVal.jarr xs) := rfl
  rw [h1, pyRepr]
  rfl

theorem pyStr_jobj_data (fs : List (String × JVal)) :
    (pyStr (JVal.jobj fs)).data = '\x7b' :: ((pyReprFields fs).data ++ ['\x7d']) := by
  have h1 : pyStr (JVal.jobj fs) = pyRepr (JVal.jobj fs) := rfl
  rw [h1, pyRepr]
  rfl

/-- If a truthy value prints (via `str`) as a string matching the time
pattern, the value itself is a string matching the pattern. -/
theorem matchesTimeRe_pyStr_classify {v : JVal} (hT : pyTruthy v = true)
    (h : matchesTimeRe (pyStr v) = true) : ∃ s, v = .jstr s ∧ matchesTimeRe s = true := by
  cases v with
  | jnull => simp [pyTruthy] at hT
  | jbool b =>
      cases b
      · simp [pyTruthy] at hT
      · rw [pyStr_jbool_true] at h
        exact absurd h (by decide)
  | jnum n =>
      rw [pyStr_jnum, matchesTimeRe_pyIntRepr] at h
      simp at h
  | jstr s => exact ⟨s, rfl, h⟩
  | jarr xs =>
      obtain ⟨c, l, hdata, hdig⟩ := matchesTimeRe_head h
      rw [pyStr_jarr_data] at hdata
      obtain ⟨hc, -⟩ := List.cons_eq_cons.mp hdata
      rw [← hc] at hdig
      simp at hdig
  | jobj fs =>
      obtain ⟨c, l, hdata, hdig⟩ := matchesTimeRe_head h
      rw [pyStr_jobj_data] at hdata
      obtain ⟨hc, -⟩ := List.cons_eq_cons.mp hdata
      rw [← hc] at hdig
      simp at hdig

theorem pyStartsWith_FREQ_head {s : String} (h : pyStartsWith s "FREQ=" = true) :
    ∃ l, s.data = 'F' :: l := by
  unfold pyStartsWith at h
  have hd : "FREQ=".data = ['F', 'R', 'E', 'Q', '='] := rfl
  rw [hd] at h
  cases hl : s.data with
  | nil => rw [hl] at h; simp [List.isPrefixOf] at h
  | cons c l =>
      rw [hl] at h
      simp only [List.isPrefixOf, Bool.and_eq_true, beq_iff_eq] at h
      exact ⟨l, by rw [h.1]⟩

/-- If a truthy value prints (via `str`) as a string starting with `FREQ=`,
the value itself is such a string. -/
theorem pyStartsWith_FREQ_classify {v : JVal} (hT : pyTruthy v = true)
    (h : pyStartsWith (pyStr v) "FREQ=" = true) :
    ∃ s, v = .jstr s ∧ pyStartsWith s "FREQ=" = true := by
  cases v with
  | jnull => simp [pyTruthy] at hT
  | jbool b =>
      cases b
      · simp [pyTruthy] at hT
      · rw [pyStr_jbool_true] at h
        exact absurd h (by decide)
  | jnum n =>
      rw [pyStr_jnum] at h
      obtain ⟨l, hl⟩ := pyStartsWith_FREQ_head h
      have hmem : 'F' ∈ (pyIntRepr n).data := by rw [hl]; simp
      rcases pyIntRepr_chars hmem with hc | ⟨d, hc⟩
      · simp at hc
      · have hd := digitChar_isDigit d
        rw [← hc] at hd
        simp at hd
  | jstr s => exact ⟨s, rfl, h⟩
  | jarr xs =>
      obtain ⟨l, hl⟩ := pyStartsWith_FREQ_head h
      rw [pyStr_jarr_data] at hl
      obtain ⟨hc, -⟩ := List.cons_eq_cons.mp hl
      simp at hc
  | jobj fs =>
      obtain ⟨l, hl⟩ := pyStartsWith_FREQ_head h
      rw [pyStr_jobj_data] at hl
      obtain ⟨hc, -⟩ := List.cons_eq_cons.mp hl
      simp at hc

/-- After normalization a stored time field is either a falsy value (kept
unchanged by the `or "09:00"` coercion) or a string matching the pattern. -/
def timeFieldOK (v : JVal) : Prop :=
  pyTruthy v = false ∨ ∃ s, v = JVal.jstr s ∧ matchesTimeRe s = true

/-- Shape guaranteed for every habit dict after `normalize_plan`. -/
def habitOK (hf : Obj) : Prop :=
  (∃ d, lookupKey hf "difficulty" = some d ∧
    d ∈ [JVal.jstr "easy", JVal.jstr "mid", JVal.jstr "hard"]) ∧
  ∃ sch, lookupKey hf "schedule" = some (.jobj sch) ∧
    (∃ ds, lookupKey sch "days" = some (.jarr ds) ∧ ds ≠ [] ∧
      ∀ d ∈ ds, d ∈ weekdayVals) ∧
    (∃ tv, lookupKey sch "time" = some tv ∧ timeFieldOK tv)

/-- Shape guaranteed for every reminder dict after `normalize_plan`. -/
def reminderOK (rf : Obj) : Prop :=
  (∃ tv, lookupKey rf "time" = some tv ∧ timeFieldOK tv) ∧
  (∃ s, lookupKey rf "rrule" = some (.jstr s) ∧ pyStartsWith s "FREQ=" = true)

theorem normDays_spec (v : JVal) :
    ∃ ds, normDays v = .jarr ds ∧ ds ≠ [] ∧ ∀ d ∈ ds, d ∈ weekdayVals := by
  have hdef : defaultDays ≠ [] ∧ ∀ d ∈ defaultDays, d ∈ weekdayVals := by
    constructor
    · simp [defaultDays]
    · intro d hd
      fin_cases hd <;> simp [weekdayVals, WEEKDAYS]
  cases v with
  | jarr ds =>
      by_cases he : (ds.filter (fun d => d ∈ weekdayVals)).isEmpty
      · exact ⟨defaultDays, by simp [normDays, he], hdef.1, hdef.2⟩
      · refine ⟨ds.filter (fun d => d ∈ weekdayVals), by simp [normDays, he], ?_, ?_⟩
        · intro hnil
          rw [hnil] at he
          simp at he
        · intro d hd
          have := List.of_mem_filter hd
          simpa using this
  | jnull => exact ⟨defaultDays, rfl, hdef.1, hdef.2⟩
  | jbool b => exact ⟨defaultDays, rfl, hdef.1, hdef.2⟩
  | jnum n => exact ⟨defaultDays, rfl, hdef.1, hdef.2⟩
  | jstr s => exact ⟨defaultDays, rfl, hdef.1, hdef.2⟩
  | jobj fs => exact ⟨defaultDays, rfl, hdef.1, hdef.2⟩

theorem normSchedule_days (s : Obj) :
    ∃ ds, lookupKey (normSchedule s) "days" = some (.jarr ds) ∧ ds ≠ [] ∧
      ∀ d ∈ ds, d ∈ weekdayVals := by
  unfold normSchedule
  dsimp only
  obtain ⟨ds, hnd, hne, hmem⟩ := normDays_spec
    (pyOr (getKeyD (setdefaultKey (setdefaultKey (setdefaultKey s "days" (.jarr defaultDays))
      "time" (.jstr "09:00")) "frequency_per_week" (.jnum 3)) "days" .jnull) (.jarr []))
  split
  · rw [hnd, lookupKey_setKey_self]
    exact ⟨ds, rfl, hne, hmem⟩
  · rw [lookupKey_setKey_ne _ _ (by decide), hnd, lookupKey_setKey_self]
    exact ⟨ds, rfl, hne, hmem⟩

theorem normSchedule_time (s : Obj) :
    ∃ tv, lookupKey (normSchedule s) "time" = some tv ∧ timeFieldOK tv := by
  unfold normSchedule
  dsimp only
  set s3 := setdefaultKey (setdefaultKey (setdefaultKey s "days" (.jarr defaultDays))
    "time" (.jstr "09:00")) "frequency_per_week" (.jnum 3) with hs3
  set s4 := setKey s3 "days" (normDays (pyOr (getKeyD s3 "days" .jnull) (.jarr []))) with hs4
  have htv : ∃ tv, lookupKey s4 "time" = some tv := by
    rw [hs4, lookupKey_setKey_ne _ _ (by decide), hs3,
      lookupKey_setdefaultKey_ne _ _ (by decide), lookupKey_setdefaultKey_self]
    exact ⟨_, rfl⟩
  obtain ⟨tv, htv⟩ := htv
  split
  · next hmatch =>
      refine ⟨tv, htv, ?_⟩
      by_cases htr : pyTruthy tv
      · rw [show getKeyD s4 "time" .jnull = tv from by rw [getKeyD, htv]; rfl] at hmatch
        rw [show pyOr tv (.jstr "09:00") = tv from by simp [pyOr, htr]] at hmatch
        exact Or.inr (matchesTimeRe_pyStr_classify htr hmatch)
      · exact Or.inl (by simpa using htr)
  · refine ⟨.jstr "09:00", lookupKey_setKey_self .., Or.inr ⟨"09:00", rfl, by decide⟩⟩

theorem habitOK_normHabitFields (hf0 : Obj) : habitOK (normHabitFields hf0) := by
  unfold normHabitFields
  dsimp only
  set hf3 := setdefaultKey (setdefaultKey (setdefaultKey hf0 "name" (.jstr "새 습관"))
    "why" (.jstr "")) "difficulty" (.jstr "easy") with hhf3
  set hf4 := setdefaultKey hf3 "schedule" (.jobj []) with hhf4
  have hd3 : ∃ d0, lookupKey hf3 "difficulty" = some d0 := by
    rw [hhf3, lookupKey_setdefaultKey_self]
    exact ⟨_, rfl⟩
  obtain ⟨d0, hd3⟩ := hd3
  have hd4 : lookupKey hf4 "difficulty" = some d0 := by
    rw [hhf4, lookupKey_setdefaultKey_ne _ _ (by decide), hd3]
  generalize (match getKeyD hf4 "schedule" JVal.jnull with
    | JVal.jobj s => s
    | _ => ([] : Obj)) = sch0
  set hf5 := setKey hf4 "schedule" (.jobj (normSchedule sch0)) with hhf5
  have hd5 : lookupKey hf5 "difficulty" = some d0 := by
    rw [hhf5, lookupKey_setKey_ne _ _ (by decide), hd4]
  have hs5 : lookupKey hf5 "schedule" = some (.jobj (normSchedule sch0)) := by
    rw [hhf5, lookupKey_setKey_self]
  split
  · next hin =>
      refine ⟨⟨d0, hd5, ?_⟩, normSchedule sch0, hs5, normSchedule_days _, normSchedule_time _⟩
      rw [getKeyD, hd5] at hin
      simpa using hin
  · next hout =>
      refine ⟨⟨.jstr "easy", lookupKey_setKey_self .., by simp⟩,
        normSchedule sch0, ?_, normSchedule_days _, normSchedule_time _⟩
      rw [lookupKey_setKey_ne _ _ (by decide), hs5]

theorem reminderOK_normReminderFields (rf0 : Obj) : reminderOK (normReminderFields rf0) := by
  unfold normReminderFields
  dsimp only
  set rf2 := setdefaultKey (setdefaultKey rf0 "title" (.jstr "리마인더"))
    "time" (.jstr "09:00") with hrf2
  set rf3 := setdefaultKey rf2 "rrule" (.jstr "FREQ=DAILY") with hrf3
  have ht3 : ∃ tv, lookupKey rf3 "time" = some tv := by
    rw [hrf3, lookupKey_setdefaultKey_ne _ _ (by decide), hrf2, lookupKey_setdefaultKey_self]
    exact ⟨_, rfl⟩
  obtain ⟨tv, ht3⟩ := ht3
  have hr3 : ∃ rv, lookupKey rf3 "rrule" = some rv := by
    rw [hrf3, lookupKey_setdefaultKey_self]
    exact ⟨_, rfl⟩
  obtain ⟨rv, hr3⟩ := hr3
  set rf4 := (if matchesTimeRe (pyStr (pyOr (getKeyD rf3 "time" .jnull) (.jstr "09:00")))
    then rf3 else setKey rf3 "time" (.jstr "09:00")) with hrf4
  have hr4 : lookupKey rf4 "rrule" = some rv := by
    rw [hrf4]
    split
    · exact hr3
    · rw [lookupKey_setKey_ne _ _ (by decide)]
      exact hr3
  have ht4 : ∃ tv, lookupKey rf4 "time" = some tv ∧ timeFieldOK tv := by
    rw [hrf4]
    split
    · next hmatch =>
        refine ⟨tv, ht3, ?_⟩
        by_cases htr : pyTruthy tv
        · rw [show getKeyD rf3 "time" .jnull = tv from by rw [getKeyD, ht3]; rfl] at hmatch
          rw [show pyOr tv (.jstr "09:00") = tv from by simp [pyOr, htr]] at hmatch
          exact Or.inr (matchesTimeRe_pyStr_classify htr hmatch)
        · exact Or.inl (by simpa using htr)
    · exact ⟨.jstr "09:00", lookupKey_setKey_self .., Or.inr ⟨"09:00", rfl, by decide⟩⟩
  split
  · next hin =>
      rw [show getKeyD rf4 "rrule" .jnull = rv from by rw [getKeyD, hr4]; rfl] at hin
      by_cases htr : pyTruthy rv
      · rw [show pyOr rv (.jstr "") = rv from by simp [pyOr, htr]] at hin
        obtain ⟨s, hs, hsw⟩ := pyStartsWith_FREQ_classify htr hin
        exact ⟨ht4, s, by rw [hr4, hs], hsw⟩
      · rw [show pyOr rv (.jstr "") = .jstr "" from by simp [pyOr, htr]] at hin
        have hps : pyStr (JVal.jstr "") = "" := rfl
        rw [hps] at hin
        exact absurd hin (by decide)
  · next hout =>
      obtain ⟨tv4, h1, h2⟩ := ht4
      refine ⟨⟨tv4, ?_, h2⟩, "FREQ=DAILY", lookupKey_setKey_self .., by decide⟩
      rw [lookupKey_setKey_ne _ _ (by decide), h1]

theorem iterMut_ok_arr {f : JVal → JVal} {v : JVal} {hs : List JVal}
    (h : iterMut f v = .ok (.jarr hs)) : hs = [] ∨ ∃ xs : List JVal, hs = xs.map f := by
  unfold iterMut at h
  split at h
  · next ht =>
      have hv : v = .jarr hs := by
        injection h
      subst hv
      simp only [pyTruthy] at ht
      left
      simpa using ht
  · next ht =>
      cases v with
      | jarr xs =>
          right
          refine ⟨xs, ?_⟩
          injection h with h
          injection h with h
          exact h.symm
      | jstr s => injection h with h; cases h
      | jobj fs => injection h with h; cases h
      | jnull => cases h
      | jbool b => cases h
      | jnum n => cases h

theorem normalize_plan_ok_unpack {fs : Obj} {p : JVal}
    (h : normalize_plan (.jobj fs) = .ok p) :
    ∃ nh rm, iterMut normHabit (getKeyD (planDefaults fs) "new_habits" .jnull) = .ok nh ∧
      iterMut normReminder
        (getKeyD (setKey (planDefaults fs) "new_habits" nh) "reminders" .jnull) = .ok rm ∧
      p = .jobj (setKey (setKey (planDefaults fs) "new_habits" nh) "reminders" rm) := by
  unfold normalize_plan at h
  dsimp only at h
  split at h
  · cases h
  · next nh hnh =>
      split at h
      · cases h
      · next rm hrm =>
          injection h with h
          exact ⟨nh, rm, hnh, hrm, h.symm⟩

/-- The six top-level keys required of a plan. -/
def sixKeys : List String :=
  ["summary", "pain_points", "solutions", "new_habits", "reminders", "next_adjustment_rules"]

theorem planDefaults_keys (fs : Obj) :
    ∀ k ∈ sixKeys, ∃ v, lookupKey (planDefaults fs) k = some v := by
  intro k hk
  unfold planDefaults
  dsimp only
  fin_cases hk
  · rw [lookupKey_setdefaultKey_ne _ _ (by decide), lookupKey_setdefaultKey_ne _ _ (by decide),
      lookupKey_setdefaultKey_ne _ _ (by decide), lookupKey_setdefaultKey_ne _ _ (by decide),
      lookupKey_setdefaultKey_ne _ _ (by decide), lookupKey_setdefaultKey_self]
    exact ⟨_, rfl⟩
  · rw [lookupKey_setdefaultKey_ne _ _ (by decide), lookupKey_setdefaultKey_ne _ _ (by decide),
      lookupKey_setdefaultKey_ne _ _ (by decide), lookupKey_setdefaultKey_ne _ _ (by decide),
      lookupKey_setdefaultKey_self]
    exact ⟨_, rfl⟩
  · rw [lookupKey_setdefaultKey_ne _ _ (by decide), lookupKey_setdefaultKey_ne _ _ (by decide),
      lookupKey_setdefaultKey_ne _ _ (by decide), lookupKey_setdefaultKey_self]
    exact ⟨_, rfl⟩
  · rw [lookupKey_setdefaultKey_ne _ _ (by decide), lookupKey_setdefaultKey_ne _ _ (by decide),
      lookupKey_setdefaultKey_self]
    exact ⟨_, rfl⟩
  · rw [lookupKey_setdefaultKey_ne _ _ (by decide), lookupKey_setdefaultKey_self]
    exact ⟨_, rfl⟩
  · rw [lookupKey_setdefaultKey_self]
    exact ⟨_, rfl⟩

theorem mem_map_normHabit {hs xs : List JVal} (hmap : hs = xs.map normHabit)
    {hf : Obj} (hmem : JVal.jobj hf ∈ hs) : ∃ hf0, hf = normHabitFields hf0 := by
  subst hmap
  obtain ⟨x, hx, hfx⟩ := List.mem_map.mp hmem
  cases x with
  | jobj hf0 =>
      refine ⟨hf0, ?_⟩
      have he : normHabit (.jobj hf0) = .jobj (normHabitFields hf0) := rfl
      rw [he] at hfx
      injection hfx with hfx
      exact hfx.symm
  | jnull => rw [show normHabit .jnull = .jnull from rfl] at hfx; cases hfx
  | jbool b => rw [show normHabit (.jbool b) = .jbool b from rfl] at hfx; cases hfx
  | jnum n => rw [show normHabit (.jnum n) = .jnum n from rfl] at hfx; cases hfx
  | jstr s => rw [show normHabit (.jstr s) = .jstr s from rfl] at hfx; cases hfx
  | jarr ys => rw [show normHabit (.jarr ys) = .jarr ys from rfl] at hfx; cases hfx

theorem mem_map_normReminder {rs xs : List JVal} (hmap : rs = xs.map normReminder)
    {rf : Obj} (hmem : JVal.jobj rf ∈ rs) : ∃ rf0, rf = normReminderFields rf0 := by
  subst hmap
  obtain ⟨x, hx, hfx⟩ := List.mem_map.mp hmem
  cases x with
  | jobj rf0 =>
      refine ⟨rf0, ?_⟩
      have he : normReminder (.jobj rf0) = .jobj (normReminderFields rf0) := rfl
      rw [he] at hfx
      injection hfx with hfx
      exact hfx.symm
  | jnull => rw [show normReminder .jnull = .jnull from rfl] at hfx; cases hfx
  | jbool b => rw [show normReminder (.jbool b) = .jbool b from rfl] at hfx; cases hfx
  | jnum n => rw [show normReminder (.jnum n) = .jnum n from rfl] at hfx; cases hfx
  | jstr s => rw [show normReminder (.jstr s) = .jstr s from rfl] at hfx; cases hfx
  | jarr ys => rw [show normReminder (.jarr ys) = .jarr ys from rfl] at hfx; cases hfx

/-- Claim C1 (amended): for every dict input on which `normalize_plan`
returns, the result carries all six top-level keys; every habit entry that is
a dict has difficulty in `{easy, mid, hard}` and a schedule dict whose
`days` is a non-empty list of weekday tokens and whose `time` either matches
the `\d\d:\d\d` pattern or is an unchanged falsy value; every reminder entry
that is a dict has such a `time` and an `rrule` string starting `FREQ=`.
(The original claim fails for falsy time values, which the code leaves in
place; see the counterexample.) -/
theorem normalize_plan_enforces_shape (fs gs : Obj)
    (h : normalize_plan (.jobj fs) = .ok (.jobj gs)) :
    (∀ k ∈ sixKeys, ∃ v, lookupKey gs k = some v) ∧
    (∀ hs, lookupKey gs "new_habits" = some (.jarr hs) →
      ∀ hf, JVal.jobj hf ∈ hs → habitOK hf) ∧
    (∀ rs, lookupKey gs "reminders" = some (.jarr rs) →
      ∀ rf, JVal.jobj rf ∈ rs → reminderOK rf) := by
  obtain ⟨nh, rm, hnh, hrm, hp⟩ := normalize_plan_ok_unpack h
  have hgs : gs = setKey (setKey (planDefaults fs) "new_habits" nh) "reminders" rm := by
    injection hp
  have hlh : lookupKey gs "new_habits" = some nh := by
    rw [hgs, lookupKey_setKey_ne _ _ (by decide), lookupKey_setKey_self]
  have hlr : lookupKey gs "reminders" = some rm := by
    rw [hgs, lookupKey_setKey_self]
  refine ⟨?_, ?_, ?_⟩
  · intro k hk
    obtain ⟨v, hv⟩ := planDefaults_keys fs k hk
    by_cases h1 : k = "reminders"
    · exact ⟨rm, h1 ▸ hlr⟩
    by_cases h2 : k = "new_habits"
    · exact ⟨nh, h2 ▸ hlh⟩
    refine ⟨v, ?_⟩
    rw [hgs, lookupKey_setKey_ne _ _ (fun he => h1 he.symm),
      lookupKey_setKey_ne _ _ (fun he => h2 he.symm), hv]
  · intro hs hlk hf hmem
    rw [hlh] at hlk
    injection hlk with hlk
    rcases iterMut_ok_arr (hlk ▸ hnh) with hnil | ⟨xs, hmap⟩
    · rw [hnil] at hmem
      cases hmem
    · obtain ⟨hf0, hrw⟩ := mem_map_normHabit hmap hmem
      rw [hrw]
      exact habitOK_normHabitFields hf0
  · intro rs hlk rf hmem
    rw [hlr] at hlk
    injection hlk with hlk
    rcases iterMut_ok_arr (hlk ▸ hrm) with hnil | ⟨xs, hmap⟩
    · rw [hnil] at hmem
      cases hmem
    · obtain ⟨rf0, hrw⟩ := mem_map_normReminder hmap hmem
      rw [hrw]
      exact reminderOK_normReminderFields rf0

/-- The result of `normalize_plan({})`. -/
def gsDefault : Obj :=
  [("summary", .jstr ""), ("pain_points", .jarr []), ("solutions", .jarr []),
   ("new_habits", .jarr []), ("reminders", .jarr []), ("next_adjustment_rules", .jarr [])]

/-- Witness for `normalize_plan_enforces_shape` at the empty plan. -/
theorem normalize_plan_enforces_shape_witness :
    (∀ k ∈ sixKeys, ∃ v, lookupKey gsDefault k = some v) ∧
    (∀ hs, lookupKey gsDefault "new_habits" = some (.jarr hs) →
      ∀ hf, JVal.jobj hf ∈ hs → habitOK hf) ∧
    (∀ rs, lookupKey gsDefault "reminders" = some (.jarr rs) →
      ∀ rf, JVal.jobj rf ∈ rs → reminderOK rf) :=
  normalize_plan_enforces_shape [] gsDefault (by rfl)

/-- `v` passes the habit-plan time-pattern test as a string. -/
def isTimeMatchVal : JVal → Bool
  | .jstr s => matchesTimeRe s
  | _ => false

/-- Accessor: the `time` of the first habit's schedule of a normalized plan. -/
def planHabitTime : Except String JVal → Option JVal
  | .ok (.jobj gs) =>
      match lookupKey gs "new_habits" with
      | some (.jarr (JVal.jobj hf :: _)) =>
          match lookupKey hf "schedule" with
          | some (.jobj sch) => lookupKey sch "time"
          | _ => none
      | _ => none
  | _ => none

/-- A plan whose single habit has a `null` schedule time. -/
def cexPlanC1 : JVal :=
  .jobj [("new_habits", .jarr [.jobj [("schedule", .jobj [("time", .jnull)])]])]

/-- Claim C1 counterexample: a habit schedule time of `null` survives
`normalize_plan` unchanged (because `str(None or "09:00")` matches the
pattern, the corrective branch is skipped without writing the value back),
so the stored time neither matches the two-digit pattern nor equals the
default `"09:00"`. -/
theorem normalize_plan_keeps_falsy_time :
    planHabitTime (normalize_plan cexPlanC1) = some .jnull ∧
    isTimeMatchVal .jnull = false ∧ JVal.jnull ≠ JVal.jstr "09:00" :=
  ⟨by rfl, rfl, by decide⟩

/-- Accessor: the `pain_points` entry of a normalized plan. -/
def planPainPoints : Except String JVal → Option JVal
  | .ok (.jobj gs) => lookupKey gs "pain_points"
  | _ => none

/-- A plan whose `pain_points` has the wrong shape (a string). -/
def cexPlanC3 : JVal := .jobj [("pain_points", .jstr "oops")]

/-- Claim C3 counterexample: a present `pain_points` of the wrong shape is
NOT replaced by the empty default; `setdefault` only fills absent keys. -/
theorem normalize_plan_keeps_wrong_shape :
    planPainPoints (normalize_plan cexPlanC3) = some (.jstr "oops") ∧
    JVal.jstr "oops" ≠ .jarr [] :=
  ⟨by rfl, by decide⟩

/-- The default installed for each of the six keys. -/
def sixDefault (k : String) : JVal := if k = "summary" then .jstr "" else .jarr []

theorem lookupKey_planDefaults_eq (fs : Obj) (k : String) (hk : k ∈ sixKeys) :
    lookupKey (planDefaults fs) k = some ((lookupKey fs k).getD (sixDefault k)) := by
  unfold planDefaults
  dsimp only
  fin_cases hk
  · rw [lookupKey_setdefaultKey_ne _ _ (by decide), lookupKey_setdefaultKey_ne _ _ (by decide),
      lookupKey_setdefaultKey_ne _ _ (by decide), lookupKey_setdefaultKey_ne _ _ (by decide),
      lookupKey_setdefaultKey_ne _ _ (by decide), lookupKey_setdefaultKey_self]
    simp [sixDefault]
  · rw [lookupKey_setdefaultKey_ne _ _ (by decide), lookupKey_setdefaultKey_ne _ _ (by decide),
      lookupKey_setdefaultKey_ne _ _ (by decide), lookupKey_setdefaultKey_ne _ _ (by decide),
      lookupKey_setdefaultKey_self, lookupKey_setdefaultKey_ne _ _ (by decide)]
    simp [sixDefault]
  · rw [lookupKey_setdefaultKey_ne _ _ (by decide), lookupKey_setdefaultKey_ne _ _ (by decide),
      lookupKey_setdefaultKey_ne _ _ (by decide), lookupKey_setdefaultKey_self,
      lookupKey_setdefaultKey_ne _ _ (by decide), lookupKey_setdefaultKey_ne _ _ (by decide)]
    simp [sixDefault]
  · rw [lookupKey_setdefaultKey_ne _ _ (by decide), lookupKey_setdefaultKey_ne _ _ (by decide),
      lookupKey_setdefaultKey_self, lookupKey_setdefaultKey_ne _ _ (by decide),
      lookupKey_setdefaultKey_ne _ _ (by decide), lookupKey_setdefaultKey_ne _ _ (by decide)]
    simp [sixDefault]
  · rw [lookupKey_setdefaultKey_ne _ _ (by decide), lookupKey_setdefaultKey_self,
      lookupKey_setdefaultKey_ne _ _ (by decide), lookupKey_setdefaultKey_ne _ _ (by decide),
      lookupKey_setdefaultKey_ne _ _ (by decide), lookupKey_setdefaultKey_ne _ _ (by decide)]
    simp [sixDefault]
  · rw [lookupKey_setdefaultKey_self, lookupKey_setdefaultKey_ne _ _ (by decide),
      lookupKey_setdefaultKey_ne _ _ (by decide), lookupKey_setdefaultKey_ne _ _ (by decide),
      lookupKey_setdefaultKey_ne _ _ (by decide), lookupKey_setdefaultKey_ne _ _ (by decide)]
    simp [sixDefault]

theorem iterMut_ok_nonlist {f : JVal → JVal} {v w : JVal}
    (h : iterMut f v = .ok w) (hv : ∀ xs : List JVal, v ≠ .jarr xs) : w = v := by
  unfold iterMut at h
  split at h
  · injection h with h
    exact h.symm
  · cases v with
    | jarr xs => exact absurd rfl (hv xs)
    | jstr s => injection h with h; exact h.symm
    | jobj fs => injection h with h; exact h.symm
    | jnull => cases h
    | jbool b => cases h
    | jnum n => cases h

/-- Claim C3 (amended): `normalize_plan` supplies the empty-list/empty-string
default only when a key is absent; a present value is retained even when it
has the wrong shape (for `new_habits`/`reminders`, a present non-list value
is returned unchanged whenever the function returns at all). -/
theorem normalize_plan_defaults_only_absent (fs gs : Obj) (k : String)
    (h : normalize_plan (.jobj fs) = .ok (.jobj gs)) :
    (k ∈ sixKeys → lookupKey fs k = none → lookupKey gs k = some (sixDefault k)) ∧
    (k ∈ ["summary", "pain_points", "solutions", "next_adjustment_rules"] →
      ∀ v, lookupKey fs k = some v → lookupKey gs k = some v) ∧
    (k ∈ ["new_habits", "reminders"] → ∀ v, lookupKey fs k = some v →
      (∀ xs : List JVal, v ≠ .jarr xs) → lookupKey gs k = some v) := by
  obtain ⟨nh, rm, hnh, hrm, hp⟩ := normalize_plan_ok_unpack h
  have hgs : gs = setKey (setKey (planDefaults fs) "new_habits" nh) "reminders" rm := by
    injection hp
  have hlh : lookupKey gs "new_habits" = some nh := by
    rw [hgs, lookupKey_setKey_ne _ _ (by decide), lookupKey_setKey_self]
  have hlr : lookupKey gs "reminders" = some rm := by
    rw [hgs, lookupKey_setKey_self]
  refine ⟨?_, ?_, ?_⟩
  · intro hk habs
    have hpd := lookupKey_planDefaults_eq fs k hk
    rw [habs] at hpd
    by_cases h1 : k = "new_habits"
    · subst h1
      have hget : getKeyD (planDefaults fs) "new_habits" .jnull = .jarr [] := by
        rw [getKeyD, hpd]
        simp [sixDefault]
      rw [hget] at hnh
      have hiter : iterMut normHabit (.jarr []) = .ok (.jarr []) := rfl
      rw [hiter] at hnh
      injection hnh with hnh
      rw [hlh, ← hnh]
      simp [sixDefault]
    by_cases h2 : k = "reminders"
    · subst h2
      have hget : getKeyD (setKey (planDefaults fs) "new_habits" nh) "reminders" .jnull
          = .jarr [] := by
        rw [getKeyD, lookupKey_setKey_ne _ _ (by decide), hpd]
        simp [sixDefault]
      rw [hget] at hrm
      have hiter : iterMut normReminder (.jarr []) = .ok (.jarr []) := rfl
      rw [hiter] at hrm
      injection hrm with hrm
      rw [hlr, ← hrm]
      simp [sixDefault]
    · rw [hgs, lookupKey_setKey_ne _ _ (fun he => h2 he.symm),
        lookupKey_setKey_ne _ _ (fun he => h1 he.symm), hpd]
      simp
  · intro hk
    fin_cases hk
    · intro v hv
      have hpd := lookupKey_planDefaults_eq fs "summary" (by simp [sixKeys])
      rw [hv] at hpd
      rw [hgs, lookupKey_setKey_ne _ _ (by decide), lookupKey_setKey_ne _ _ (by decide), hpd]
      simp
    · intro v hv
      have hpd := lookupKey_planDefaults_eq fs "pain_points" (by simp [sixKeys])
      rw [hv] at hpd
      rw [hgs, lookupKey_setKey_ne _ _ (by decide), lookupKey_setKey_ne _ _ (by decide), hpd]
      simp
    · intro v hv
      have hpd := lookupKey_planDefaults_eq fs "solutions" (by simp [sixKeys])
      rw [hv] at hpd
      rw [hgs, lookupKey_setKey_ne _ _ (by decide), lookupKey_setKey_ne _ _ (by decide), hpd]
      simp
    · intro v hv
      have hpd := lookupKey_planDefaults_eq fs "next_adjustment_rules" (by simp [sixKeys])
      rw [hv] at hpd
      rw [hgs, lookupKey_setKey_ne _ _ (by decide), lookupKey_setKey_ne _ _ (by decide), hpd]
      simp
  · intro hk
    fin_cases hk
    · intro v hv hnl
      have hpd := lookupKey_planDefaults_eq fs "new_habits" (by simp [sixKeys])
      rw [hv] at hpd
      have hget : getKeyD (planDefaults fs) "new_habits" .jnull = v := by
        rw [getKeyD, hpd]
        rfl
      rw [hget] at hnh
      rw [hlh, iterMut_ok_nonlist hnh hnl]
    · intro v hv hnl
      have hpd := lookupKey_planDefaults_eq fs "reminders" (by simp [sixKeys])
      rw [hv] at hpd
      have hget : getKeyD (setKey (planDefaults fs) "new_habits" nh) "reminders" .jnull = v := by
        rw [getKeyD, lookupKey_setKey_ne _ _ (by decide), hpd]
        rfl
      rw [hget] at hrm
      rw [hlr, iterMut_ok_nonlist hrm hnl]

/-- The result of normalizing `{"pain_points": "oops"}`. -/
def gsC3 : Obj :=
  [("pain_points", .jstr "oops"), ("summary", .jstr ""), ("solutions", .jarr []),
   ("new_habits", .jarr []), ("reminders", .jarr []), ("next_adjustment_rules", .jarr [])]

/-- Witness for `normalize_plan_defaults_only_absent` at a concrete plan with
a wrong-shape `pain_points`. -/
theorem normalize_plan_defaults_only_absent_witness :
    ("pain_points" ∈ sixKeys → lookupKey [("pain_points", JVal.jstr "oops")] "pain_points" = none →
      lookupKey gsC3 "pain_points" = some (sixDefault "pain_points")) ∧
    ("pain_points" ∈ ["summary", "pain_points", "solutions", "next_adjustment_rules"] →
      ∀ v, lookupKey [("pain_points", JVal.jstr "oops")] "pain_points" = some v →
        lookupKey gsC3 "pain_points" = some v) ∧
    ("pain_points" ∈ ["new_habits", "reminders"] →
      ∀ v, lookupKey [("pain_points", JVal.jstr "oops")] "pain_points" = some v →
        (∀ xs : List JVal, v ≠ .jarr xs) → lookupKey gsC3 "pain_points" = some v) :=
  normalize_plan_defaults_only_absent [("pain_points", .jstr "oops")] gsC3 "pain_points" (by rfl)

theorem normDays_truthy (v : JVal) : pyTruthy (normDays v) = true := by
  obtain ⟨ds, hds, hne, -⟩ := normDays_spec v
  rw [hds]
  simpa [pyTruthy] using hne

theorem normDays_fix (v : JVal) : normDays (normDays v) = normDays v := by
  obtain ⟨ds, hds, hne, hmem⟩ := normDays_spec v
  rw [hds]
  have hfilter : ds.filter (fun d => d ∈ weekdayVals) = ds :=
    List.filter_eq_self.mpr (fun a ha => by simpa using hmem a ha)
  unfold normDays
  dsimp only
  rw [hfilter, if_neg (by simp only [List.isEmpty_iff]; exact hne)]

theorem normSchedule_days_shape (s : Obj) :
    ∃ w, lookupKey (normSchedule s) "days" = some (normDays w) := by
  unfold normSchedule
  dsimp only
  split
  · rw [lookupKey_setKey_self]
    exact ⟨_, rfl⟩
  · rw [lookupKey_setKey_ne _ _ (by decide), lookupKey_setKey_self]
    exact ⟨_, rfl⟩

theorem normSchedule_time_match (s : Obj) :
    ∃ tv, lookupKey (normSchedule s) "time" = some tv ∧
      matchesTimeRe (pyStr (pyOr tv (.jstr "09:00"))) = true := by
  unfold normSchedule
  dsimp only
  set s3 := setdefaultKey (setdefaultKey (setdefaultKey s "days" (.jarr defaultDays))
    "time" (.jstr "09:00")) "frequency_per_week" (.jnum 3) with hs3
  set s4 := setKey s3 "days" (normDays (pyOr (getKeyD s3 "days" .jnull) (.jarr []))) with hs4
  have htv : ∃ tv, lookupKey s4 "time" = some tv := by
    rw [hs4, lookupKey_setKey_ne _ _ (by decide), hs3,
      lookupKey_setdefaultKey_ne _ _ (by decide), lookupKey_setdefaultKey_self]
    exact ⟨_, rfl⟩
  obtain ⟨tv, htv⟩ := htv
  have hget : getKeyD s4 "time" .jnull = tv := by
    rw [getKeyD, htv]
    rfl
  split
  · next hmatch =>
      rw [hget] at hmatch
      exact ⟨tv, htv, hmatch⟩
  · exact ⟨.jstr "09:00", lookupKey_setKey_self .., by decide⟩

theorem normSchedule_freq (s : Obj) :
    ∃ fv, lookupKey (normSchedule s) "frequency_per_week" = some fv := by
  unfold normSchedule
  dsimp only
  set s3 := setdefaultKey (setdefaultKey (setdefaultKey s "days" (.jarr defaultDays))
    "time" (.jstr "09:00")) "frequency_per_week" (.jnum 3) with hs3
  have hfv : ∃ fv, lookupKey s3 "frequency_per_week" = some fv := by
    rw [hs3, lookupKey_setdefaultKey_self]
    exact ⟨_, rfl⟩
  obtain ⟨fv, hfv⟩ := hfv
  have h4 : lookupKey (setKey s3 "days"
      (normDays (pyOr (getKeyD s3 "days" .jnull) (.jarr [])))) "frequency_per_week"
      = some fv := by
    rw [lookupKey_setKey_ne _ _ (by decide), hfv]
  split
  · exact ⟨fv, h4⟩
  · rw [lookupKey_setKey_ne _ _ (by decide)]
    exact ⟨fv, h4⟩

theorem normSchedule_fix (s : Obj) : normSchedule (normSchedule s) = normSchedule s := by
  obtain ⟨w, hdv⟩ := normSchedule_days_shape s
  obtain ⟨tv, htv, hmatch⟩ := normSchedule_time_match s
  obtain ⟨fv, hfv⟩ := normSchedule_freq s
  conv_lhs => rw [normSchedule]
  rw [setdefaultKey_of_some _ hdv, setdefaultKey_of_some _ htv, setdefaultKey_of_some _ hfv]
  have hget : getKeyD (normSchedule s) "days" .jnull = normDays w := by
    rw [getKeyD, hdv]
    rfl
  rw [hget, show pyOr (normDays w) (.jarr []) = normDays w from by
    simp [pyOr, normDays_truthy], normDays_fix, setKey_of_lookupKey_eq hdv]
  have hgett : getKeyD (normSchedule s) "time" .jnull = tv := by
    rw [getKeyD, htv]
    rfl
  rw [hgett, if_pos hmatch]

theorem normHabitFields_parts (hf0 : Obj) :
    (∃ v, lookupKey (normHabitFields hf0) "name" = some v) ∧
    (∃ v, lookupKey (normHabitFields hf0) "why" = some v) ∧
    (∃ d, lookupKey (normHabitFields hf0) "difficulty" = some d ∧
      d ∈ [JVal.jstr "easy", JVal.jstr "mid", JVal.jstr "hard"]) ∧
    (∃ s0, lookupKey (normHabitFields hf0) "schedule" = some (.jobj (normSchedule s0))) := by
  unfold normHabitFields
  dsimp only
  set hf3 := setdefaultKey (setdefaultKey (setdefaultKey hf0 "name" (.jstr "새 습관"))
    "why" (.jstr "")) "difficulty" (.jstr "easy") with hhf3
  set hf4 := setdefaultKey hf3 "schedule" (.jobj []) with hhf4
  have hn3 : ∃ v, lookupKey hf3 "name" = some v := by
    rw [hhf3, lookupKey_setdefaultKey_ne _ _ (by decide),
      lookupKey_setdefaultKey_ne _ _ (by decide), lookupKey_setdefaultKey_self]
    exact ⟨_, rfl⟩
  obtain ⟨nv, hn3⟩ := hn3
  have hw3 : ∃ v, lookupKey hf3 "why" = some v := by
    rw [hhf3, lookupKey_setdefaultKey_ne _ _ (by decide), lookupKey_setdefaultKey_self]
    exact ⟨_, rfl⟩
  obtain ⟨wv, hw3⟩ := hw3
  have hd3 : ∃ d0, lookupKey hf3 "difficulty" = some d0 := by
    rw [hhf3, lookupKey_setdefaultKey_self]
    exact ⟨_, rfl⟩
  obtain ⟨d0, hd3⟩ := hd3
  have hn4 : lookupKey hf4 "name" = some nv := by
    rw [hhf4, lookupKey_setdefaultKey_ne _ _ (by decide), hn3]
  have hw4 : lookupKey hf4 "why" = some wv := by
    rw [hhf4, lookupKey_setdefaultKey_ne _ _ (by decide), hw3]
  have hd4 : lookupKey hf4 "difficulty" = some d0 := by
    rw [hhf4, lookupKey_setdefaultKey_ne _ _ (by decide), hd3]
  generalize (match getKeyD hf4 "schedule" JVal.jnull with
    | JVal.jobj s => s
    | _ => ([] : Obj)) = sch0
  set hf5 := setKey hf4 "schedule" (.jobj (normSchedule sch0)) with hhf5
  have hn5 : lookupKey hf5 "name" = some nv := by
    rw [hhf5, lookupKey_setKey_ne _ _ (by decide), hn4]
  have hw5 : lookupKey hf5 "why" = some wv := by
    rw [hhf5, lookupKey_setKey_ne _ _ (by decide), hw4]
  have hd5 : lookupKey hf5 "difficulty" = some d0 := by
    rw [hhf5, lookupKey_setKey_ne _ _ (by decide), hd4]
  have hs5 : lookupKey hf5 "schedule" = some (.jobj (normSchedule sch0)) := by
    rw [hhf5, lookupKey_setKey_self]
  split
  · next hin =>
      refine ⟨⟨nv, hn5⟩, ⟨wv, hw5⟩, ⟨d0, hd5, ?_⟩, ⟨sch0, hs5⟩⟩
      rw [getKeyD, hd5] at hin
      simpa using hin
  · next hout =>
      refine ⟨⟨nv, by rw [lookupKey_setKey_ne _ _ (by decide), hn5]⟩,
        ⟨wv, by rw [lookupKey_setKey_ne _ _ (by decide), hw5]⟩,
        ⟨.jstr "easy", lookupKey_setKey_self .., by simp⟩,
        ⟨sch0, by rw [lookupKey_setKey_ne _ _ (by decide), hs5]⟩⟩

theorem normHabitFields_fix (hf0 : Obj) :
    normHabitFields (normHabitFields hf0) = normHabitFields hf0 := by
  obtain ⟨⟨nv, hn⟩, ⟨wv, hw⟩, ⟨d, hd, hdmem⟩, ⟨s0, hsch⟩⟩ := normHabitFields_parts hf0
  conv_lhs => rw [normHabitFields]
  rw [setdefaultKey_of_some _ hn, setdefaultKey_of_some _ hw, setdefaultKey_of_some _ hd,
    setdefaultKey_of_some _ hsch]
  have hget : getKeyD (normHabitFields hf0) "schedule" .jnull = .jobj (normSchedule s0) := by
    rw [getKeyD, hsch]
    rfl
  rw [hget]
  dsimp only
  rw [normSchedule_fix, setKey_of_lookupKey_eq hsch]
  have hgetd : getKeyD (normHabitFields hf0) "difficulty" .jnull = d := by
    rw [getKeyD, hd]
    rfl
  rw [hgetd, if_pos hdmem]

theorem normReminderFields_parts (rf0 : Obj) :
    (∃ v, lookupKey (normReminderFields rf0) "title" = some v) ∧
    (∃ tv, lookupKey (normReminderFields rf0) "time" = some tv ∧
      matchesTimeRe (pyStr (pyOr tv (.jstr "09:00"))) = true) ∧
    (∃ rv, lookupKey (normReminderFields rf0) "rrule" = some rv ∧
      pyStartsWith (pyStr (pyOr rv (.jstr ""))) "FREQ=" = true) := by
  unfold normReminderFields
  dsimp only
  set rf2 := setdefaultKey (setdefaultKey rf0 "title" (.jstr "리마인더"))
    "time" (.jstr "09:00") with hrf2
  set rf3 := setdefaultKey rf2 "rrule" (.jstr "FREQ=DAILY") with hrf3
  have htl3 : ∃ v, lookupKey rf3 "title" = some v := by
    rw [hrf3, lookupKey_setdefaultKey_ne _ _ (by decide), hrf2,
      lookupKey_setdefaultKey_ne _ _ (by decide), lookupKey_setdefaultKey_self]
    exact ⟨_, rfl⟩
  obtain ⟨tlv, htl3⟩ := htl3
  have ht3 : ∃ tv, lookupKey rf3 "time" = some tv := by
    rw [hrf3, lookupKey_setdefaultKey_ne _ _ (by decide), hrf2, lookupKey_setdefaultKey_self]
    exact ⟨_, rfl⟩
  obtain ⟨tv, ht3⟩ := ht3
  have hr3 : ∃ rv, lookupKey rf3 "rrule" = some rv := by
    rw [hrf3, lookupKey_setdefaultKey_self]
    exact ⟨_, rfl⟩
  obtain ⟨rv, hr3⟩ := hr3
  set rf4 := (if matchesTimeRe (pyStr (pyOr (getKeyD rf3 "time" .jnull) (.jstr "09:00")))
    then rf3 else setKey rf3 "time" (.jstr "09:00")) with hrf4
  have htl4 : lookupKey rf4 "title" = some tlv := by
    rw [hrf4]
    split
    · exact htl3
    · rw [lookupKey_setKey_ne _ _ (by decide)]
      exact htl3
  have hr4 : lookupKey rf4 "rrule" = some rv := by
    rw [hrf4]
    split
    · exact hr3
    · rw [lookupKey_setKey_ne _ _ (by decide)]
      exact hr3
  have ht4 : ∃ tv, lookupKey rf4 "time" = some tv ∧
      matchesTimeRe (pyStr (pyOr tv (.jstr "09:00"))) = true := by
    rw [hrf4]
    split
    · next hmatch =>
        rw [show getKeyD rf3 "time" .jnull = tv from by rw [getKeyD, ht3]; rfl] at hmatch
        exact ⟨tv, ht3, hmatch⟩
    · exact ⟨.jstr "09:00", lookupKey_setKey_self .., by decide⟩
  obtain ⟨tv4, ht4, ht4m⟩ := ht4
  split
  · next hin =>
      rw [show getKeyD rf4 "rrule" .jnull = rv from by rw [getKeyD, hr4]; rfl] at hin
      exact ⟨⟨tlv, htl4⟩, ⟨tv4, ht4, ht4m⟩, ⟨rv, hr4, hin⟩⟩
  · next hout =>
      refine ⟨⟨tlv, by rw [lookupKey_setKey_ne _ _ (by decide), htl4]⟩,
        ⟨tv4, by rw [lookupKey_setKey_ne _ _ (by decide), ht4], ht4m⟩,
        ⟨.jstr "FREQ=DAILY", lookupKey_setKey_self .., by decide⟩⟩

theorem normReminderFields_fix (rf0 : Obj) :
    normReminderFields (normReminderFields rf0) = normReminderFields rf0 := by
  obtain ⟨⟨tlv, htl⟩, ⟨tv, ht, htm⟩, ⟨rv, hr, hrm⟩⟩ := normReminderFields_parts rf0
  conv_lhs => rw [normReminderFields]
  rw [setdefaultKey_of_some _ htl, setdefaultKey_of_some _ ht, setdefaultKey_of_some _ hr]
  have hget : getKeyD (normReminderFields rf0) "time" .jnull = tv := by
    rw [getKeyD, ht]
    rfl
  rw [hget, if_pos htm]
  have hgetr : getKeyD (normReminderFields rf0) "rrule" .jnull = rv := by
    rw [getKeyD, hr]
    rfl
  rw [hgetr, if_pos hrm]

theorem normHabit_fix (h : JVal) : normHabit (normHabit h) = normHabit h := by
  cases h with
  | jobj hf =>
      have he : normHabit (.jobj hf) = .jobj (normHabitFields hf) := rfl
      rw [he]
      have he2 : normHabit (.jobj (normHabitFields hf))
          = .jobj (normHabitFields (normHabitFields hf)) := rfl
      rw [he2, normHabitFields_fix]
  | jnull => rfl
  | jbool b => rfl
  | jnum n => rfl
  | jstr s => rfl
  | jarr xs => rfl

theorem normReminder_fix (r : JVal) : normReminder (normReminder r) = normReminder r := by
  cases r with
  | jobj rf =>
      have he : normReminder (.jobj rf) = .jobj (normReminderFields rf) := rfl
      rw [he]
      have he2 : normReminder (.jobj (normReminderFields rf))
          = .jobj (normReminderFields (normReminderFields rf)) := rfl
      rw [he2, normReminderFields_fix]
  | jnull => rfl
  | jbool b => rfl
  | jnum n => rfl
  | jstr s => rfl
  | jarr xs => rfl

theorem iterMut_fix {f : JVal → JVal} (hf : ∀ x, f (f x) = f x) {v w : JVal}
    (h : iterMut f v = .ok w) : iterMut f w = .ok w := by
  unfold iterMut at h
  split at h
  · next ht =>
      have hw : w = v := by injection h with h; exact h.symm
      subst hw
      unfold iterMut
      rw [if_pos ht]
  · next ht =>
      cases v with
      | jarr xs =>
          have hw : w = .jarr (xs.map f) := by injection h with h; exact h.symm
          subst hw
          unfold iterMut
          by_cases hemp : xs.isEmpty
          · have : xs = [] := List.isEmpty_iff.mp hemp
            subst this
            simp [pyTruthy] at ht
          · have htr : pyTruthy (.jarr (xs.map f)) = true := by
              have hie : (xs.map f).isEmpty = xs.isEmpty := by cases xs <;> rfl
              simp only [pyTruthy, hie]
              simpa using hemp
            rw [if_neg (by rw [htr]; simp)]
            have hmm : (xs.map f).map f = xs.map f := by
              rw [List.map_map]
              exact List.map_congr_left (fun a _ => hf a)
            simp only [hmm]
      | jstr s =>
          have hw : w = .jstr s := by injection h with h; exact h.symm
          subst hw
          unfold iterMut
          split
          · rfl
          · rfl
      | jobj fs =>
          have hw : w = .jobj fs := by injection h with h; exact h.symm
          subst hw
          unfold iterMut
          split
          · rfl
          · rfl
      | jnull => cases h
      | jbool b => cases h
      | jnum n => cases h

theorem planDefaults_of_keys {gs : Obj}
    (h : ∀ k ∈ sixKeys, ∃ v, lookupKey gs k = some v) : planDefaults gs = gs := by
  obtain ⟨v1, h1⟩ := h "summary" (by simp [sixKeys])
  obtain ⟨v2, h2⟩ := h "pain_points" (by simp [sixKeys])
  obtain ⟨v3, h3⟩ := h "solutions" (by simp [sixKeys])
  obtain ⟨v4, h4⟩ := h "new_habits" (by simp [sixKeys])
  obtain ⟨v5, h5⟩ := h "reminders" (by simp [sixKeys])
  obtain ⟨v6, h6⟩ := h "next_adjustment_rules" (by simp [sixKeys])
  unfold planDefaults
  dsimp only
  rw [setdefaultKey_of_some _ h1, setdefaultKey_of_some _ h2, setdefaultKey_of_some _ h3,
    setdefaultKey_of_some _ h4, setdefaultKey_of_some _ h5, setdefaultKey_of_some _ h6]

/-- Claim C2: `normalize_plan` is idempotent on dict inputs: feeding the
result (when one is produced) back through `normalize_plan` returns it
unchanged, and a raised `TypeError` propagates identically, i.e. the Kleisli
composition of `normalize_plan` with itself agrees with a single run. -/
theorem normalize_plan_idempotent (fs : Obj) :
    (normalize_plan (.jobj fs)).bind normalize_plan = normalize_plan (.jobj fs) := by
  cases hres : normalize_plan (.jobj fs) with
  | error e => rfl
  | ok p =>
      obtain ⟨nh, rm, hnh, hrm, hp⟩ := normalize_plan_ok_unpack hres
      subst hp
      have hbind : ∀ x : JVal, (Except.ok x : Except String JVal).bind normalize_plan
          = normalize_plan x := fun x => rfl
      rw [hbind]
      set gs := setKey (setKey (planDefaults fs) "new_habits" nh) "reminders" rm with hgs
      have hlh : lookupKey gs "new_habits" = some nh := by
        rw [hgs, lookupKey_setKey_ne _ _ (by decide), lookupKey_setKey_self]
      have hlr : lookupKey gs "reminders" = some rm := by
        rw [hgs, lookupKey_setKey_self]
      have hkeys : ∀ k ∈ sixKeys, ∃ v, lookupKey gs k = some v := by
        intro k hk
        obtain ⟨v, hv⟩ := planDefaults_keys fs k hk
        by_cases h1 : k = "reminders"
        · exact ⟨rm, h1 ▸ hlr⟩
        by_cases h2 : k = "new_habits"
        · exact ⟨nh, h2 ▸ hlh⟩
        refine ⟨v, ?_⟩
        rw [hgs, lookupKey_setKey_ne _ _ (fun he => h1 he.symm),
          lookupKey_setKey_ne _ _ (fun he => h2 he.symm), hv]
      unfold normalize_plan
      dsimp only
      rw [planDefaults_of_keys hkeys]
      rw [show getKeyD gs "new_habits" .jnull = nh from by rw [getKeyD, hlh]; rfl]
      rw [iterMut_fix normHabit_fix hnh]
      dsimp only
      rw [setKey_of_lookupKey_eq hlh]
      rw [show getKeyD gs "reminders" .jnull = rm from by rw [getKeyD, hlr]; rfl]
      rw [iterMut_fix normReminder_fix hrm]
      dsimp only
      rw [setKey_of_lookupKey_eq hlr]

/-!  Check-in aggregation (app.py lines 404-472).

A check-in is produced by the check-in form: an ISO timestamp, a mood, and a
list of `(name, done, note)` dicts.  Modelling choices: the ISO date string
is represented by its day ordinal (an `Int`); `fromisoformat` / `[:10]`
truncation are not modelled separately.  The `name` and `done` entries may
be absent (`Option`) and carry arbitrary JSON-shaped values, as exercised by
the claims; the `note` entry is never read by the aggregation code and is
omitted.  Python floats are exact rationals here (see the header note). -/

structure CheckItem where
  name : Option JVal
  done : Option JVal
  deriving DecidableEq

structure Checkin where
  date : Int
  mood : Int
  items : Option (List CheckItem)
  deriving DecidableEq

/-- `compute_daily_completion` (app.py lines 404-410): `(done, total, rate)`
with `done = sum(1 for it in items if it.get("done") is True)` and
`rate = done / total * 100 if total else 0.0`. -/
def compute_daily_completion (c : Checkin) : Nat × Nat × ℚ :=
  let items := c.items.getD []
  let total := items.length
  let done := (items.filter (fun it => it.done == some (JVal.jbool true))).length
  let rate : ℚ := if total ≠ 0 then (done : ℚ) / (total : ℚ) * 100 else 0
  (done, total, rate)

/-- Round-half-to-even on exact rationals (the tie rule of Python `round`). -/
def roundHalfEven (q : ℚ) : ℤ :=
  let f := ⌊q⌋
  let r := q - (f : ℚ)
  if r < 1/2 then f else if 1/2 < r then f + 1 else if Even f then f else f + 1

/-- Model of Python `round(x, 1)` on exact rationals. -/
def pyRound1 (q : ℚ) : ℚ := ((roundHalfEven (q * 10) : ℤ) : ℚ) / 10

structure LowDay where
  date : Int
  done : Nat
  total : Nat
  rate : ℚ
  deriving DecidableEq

structure HardHabit where
  name : JVal
  fail_rate : ℚ
  samples : Nat
  deriving DecidableEq

/-- The summary dict built by `summarize_checkins`.  In the two early-exit
branches the source dict simply lacks the `low_days`/`hard_habits` keys;
callers read them with `summary.get(...) or []`, so they are modelled as
empty lists there. -/
structure Summary where
  days : Int
  count : Nat
  avg_completion_rate : ℚ
  low_days : List LowDay
  hard_habits : List HardHabit
  patterns : List String
  deriving DecidableEq

/-- Concatenation of strings at the character level. -/
def strCat (xs : List String) : String := ⟨(xs.map String.data).flatten⟩

def lowPatternTag : String := "전반적으로 달성률이 낮음(50% 미만) → 난이도/빈도 조정 필요"

def maintainPatternTag : String := "달성률이 높음(80% 이상) → 유지 또는 소폭 상향 가능"

def midPatternTag : String := "중간 달성률(50~79%) → 유지하되 어려운 항목 미세 조정"

def noRecentTag : String := "최근 체크인 없음"

/-- `f"낮은 달성일 {len(low_days)}일 존재 → 시간대/빈도 낮추기 후보"`. -/
def lowDaysTag (n : Nat) : String :=
  strCat ["낮은 달성일 ", ⟨natDigits n⟩, "일 존재 → 시간대/빈도 낮추기 후보"]

/-- One-decimal float display (`str(round(x, 1))`), for the tag text. -/
def pyFloat1Repr (q : ℚ) : String :=
  let t : Int := ⌊q * 10⌋
  strCat [pyIntRepr (t / 10), ".", pyIntRepr (t % 10)]

/-- `"자주 미완료되는 습관: " + ", ".join(f"{h['name']}({h['fail_rate']}%)" ...)`. -/
def hardHabitsTag (hs : List HardHabit) : String :=
  strCat ["자주 미완료되는 습관: ",
    String.intercalate ", "
      (hs.map (fun h => strCat [pyStr h.name, "(", pyFloat1Repr h.fail_rate, "%)"]))]

/-- `it.get("name", "habit")`. -/
def effName (it : CheckItem) : JVal := it.name.getD (.jstr "habit")

/-- `m[k] = m.get(k, 0) + 1` on a dict of counters. -/
def bumpCount : List (JVal × Nat) → JVal → List (JVal × Nat)
  | [], k => [(k, 1)]
  | (k', c) :: rest, k =>
      if k' = k then (k', c + 1) :: rest else (k', c) :: bumpCount rest k

/-- `m.get(k, d)` on a dict of counters. -/
def lookupCountD : List (JVal × Nat) → JVal → Nat → Nat
  | [], _, d => d
  | (k', c) :: rest, k, d => if k' = k then c else lookupCountD rest k d

/-- One iteration of the per-item tally loop: bump the habit's total count,
and its failure count when `it.get("done") is False`. -/
def tallyItem (acc : List (JVal × Nat) × List (JVal × Nat)) (it : CheckItem) :
    List (JVal × Nat) × List (JVal × Nat) :=
  let tot := bumpCount acc.1 (effName it)
  let fail := if it.done == some (JVal.jbool false)
    then bumpCount acc.2 (effName it) else acc.2
  (tot, fail)

/-- The nested `for c in recent: for it in c.get("items") or []` tally. -/
def tallies (recent : List Checkin) : List (JVal × Nat) × List (JVal × Nat) :=
  recent.foldl (fun acc c => (c.items.getD []).foldl tallyItem acc) ([], [])

/-- Stable insertion keeping descending counts: an element moves ahead only
of strictly smaller counts, so equal counts keep their original order —
the contract of Python `sorted(..., key=lambda x: x[1], reverse=True)`. -/
def insertByCountDesc (x : JVal × Nat) : List (JVal × Nat) → List (JVal × Nat)
  | [] => [x]
  | y :: ys => if y.2 < x.2 then x :: y :: ys else y :: insertByCountDesc x ys

/-- Model of `sorted(items, key=lambda x: x[1], reverse=True)` (stable). -/
def sortByCountDesc (l : List (JVal × Nat)) : List (JVal × Nat) :=
  l.foldr insertByCountDesc []

/-- The body of the `hard_habits` loop: keep habits failing at a ratio of at
least one half over at least three samples. -/
def hardEntry (totm : List (JVal × Nat)) (p : JVal × Nat) : Option HardHabit :=
  let total := lookupCountD totm p.1 1
  let fail_rate : ℚ := (p.2 : ℚ) / (total : ℚ)
  if 1/2 ≤ fail_rate ∧ 3 ≤ total
  then some ⟨p.1, pyRound1 (fail_rate * 100), total⟩ else none

/-- The `hard_habits` list assembled from the two tallies. -/
def hardHabitsOf (failm totm : List (JVal × Nat)) : List HardHabit :=
  (sortByCountDesc failm).filterMap (hardEntry totm)

/-- The per-day rates list of `summarize_checkins`. -/
def dailyRates (recent : List Checkin) : List ℚ :=
  recent.map (fun c => (compute_daily_completion c).2.2)

/-- `avg_rate = sum(rates) / len(rates) if rates else 0`. -/
def avgRate (recent : List Checkin) : ℚ :=
  if (dailyRates recent).isEmpty then 0
  else (dailyRates recent).sum / ((dailyRates recent).length : ℚ)

/-- `summarize_checkins` (app.py lines 413-472), with `date.today()` passed
in explicitly as a day ordinal. -/
def summarize_checkins (checkins : List Checkin) (today : Int) (days : Int) : Summary :=
  if checkins.isEmpty then ⟨days, 0, 0, [], [], []⟩
  else
    let cutoff := today - (days - 1)
    let recent := checkins.filter (fun c => cutoff ≤ c.date)
    if recent.isEmpty then ⟨days, 0, 0, [], [], [noRecentTag]⟩
    else
      let low_days := (recent.filter (fun c => (compute_daily_completion c).2.2 < 50)).map
        (fun c => (⟨c.date, (compute_daily_completion c).1, (compute_daily_completion c).2.1,
          pyRound1 ((compute_daily_completion c).2.2)⟩ : LowDay))
      let avg_rate := avgRate recent
      let mainTag := if avg_rate < 50 then lowPatternTag
        else if 80 ≤ avg_rate then maintainPatternTag else midPatternTag
      let tm := tallies recent
      let hard := hardHabitsOf tm.2 tm.1
      let patterns := [mainTag]
        ++ (if low_days.isEmpty then [] else [lowDaysTag low_days.length])
        ++ (if hard.isEmpty then [] else [hardHabitsTag hard])
      ⟨days, recent.length, pyRound1 avg_rate, low_days, hard, patterns⟩

/-- The check-ins inside the recent window (the `recent` list). -/
def recentOf (checkins : List Checkin) (today : Int) (days : Int) : List Checkin :=
  checkins.filter (fun c => today - (days - 1) ≤ c.date)

/-- All items of a list of check-ins, in iteration order. -/
def allItems (recent : List Checkin) : List CheckItem :=
  (recent.map (fun c => c.items.getD [])).flatten

/-- Specification count: occurrences of habit `n` in the recent window. -/
def totCount (cs : List Checkin) (today : Int) (n : JVal) : Nat :=
  (allItems (recentOf cs today 7)).countP (fun it => effName it == n)

/-- Specification count: failures (`done is False`) of habit `n` in the
recent window. -/
def failCount (cs : List Checkin) (today : Int) (n : JVal) : Nat :=
  (allItems (recentOf cs today 7)).countP
    (fun it => effName it == n && it.done == some (JVal.jbool false))

/-- Claim C9: a check-in with an empty or absent items list yields done 0,
total 0 and rate 0.0 — the `if total` guard avoids the division. -/
theorem compute_daily_completion_empty (c : Checkin)
    (h : c.items = none ∨ c.items = some []) :
    compute_daily_completion c = (0, 0, 0) := by
  rcases h with h | h <;> simp [compute_daily_completion, h]

/-- Witness for `compute_daily_completion_empty` at a concrete check-in with
no items key. -/
theorem compute_daily_completion_empty_witness :
    compute_daily_completion ⟨0, 5, none⟩ = (0, 0, 0) :=
  compute_daily_completion_empty ⟨0, 5, none⟩ (Or.inl rfl)

theorem lookupCountD_bump_self (m : List (JVal × Nat)) (k : JVal) :
    lookupCountD (bumpCount m k) k 0 = lookupCountD m k 0 + 1 := by
  induction m with
  | nil => simp [bumpCount, lookupCountD]
  | cons p rest ih =>
      obtain ⟨k', c⟩ := p
      by_cases hk : k' = k <;> simp [bumpCount, lookupCountD, hk, ih]

theorem lookupCountD_bump_ne (m : List (JVal × Nat)) {k q : JVal} (d : Nat) (h : q ≠ k) :
    lookupCountD (bumpCount m k) q d = lookupCountD m q d := by
  induction m with
  | nil =>
      have hkq : k ≠ q := fun he => h he.symm
      simp [bumpCount, lookupCountD, hkq]
  | cons p rest ih =>
      obtain ⟨k', c⟩ := p
      by_cases hk : k' = k
      · have hkq : ¬k = q := fun he => h he.symm
        simp [bumpCount, lookupCountD, hk, hkq]
      · by_cases hq : k' = q
        · simp [bumpCount, lookupCountD, hk, hq, h]
        · simp [bumpCount, lookupCountD, hk, hq, ih]

theorem tally_foldl_items (l : List CheckItem)
    (acc : List (JVal × Nat) × List (JVal × Nat)) (n : JVal) :
    lookupCountD (l.foldl tallyItem acc).1 n 0
      = lookupCountD acc.1 n 0 + l.countP (fun it => effName it == n) ∧
    lookupCountD (l.foldl tallyItem acc).2 n 0
      = lookupCountD acc.2 n 0
        + l.countP (fun it => effName it == n && it.done == some (JVal.jbool false)) := by
  induction l generalizing acc with
  | nil => simp
  | cons it rest ih =>
      rw [List.foldl_cons]
      obtain ⟨ih1, ih2⟩ := ih (tallyItem acc it)
      constructor
      · rw [ih1, List.countP_cons]
        have hstep : lookupCountD (tallyItem acc it).1 n 0
            = lookupCountD acc.1 n 0 + (if effName it == n then 1 else 0) := by
          unfold tallyItem
          dsimp only
          by_cases he : effName it = n
          · rw [← he, lookupCountD_bump_self]
            simp
          · rw [lookupCountD_bump_ne _ _ (fun hx => he hx.symm)]
            simp [he]
        rw [hstep]
        by_cases he : effName it == n <;> simp [he] <;> omega
      · rw [ih2, List.countP_cons]
        have hstep : lookupCountD (tallyItem acc it).2 n 0
            = lookupCountD acc.2 n 0
              + (if (effName it == n && it.done == some (JVal.jbool false)) then 1 else 0) := by
          unfold tallyItem
          dsimp only
          by_cases hd : it.done == some (JVal.jbool false)
          · rw [if_pos hd]
            by_cases he : effName it = n
            · rw [← he, lookupCountD_bump_self]
              simp [hd]
            · rw [lookupCountD_bump_ne _ _ (fun hx => he hx.symm)]
              simp [he]
          · rw [if_neg hd]
            simp [hd]
        rw [hstep]
        by_cases he : (effName it == n && it.done == some (JVal.jbool false)) = true <;>
          simp [he] <;> omega

theorem tallies_eq_foldl (recent : List Checkin)
    (acc : List (JVal × Nat) × List (JVal × Nat)) :
    recent.foldl (fun acc c => (c.items.getD []).foldl tallyItem acc) acc
      = (allItems recent).foldl tallyItem acc := by
  induction recent generalizing acc with
  | nil => rfl
  | cons c rest ih =>
      rw [List.foldl_cons, ih]
      have hall : allItems (c :: rest) = c.items.getD [] ++ allItems rest := by
        unfold allItems
        rw [List.map_cons, List.flatten_cons]
      rw [hall, List.foldl_append]

theorem tallies_count (recent : List Checkin) (n : JVal) :
    lookupCountD (tallies recent).1 n 0
      = (allItems recent).countP (fun it => effName it == n) ∧
    lookupCountD (tallies recent).2 n 0
      = (allItems recent).countP
          (fun it => effName it == n && it.done == some (JVal.jbool false)) := by
  unfold tallies
  rw [tallies_eq_foldl]
  have h := tally_foldl_items (allItems recent) ([], []) n
  simpa [lookupCountD] using h

/-- Invariant of the counter dicts: positive counts and distinct keys. -/
def goodTally (m : List (JVal × Nat)) : Prop :=
  (∀ p ∈ m, 1 ≤ p.2) ∧ (m.map Prod.fst).Nodup

theorem mem_keys_bumpCount {m : List (JVal × Nat)} {k a : JVal}
    (h : a ∈ (bumpCount m k).map Prod.fst) : a ∈ m.map Prod.fst ∨ a = k := by
  induction m with
  | nil => simpa [bumpCount] using h
  | cons p rest ih =>
      obtain ⟨k', c⟩ := p
      by_cases hk : k' = k
      · subst hk
        refine Or.inl ?_
        simp only [bumpCount, if_pos rfl, List.map_cons] at h
        simpa using h
      · simp only [bumpCount, hk, if_false, List.map_cons, List.mem_cons] at h
        rcases h with h | h
        · exact Or.inl (by simp [h])
        · rcases ih h with h2 | h2
          · exact Or.inl (List.mem_cons_of_mem _ h2)
          · exact Or.inr h2

theorem goodTally_bump {m : List (JVal × Nat)} (hm : goodTally m) (k : JVal) :
    goodTally (bumpCount m k) := by
  obtain ⟨hpos, hnd⟩ := hm
  induction m with
  | nil =>
      constructor
      · intro p hp
        simp [bumpCount] at hp
        simp [hp]
      · simp [bumpCount]
  | cons p rest ih =>
      obtain ⟨k', c⟩ := p
      have hposr : ∀ q ∈ rest, 1 ≤ q.2 := fun q hq => hpos q (List.mem_cons_of_mem _ hq)
      have hndr : (rest.map Prod.fst).Nodup := (List.nodup_cons.mp hnd).2
      have hknr : k' ∉ rest.map Prod.fst := (List.nodup_cons.mp hnd).1
      by_cases hk : k' = k
      · subst hk
        have hb : bumpCount ((k', c) :: rest) k' = (k', c + 1) :: rest := by
          simp [bumpCount]
        rw [hb]
        constructor
        · intro q hq
          rcases List.mem_cons.mp hq with hq | hq
          · simp [hq]
          · exact hposr q hq
        · simpa using hnd
      · have hb : bumpCount ((k', c) :: rest) k = (k', c) :: bumpCount rest k := by
          simp [bumpCount, hk]
        rw [hb]
        obtain ⟨ihpos, ihnd⟩ := ih hposr hndr
        constructor
        · intro q hq
          rcases List.mem_cons.mp hq with hq | hq
          · exact hpos _ (by simp [hq])
          · exact ihpos q hq
        · rw [List.map_cons, List.nodup_cons]
          refine ⟨?_, ihnd⟩
          intro hmem
          rcases mem_keys_bumpCount hmem with h2 | h2
          · exact hknr h2
          · exact hk h2

theorem goodTally_tallyItem {acc : List (JVal × Nat) × List (JVal × Nat)}
    (h1 : goodTally acc.1) (h2 : goodTally acc.2) (it : CheckItem) :
    goodTally (tallyItem acc it).1 ∧ goodTally (tallyItem acc it).2 := by
  unfold tallyItem
  refine ⟨goodTally_bump h1 _, ?_⟩
  dsimp only
  split
  · exact goodTally_bump h2 _
  · exact h2

theorem goodTally_foldl (l : List CheckItem)
    (acc : List (JVal × Nat) × List (JVal × Nat))
    (h1 : goodTally acc.1) (h2 : goodTally acc.2) :
    goodTally (l.foldl tallyItem acc).1 ∧ goodTally (l.foldl tallyItem acc).2 := by
  induction l generalizing acc with
  | nil => exact ⟨h1, h2⟩
  | cons it rest ih =>
      rw [List.foldl_cons]
      obtain ⟨g1, g2⟩ := goodTally_tallyItem h1 h2 it
      exact ih _ g1 g2

theorem goodTally_tallies (recent : List Checkin) :
    goodTally (tallies recent).1 ∧ goodTally (tallies recent).2 := by
  unfold tallies
  rw [tallies_eq_foldl]
  exact goodTally_foldl _ _ ⟨by simp, by simp⟩ ⟨by simp, by simp⟩

theorem mem_goodTally_iff {m : List (JVal × Nat)} (hm : goodTally m) (n : JVal) (c : Nat) :
    (n, c) ∈ m ↔ (lookupCountD m n 0 = c ∧ 1 ≤ c) := by
  obtain ⟨hpos, hnd⟩ := hm
  induction m with
  | nil =>
      simp only [List.not_mem_nil, lookupCountD, false_iff, not_and]
      intro h0
      omega
  | cons p rest ih =>
      obtain ⟨k', c'⟩ := p
      have hposr : ∀ q ∈ rest, 1 ≤ q.2 := fun q hq => hpos q (List.mem_cons_of_mem _ hq)
      have hndr : (rest.map Prod.fst).Nodup := (List.nodup_cons.mp hnd).2
      have hknr : k' ∉ rest.map Prod.fst := (List.nodup_cons.mp hnd).1
      constructor
      · intro hmem
        rcases List.mem_cons.mp hmem with hq | hq
        · injection hq with hq1 hq2
          subst hq1
          subst hq2
          refine ⟨by simp [lookupCountD], hpos (n, c) (by simp)⟩
        · have hne : k' ≠ n := by
            intro he
            subst he
            exact hknr (by simpa using List.mem_map_of_mem Prod.fst hq)
          rw [show lookupCountD ((k', c') :: rest) n 0 = lookupCountD rest n 0 from by
            simp [lookupCountD, hne]]
          exact (ih hposr hndr).mp hq
      · rintro ⟨hl, hc⟩
        by_cases hk : k' = n
        · subst hk
          simp only [lookupCountD, if_pos rfl] at hl
          subst hl
          exact List.mem_cons_self ..
        · rw [show lookupCountD ((k', c') :: rest) n 0 = lookupCountD rest n 0 from by
            simp [lookupCountD, hk]] at hl
          exact List.mem_cons_of_mem _ ((ih hposr hndr).mpr ⟨hl, hc⟩)

theorem mem_insertByCountDesc {x a : JVal × Nat} {l : List (JVal × Nat)} :
    a ∈ insertByCountDesc x l ↔ a = x ∨ a ∈ l := by
  induction l with
  | nil => simp [insertByCountDesc]
  | cons y ys ih =>
      unfold insertByCountDesc
      split
      · simp
      · rw [List.mem_cons, ih]
        constructor
        · rintro (h | h | h)
          · exact Or.inr (by simp [h])
          · exact Or.inl h
          · exact Or.inr (by simp [h])
        · rintro (h | h)
          · exact Or.inr (Or.inl h)
          · rcases List.mem_cons.mp h with h | h
            · exact Or.inl h
            · exact Or.inr (Or.inr h)

theorem mem_sortByCountDesc {a : JVal × Nat} {l : List (JVal × Nat)} :
    a ∈ sortByCountDesc l ↔ a ∈ l := by
  induction l with
  | nil => simp [sortByCountDesc]
  | cons y ys ih =>
      unfold sortByCountDesc at ih ⊢
      rw [List.foldr_cons, mem_insertByCountDesc, ih, List.mem_cons]

theorem countP_imp_le {α : Type} (p q : α → Bool) (l : List α)
    (h : ∀ a ∈ l, p a = true → q a = true) : l.countP p ≤ l.countP q := by
  induction l with
  | nil => simp
  | cons a rest ih =>
      rw [List.countP_cons, List.countP_cons]
      have hr := ih (fun b hb => h b (List.mem_cons_of_mem _ hb))
      by_cases hp : p a = true
      · have hq := h a (List.mem_cons_self ..) hp
        rw [if_pos hp, if_pos hq]
        omega
      · rw [if_neg hp]
        split <;> omega

theorem failCount_le_totCount (cs : List Checkin) (today : Int) (n : JVal) :
    failCount cs today n ≤ totCount cs today n := by
  unfold failCount totCount
  exact countP_imp_le _ _ _ (fun it _ hp => by
    simp only [Bool.and_eq_true] at hp
    exact hp.1)

theorem lookupCountD_one_eq {m : List (JVal × Nat)} {kq : JVal}
    (h : 1 ≤ lookupCountD m kq 0) : lookupCountD m kq 1 = lookupCountD m kq 0 := by
  induction m with
  | nil => simp [lookupCountD] at h
  | cons p rest ih =>
      obtain ⟨k', c⟩ := p
      by_cases hk : k' = kq
      · simp [lookupCountD, hk]
      · simp only [lookupCountD, hk, if_false] at h ⊢
        exact ih h

theorem hardEntry_some_iff {totm : List (JVal × Nat)} {p : JVal × Nat} {e : HardHabit} :
    hardEntry totm p = some e ↔
      ((1 : ℚ)/2 ≤ (p.2 : ℚ) / (lookupCountD totm p.1 1 : ℚ) ∧
        3 ≤ lookupCountD totm p.1 1 ∧
        e = ⟨p.1, pyRound1 ((p.2 : ℚ) / (lookupCountD totm p.1 1 : ℚ) * 100),
          lookupCountD totm p.1 1⟩) := by
  unfold hardEntry
  dsimp only
  split
  · next hcond =>
      constructor
      · intro he
        injection he with he
        exact ⟨hcond.1, hcond.2, he.symm⟩
      · intro he
        rw [he.2.2]
  · next hcond =>
      constructor
      · intro he
        exact Option.noConfusion he
      · intro he
        exact absurd ⟨he.1, he.2.1⟩ hcond

theorem summarize_hard_habits_eq (cs : List Checkin) (today : Int) :
    (summarize_checkins cs today 7).hard_habits
      = hardHabitsOf (tallies (recentOf cs today 7)).2 (tallies (recentOf cs today 7)).1 := by
  unfold summarize_checkins recentOf
  dsimp only
  split
  · next hemp =>
      have hcs : cs = [] := List.isEmpty_iff.mp hemp
      subst hcs
      rfl
  · split
    · next hre =>
        have hnil : cs.filter (fun c => today - (7 - 1) ≤ c.date) = [] :=
          List.isEmpty_iff.mp hre
        rw [hnil]
        rfl
    · rfl

/-- Claim C8: a habit name appears in `hard_habits` exactly when, over the
check-ins in the recent window, its failure count is at least half of its
occurrence count and it occurs at least 3 times. -/
theorem hard_habits_iff (cs : List Checkin) (today : Int) (n : JVal) :
    (∃ e ∈ (summarize_checkins cs today 7).hard_habits, e.name = n) ↔
      (3 ≤ totCount cs today n ∧
        (1 : ℚ)/2 ≤ (failCount cs today n : ℚ) / (totCount cs today n : ℚ)) := by
  rw [summarize_hard_habits_eq]
  obtain ⟨gt1, gt2⟩ := goodTally_tallies (recentOf cs today 7)
  obtain ⟨hT0, hF0⟩ := tallies_count (recentOf cs today 7) n
  have hT : lookupCountD (tallies (recentOf cs today 7)).1 n 0 = totCount cs today n := hT0
  have hF : lookupCountD (tallies (recentOf cs today 7)).2 n 0 = failCount cs today n := hF0
  constructor
  · rintro ⟨e, he, hname⟩
    obtain ⟨p, hp, hpe⟩ := List.mem_filterMap.mp he
    have hpmem := mem_sortByCountDesc.mp hp
    rw [hardEntry_some_iff] at hpe
    obtain ⟨hrate, htot, hemk⟩ := hpe
    obtain ⟨p1, c⟩ := p
    dsimp only at hrate htot hemk
    have hp1 : p1 = n := by
      rw [hemk] at hname
      exact hname
    subst hp1
    obtain ⟨hlk, hcpos⟩ := (mem_goodTally_iff gt2 p1 c).mp hpmem
    have hceq : c = failCount cs today p1 := by rw [← hF, hlk]
    subst hceq
    have hFpos : 1 ≤ failCount cs today p1 := hcpos
    have hTpos : 1 ≤ totCount cs today p1 :=
      le_trans hFpos (failCount_le_totCount cs today p1)
    have hT' : lookupCountD (tallies (recentOf cs today 7)).1 p1 1 = totCount cs today p1 := by
      rw [lookupCountD_one_eq (by rw [hT]; exact hTpos), hT]
    rw [hT'] at hrate htot
    exact ⟨htot, hrate⟩
  · rintro ⟨h3, hhalf⟩
    have hFpos : 1 ≤ failCount cs today n := by
      by_contra h0
      have hF0 : failCount cs today n = 0 := by omega
      rw [hF0] at hhalf
      norm_num at hhalf
    have hTpos : 1 ≤ totCount cs today n :=
      le_trans hFpos (failCount_le_totCount cs today n)
    have hT' : lookupCountD (tallies (recentOf cs today 7)).1 n 1 = totCount cs today n := by
      rw [lookupCountD_one_eq (by rw [hT]; exact hTpos), hT]
    refine ⟨⟨n, pyRound1 ((failCount cs today n : ℚ) / (totCount cs today n : ℚ) * 100),
      totCount cs today n⟩, ?_, rfl⟩
    apply List.mem_filterMap.mpr
    refine ⟨(n, failCount cs today n), mem_sortByCountDesc.mpr ?_, ?_⟩
    · exact (mem_goodTally_iff gt2 n _).mpr ⟨hF, hFpos⟩
    · rw [hardEntry_some_iff]
      dsimp only
      rw [hT']
      exact ⟨hhalf, h3, rfl⟩

theorem done_partition (l : List CheckItem) :
    (l.filter (fun it => it.done == some (JVal.jbool true))).length
      + (l.filter (fun it => it.done == some (JVal.jbool false))).length
      + (l.filter (fun it => !(it.done == some (JVal.jbool true))
          && !(it.done == some (JVal.jbool false)))).length
      = l.length := by
  induction l with
  | nil => rfl
  | cons a rest ih =>
      by_cases hp : (a.done == some (JVal.jbool true)) = true
      · have hq : (a.done == some (JVal.jbool false)) = false := by
          rw [beq_iff_eq] at hp
          rw [hp]
          rfl
        have hr : (!(a.done == some (JVal.jbool true))
            && !(a.done == some (JVal.jbool false))) = false := by
          rw [hp]
          rfl
        rw [List.filter_cons, List.filter_cons, List.filter_cons, if_pos hp,
          if_neg (by simp [hq]), if_neg (by simp [hr])]
        simp only [List.length_cons]
        omega
      · by_cases hq : (a.done == some (JVal.jbool false)) = true
        · have hpf : (a.done == some (JVal.jbool true)) = false := by
            simpa using hp
          have hr : (!(a.done == some (JVal.jbool true))
              && !(a.done == some (JVal.jbool false))) = false := by
            rw [hpf, hq]
            rfl
          rw [List.filter_cons, List.filter_cons, List.filter_cons,
            if_neg (by simp [hpf]), if_pos hq, if_neg (by simp [hr])]
          simp only [List.length_cons]
          omega
        · have hpf : (a.done == some (JVal.jbool true)) = false := by
            simpa using hp
          have hqf : (a.done == some (JVal.jbool false)) = false := by
            simpa using hq
          have hr : (!(a.done == some (JVal.jbool true))
              && !(a.done == some (JVal.jbool false))) = true := by
            rw [hpf, hqf]
            rfl
          rw [List.filter_cons, List.filter_cons, List.filter_cons,
            if_neg (by simp [hpf]), if_neg (by simp [hqf]), if_pos hr]
          simp only [List.length_cons]
          omega

/-- Claim C10: `compute_daily_completion` counts an item as done only when
its `done` field is exactly the boolean `True`; the failure tally of
`summarize_checkins` counts only the exact boolean `False`; every other
`done` value contributes to the total count but to neither of the two. -/
theorem done_counted_strictly (c : Checkin) (cs : List Checkin) (today : Int) (n : JVal) :
    (compute_daily_completion c).1
      = ((c.items.getD []).filter (fun it => it.done == some (JVal.jbool true))).length ∧
    (compute_daily_completion c).2.1 = (c.items.getD []).length ∧
    ((c.items.getD []).filter (fun it => it.done == some (JVal.jbool true))).length
      + ((c.items.getD []).filter (fun it => it.done == some (JVal.jbool false))).length
      + ((c.items.getD []).filter (fun it => !(it.done == some (JVal.jbool true))
          && !(it.done == some (JVal.jbool false)))).length
      = (c.items.getD []).length ∧
    lookupCountD (tallies (recentOf cs today 7)).2 n 0 = failCount cs today n ∧
    lookupCountD (tallies (recentOf cs today 7)).1 n 0 = totCount cs today n := by
  refine ⟨rfl, rfl, done_partition _, ?_, ?_⟩
  · exact (tallies_count (recentOf cs today 7) n).2
  · exact (tallies_count (recentOf cs today 7) n).1

theorem ne_of_data_head {s t : String} {a b : Char} {l m : List Char}
    (hs : s.data = a :: l) (ht : t.data = b :: m) (hab : a ≠ b) : s ≠ t := by
  intro he
  rw [he] at hs
  have hcons : b :: m = a :: l := ht.symm.trans hs
  injection hcons with h1 h2
  exact hab h1.symm

theorem lowDaysTag_head (nn : Nat) : ∃ l, (lowDaysTag nn).data = '낮' :: l :=
  ⟨_, rfl⟩

theorem hardHabitsTag_head (hs : List HardHabit) :
    ∃ l, (hardHabitsTag hs).data = '자' :: l :=
  ⟨_, rfl⟩

theorem lowPatternTag_ne_extra (nn : Nat) (hh : List HardHabit) :
    lowPatternTag ≠ lowDaysTag nn ∧ lowPatternTag ≠ hardHabitsTag hh := by
  obtain ⟨l1, h1⟩ := lowDaysTag_head nn
  obtain ⟨l2, h2⟩ := hardHabitsTag_head hh
  have hm : lowPatternTag.data = '전' :: "반적으로 달성률이 낮음(50% 미만) → 난이도/빈도 조정 필요".data := rfl
  exact ⟨ne_of_data_head hm h1 (by decide), ne_of_data_head hm h2 (by decide)⟩

theorem maintainPatternTag_ne_extra (nn : Nat) (hh : List HardHabit) :
    maintainPatternTag ≠ lowDaysTag nn ∧ maintainPatternTag ≠ hardHabitsTag hh := by
  obtain ⟨l1, h1⟩ := lowDaysTag_head nn
  obtain ⟨l2, h2⟩ := hardHabitsTag_head hh
  have hm : maintainPatternTag.data = '달' :: "성률이 높음(80% 이상) → 유지 또는 소폭 상향 가능".data := rfl
  exact ⟨ne_of_data_head hm h1 (by decide), ne_of_data_head hm h2 (by decide)⟩

theorem summarize_patterns_eq (cs : List Checkin) (today : Int) (hne : cs ≠ [])
    (hfix : cs.filter (fun c => today - (7 - 1) ≤ c.date) = cs) :
    (summarize_checkins cs today 7).patterns
      = [if avgRate cs < 50 then lowPatternTag
          else if 80 ≤ avgRate cs then maintainPatternTag else midPatternTag]
        ++ (if ((cs.filter (fun c => (compute_daily_completion c).2.2 < 50)).map
              (fun c => (⟨c.date, (compute_daily_completion c).1,
                (compute_daily_completion c).2.1,
                pyRound1 ((compute_daily_completion c).2.2)⟩ : LowDay))).isEmpty
            then []
            else [lowDaysTag ((cs.filter
              (fun c => (compute_daily_completion c).2.2 < 50)).map
              (fun c => (⟨c.date, (compute_daily_completion c).1,
                (compute_daily_completion c).2.1,
                pyRound1 ((compute_daily_completion c).2.2)⟩ : LowDay))).length])
        ++ (if (hardHabitsOf (tallies cs).2 (tallies cs).1).isEmpty then []
            else [hardHabitsTag (hardHabitsOf (tallies cs).2 (tallies cs).1)]) := by
  unfold summarize_checkins
  dsimp only
  rw [if_neg (by simp [List.isEmpty_iff, hne]), hfix,
    if_neg (by simp [List.isEmpty_iff, hne])]

/-- The spec scenario day: 3 items, 2 done. -/
def demoDayC7 : Checkin :=
  ⟨0, 0, some [⟨some (.jstr "a"), some (.jbool true)⟩,
    ⟨some (.jstr "b"), some (.jbool true)⟩, ⟨some (.jstr "c"), some (.jbool false)⟩]⟩

theorem demo_day_rate : compute_daily_completion demoDayC7 = (2, 3, 200/3) := by
  have hx : compute_daily_completion demoDayC7
      = (2, 3, ((2 : Nat) : ℚ) / ((3 : Nat) : ℚ) * 100) := rfl
  rw [hx]
  have hq : ((2 : Nat) : ℚ) / ((3 : Nat) : ℚ) * 100 = 200/3 := by norm_num
  rw [hq]

theorem round1_two_thirds : pyRound1 (200/3) = 667/10 := by
  have hfl : (⌊(200 : ℚ)/3 * 10⌋ : ℤ) = 666 := by
    rw [Int.floor_eq_iff]
    constructor <;> norm_num
  unfold pyRound1 roundHalfEven
  norm_num [hfl]

theorem mem_main_tag_iff (t : String) (A : ℚ) (o1 o2 : List String)
    (h1 : t ∉ o1) (h2 : t ∉ o2) :
    (t ∈ [if A < 50 then lowPatternTag
          else if 80 ≤ A then maintainPatternTag else midPatternTag] ++ o1 ++ o2
      ↔ t = (if A < 50 then lowPatternTag
          else if 80 ≤ A then maintainPatternTag else midPatternTag)) := by
  simp [List.mem_append, h1, h2]

/-- Claim C7 (amended): with a non-empty list of check-ins inside the recent
window, the lower-difficulty tag appears exactly when the average rate is
below 50, and the maintain-or-raise tag exactly when the average rate is at
least 80 (the code uses `>= 80`, not `> 80`); a day with 3 items, 2 done,
contributes the rate 200/3, displayed as 66.7. -/
theorem summarize_pattern_thresholds (cs : List Checkin) (today : Int)
    (hne : cs ≠ []) (hwin : ∀ c ∈ cs, today - 6 ≤ c.date) :
    (lowPatternTag ∈ (summarize_checkins cs today 7).patterns ↔ avgRate cs < 50) ∧
    (maintainPatternTag ∈ (summarize_checkins cs today 7).patterns ↔ 80 ≤ avgRate cs) ∧
    compute_daily_completion demoDayC7 = (2, 3, 200/3) ∧
    pyRound1 (200/3) = 667/10 := by
  have hfix : cs.filter (fun c => today - (7 - 1) ≤ c.date) = cs := by
    apply List.filter_eq_self.mpr
    intro c hc
    simp only [decide_eq_true_eq]
    have h76 : today - (7 - 1) = today - 6 := by norm_num
    rw [h76]
    exact hwin c hc
  rw [summarize_patterns_eq cs today hne hfix]
  refine ⟨?_, ?_, demo_day_rate, round1_two_thirds⟩
  · rw [mem_main_tag_iff]
    · by_cases h50 : avgRate cs < 50
      · simp [h50]
      · rw [if_neg h50]
        simp only [h50, iff_false]
        intro heq
        by_cases h80 : 80 ≤ avgRate cs
        · rw [if_pos h80] at heq
          exact absurd heq (by decide)
        · rw [if_neg h80] at heq
          exact absurd heq (by decide)
    · split
      · simp
      · simp only [List.mem_singleton]
        exact (lowPatternTag_ne_extra _ []).1
    · split
      · simp
      · simp only [List.mem_singleton]
        exact (lowPatternTag_ne_extra 0 _).2
  · rw [mem_main_tag_iff]
    · by_cases h50 : avgRate cs < 50
      · rw [if_pos h50]
        simp only [show ¬(80 ≤ avgRate cs) from by intro h80; linarith, iff_false]
        intro heq
        exact absurd heq (by decide)
      · rw [if_neg h50]
        by_cases h80 : 80 ≤ avgRate cs
        · simp [h80]
        · rw [if_neg h80]
          simp only [h80, iff_false]
          intro heq
          exact absurd heq (by decide)
    · split
      · simp
      · simp only [List.mem_singleton]
        exact (maintainPatternTag_ne_extra _ []).1
    · split
      · simp
      · simp only [List.mem_singleton]
        exact (maintainPatternTag_ne_extra 0 _).2

/-- Witness for `summarize_pattern_thresholds` at a single 3-item day. -/
theorem summarize_pattern_thresholds_witness :
    (lowPatternTag ∈ (summarize_checkins [demoDayC7] 0 7).patterns
      ↔ avgRate [demoDayC7] < 50) ∧
    (maintainPatternTag ∈ (summarize_checkins [demoDayC7] 0 7).patterns
      ↔ 80 ≤ avgRate [demoDayC7]) ∧
    compute_daily_completion demoDayC7 = (2, 3, 200/3) ∧
    pyRound1 (200/3) = 667/10 :=
  summarize_pattern_thresholds [demoDayC7] 0 (by decide) (by decide)

/-- A day with 5 items, 4 of them done and one with no recorded `done`:
its completion rate is exactly 80. -/
def day80 : Checkin :=
  ⟨0, 0, some [⟨some (.jstr "a"), some (.jbool true)⟩, ⟨some (.jstr "b"), some (.jbool true)⟩,
    ⟨some (.jstr "c"), some (.jbool true)⟩, ⟨some (.jstr "d"), some (.jbool true)⟩,
    ⟨some (.jstr "e"), none⟩]⟩

def cs80 : List Checkin := [day80]

theorem day80_rate : (compute_daily_completion day80).2.2 = 80 := by
  have hx : (compute_daily_completion day80).2.2
      = ((4 : Nat) : ℚ) / ((5 : Nat) : ℚ) * 100 := rfl
  rw [hx]
  norm_num

theorem avgRate_cs80 : avgRate cs80 = 80 := by
  have h1 : avgRate cs80 = ((compute_daily_completion day80).2.2 + 0) / ((1 : Nat) : ℚ) := rfl
  rw [h1, day80_rate]
  norm_num

/-- Claim C7 counterexample: at an average completion rate of exactly 80 the
maintain-or-raise tag is emitted although 80 is not above 80 — the code
tests `avg_rate >= 80`. -/
theorem maintain_tag_at_exactly_80 :
    maintainPatternTag ∈ (summarize_checkins cs80 0 7).patterns ∧
    avgRate cs80 = 80 ∧ ¬(80 < avgRate cs80) := by
  refine ⟨?_, avgRate_cs80, by rw [avgRate_cs80]; norm_num⟩
  rw [summarize_patterns_eq cs80 0 (by decide) (by decide)]
  have hmain : (if avgRate cs80 < 50 then lowPatternTag
      else if 80 ≤ avgRate cs80 then maintainPatternTag else midPatternTag)
      = maintainPatternTag := by
    rw [avgRate_cs80, if_neg (by norm_num), if_pos (by norm_num)]
  have ho1 : cs80.filter (fun c => (compute_daily_completion c).2.2 < 50) = [] := by
    have hlt : ¬((compute_daily_completion day80).2.2 < 50) := by
      rw [day80_rate]
      norm_num
    show List.filter _ [day80] = []
    rw [List.filter_cons, if_neg (by simpa using hlt)]
    rfl
  have ho2 : hardHabitsOf (tallies cs80).2 (tallies cs80).1 = [] := rfl
  rw [hmain, ho1, ho2]
  simp

/-!  JSON extraction (app.py lines 175-200).

`json.loads` is modelled by a recursive-descent parser over characters with
a fuel argument.  Modelled verbatim: whitespace skipping, the `null` /
`true` / `false` keywords, strings with the single-character escapes and
the rejection of raw control characters, integers with the leading-zero
rule, arrays and objects with strict comma/colon structure (trailing commas
rejected), duplicate object keys resolved last-wins in place.  Not
modelled: fractional/exponent number forms and `\uXXXX` escapes (the
claims under check never feed them to the parser). -/

/-- Python `\s` / `str.strip` whitespace (ASCII part). -/
def isPySpace (c : Char) : Bool :=
  c == '\t' || c == '\n' || c == '\x0b' || c == '\x0c' || c == '\r' || c == ' '

/-- JSON whitespace as skipped by `json.loads`. -/
def isJsonWs (c : Char) : Bool := c == '\t' || c == '\n' || c == '\r' || c == ' '

def skipWs (cs : List Char) : List Char := cs.dropWhile isJsonWs

/-- The single-character string escapes of JSON. -/
def escapeChar (c : Char) : Option Char :=
  if c = 'n' then some '\n'
  else if c = 't' then some '\t'
  else if c = 'r' then some '\r'
  else if c = 'b' then some '\x08'
  else if c = 'f' then some '\x0c'
  else if c = '"' ∨ c = '\\' ∨ c = '/' then some c
  else none

/-- Body of a JSON string after the opening quote; rejects raw control
characters as `json.loads` does in strict mode. -/
def parseStringBody : List Char → List Char → Option (List Char × List Char)
  | [], _ => none
  | '"' :: rest, acc => some (acc.reverse, rest)
  | '\\' :: [], _ => none
  | '\\' :: c :: rest, acc =>
      match escapeChar c with
      | some ec => parseStringBody rest (ec :: acc)
      | none => none
  | c :: rest, acc =>
      if c.toNat < 32 then none else parseStringBody rest (c :: acc)

def digitsToNat (ds : List Char) : Nat := ds.foldl (fun a c => a * 10 + (c.toNat - 48)) 0

/-- A JSON integer (digit run with the no-leading-zero rule); fractional and
exponent forms are rejected rather than modelled. -/
def parseNat (cs : List Char) : Option (Nat × List Char) :=
  let ds := cs.takeWhile Char.isDigit
  let rest := cs.dropWhile Char.isDigit
  if ds.isEmpty then none
  else if 1 < ds.length ∧ ds.head? = some '0' then none
  else match rest with
    | '.' :: _ => none
    | 'e' :: _ => none
    | 'E' :: _ => none
    | _ => some (digitsToNat ds, rest)

/-- One step of the value parser: one JSON value at the head of the input
(whitespace already skipped), given parsers `pe` / `pf` for array elements
and object fields. -/
def parseValStep (pe : List Char → Option (List JVal × List Char))
    (pf : Obj → List Char → Option (Obj × List Char)) :
    List Char → Option (JVal × List Char)
  | cs =>
    match cs with
    | 'n' :: 'u' :: 'l' :: 'l' :: rest => some (.jnull, rest)
    | 't' :: 'r' :: 'u' :: 'e' :: rest => some (.jbool true, rest)
    | 'f' :: 'a' :: 'l' :: 's' :: 'e' :: rest => some (.jbool false, rest)
    | '"' :: rest =>
        match parseStringBody rest [] with
        | some (scs, rest2) => some (.jstr ⟨scs⟩, rest2)
        | none => none
    | '[' :: rest =>
        match skipWs rest with
        | ']' :: rest2 => some (.jarr [], rest2)
        | r => match pe r with
               | some (vs, rest2) => some (.jarr vs, rest2)
               | none => none
    | '\x7b' :: rest =>
        match skipWs rest with
        | '\x7d' :: rest2 => some (.jobj [], rest2)
        | r => match pf [] r with
               | some (fs, rest2) => some (.jobj fs, rest2)
               | none => none
    | '-' :: rest =>
        match parseNat rest with
        | some (nv, rest2) => some (.jnum (-(nv : Int)), rest2)
        | none => none
    | c :: rest =>
        if c.isDigit then
          match parseNat (c :: rest) with
          | some (nv, rest2) => some (.jnum (nv : Int), rest2)
          | none => none
        else none
    | [] => none

/-- One step of the element-list parser, the next value expected at the
head. -/
def parseElemsStep (pv : List Char → Option (JVal × List Char))
    (pe : List Char → Option (List JVal × List Char)) :
    List Char → Option (List JVal × List Char)
  | cs =>
      match pv cs with
      | none => none
      | some (v, rest) =>
          match skipWs rest with
          | ',' :: rest2 =>
              match pe (skipWs rest2) with
              | some (vs, rest3) => some (v :: vs, rest3)
              | none => none
          | ']' :: rest2 => some ([v], rest2)
          | _ => none

/-- One step of the field-list parser, the next `"key"` expected at the
head; keys accumulate via `setKey`, matching Python dict insertion
(duplicates last-wins). -/
def parseFieldsStep (pv : List Char → Option (JVal × List Char))
    (pf : Obj → List Char → Option (Obj × List Char)) :
    Obj → List Char → Option (Obj × List Char)
  | acc, cs =>
      match cs with
      | '"' :: rest =>
          match parseStringBody rest [] with
          | none => none
          | some (kcs, rest1) =>
              match skipWs rest1 with
              | ':' :: rest2 =>
                  match pv (skipWs rest2) with
                  | none => none
                  | some (v, rest3) =>
                      match skipWs rest3 with
                      | ',' :: rest4 => pf (setKey acc ⟨kcs⟩ v) (skipWs rest4)
                      | '\x7d' :: rest4 => some (setKey acc ⟨kcs⟩ v, rest4)
                      | _ => none
              | _ => none
      | _ => none

mutual

/-- One JSON value at the head of the input (fuel-driven). -/
def parseVal : Nat → List Char → Option (JVal × List Char)
  | 0, _ => none
  | fuel + 1, cs => parseValStep (parseElems fuel) (parseFields fuel) cs

/-- Array elements (fuel-driven). -/
def parseElems : Nat → List Char → Option (List JVal × List Char)
  | 0, _ => none
  | fuel + 1, cs => parseElemsStep (parseVal fuel) (parseElems fuel) cs

/-- Object fields (fuel-driven). -/
def parseFields : Nat → Obj → List Char → Option (Obj × List Char)
  | 0, _, _ => none
  | fuel + 1, acc, cs => parseFieldsStep (parseVal fuel) (parseFields fuel) acc cs

end

/-- `json.loads` on a character list: parse one value, then require only
trailing whitespace (else "Extra data"). -/
def json_loads_list (cs : List Char) : Option JVal :=
  match parseVal (cs.length + 1) (skipWs cs) with
  | some (v, rest) => if skipWs rest = [] then some v else none
  | none => none

/-- `json.loads` on a string (raising modelled as `none`). -/
def json_loads (s : String) : Option JVal := json_loads_list s.data

/-- The non-greedy `(\{.*?\})` of the fenced-block regex: try each closing
brace from the left; at each, succeed if `\s*`\x60\x60\x60 follows. -/
def fenceClose (acc : List Char) : List Char → Option (List Char)
  | [] => none
  | c :: cs =>
      if c = '\x7d' then
        if ("```".data).isPrefixOf (cs.dropWhile isPySpace) then some (acc ++ ['\x7d'])
        else fenceClose (acc ++ [c]) cs
      else fenceClose (acc ++ [c]) cs

/-- A match of ```` ```json\s*(\{.*?\})\s*``` ```` anchored at the head. -/
def fenceMatchAt (cs : List Char) : Option (List Char) :=
  if ("```json".data).isPrefixOf cs then
    match (cs.drop 7).dropWhile isPySpace with
    | '\x7b' :: rest2 => fenceClose ['\x7b'] rest2
    | _ => none
  else none

/-- `re.search` for the fenced block: leftmost match attempt wins. -/
def fenceSearch : List Char → Option (List Char)
  | [] => none
  | c :: cs =>
      match fenceMatchAt (c :: cs) with
      | some g => some g
      | none => fenceSearch cs

/-- Python `str.find` for a single character. -/
def findChar : List Char → Char → Option Nat
  | [], _ => none
  | c :: cs, t => if c = t then some 0 else (findChar cs t).map (· + 1)

/-- Python `str.rfind` for a single character. -/
def rfindChar (cs : List Char) (t : Char) : Option Nat :=
  (findChar cs.reverse t).map (fun i => cs.length - 1 - i)

/-- `text[s:e]` on character lists. -/
def sliceList (cs : List Char) (s e : Nat) : List Char := (cs.drop s).take (e - s)

theorem length_dropWhile_le (p : Char → Bool) :
    ∀ l : List Char, (l.dropWhile p).length ≤ l.length := by
  intro l
  induction l with
  | nil => simp
  | cons c cs ih =>
      rw [List.dropWhile_cons]
      split
      · simp
        omega
      · simp

/-- One global pass of `re.sub(r",\s*X", "X", ·)` for a closing delimiter. -/
def subCommaClose (close : Char) : List Char → List Char
  | [] => []
  | ',' :: cs =>
      match hdw : cs.dropWhile isPySpace with
      | c :: cs2 =>
          if c = close then close :: subCommaClose close cs2
          else ',' :: subCommaClose close cs
      | [] => ',' :: subCommaClose close cs
  | c :: cs => c :: subCommaClose close cs
  termination_by cs => cs.length
  decreasing_by
    · have h1 : (cs.dropWhile isPySpace).length ≤ cs.length := length_dropWhile_le _ cs
      rw [hdw] at h1
      simp at h1 ⊢
      omega
    · simp
    · simp
    · simp

/-- The two sequential comma repairs of `extract_json`. -/
def stripRepair (cs : List Char) : List Char := subCommaClose ']' (subCommaClose '\x7d' cs)

/-- `extract_json` (app.py lines 175-200): fenced block first, then the
first-`{`-to-last-`}` slice, parsed directly and then with the trailing
commas stripped. -/
def extract_json (text : String) : Option JVal :=
  if text = "" then none
  else
    match (fenceSearch text.data).bind json_loads_list with
    | some v => some v
    | none =>
        match findChar text.data '\x7b', rfindChar text.data '\x7d' with
        | some s, some e =>
            if s < e then
              let blob := sliceList text.data s (e + 1)
              match json_loads_list blob with
              | some v => some v
              | none => json_loads_list (stripRepair blob)
            else none
        | some _, none => none
        | none, _ => none

/-!  OpenAI call wrappers (app.py lines 266-398).

The generative endpoint is external (spec §6); its two call shapes are
modelled as oracle parameters of type `Except String String`: an `error`
is an exception raised by the SDK call, an `ok` is the text the call
produced (`message.content or ""` / `output_text or ""` resolved to the
string handed to `.strip()`).  The client constructor is also external and
is modelled from the spec (§6/§7): it resolves the credential from the
explicit argument or the environment and fails at construction time when
neither is set, before any call is attempted. -/

/-- Python `str.strip()` (ASCII whitespace). -/
def pyStrip (s : String) : String :=
  ⟨((s.data.dropWhile isPySpace).reverse.dropWhile isPySpace).reverse⟩

/-- `OPENAI_API_KEY = openai_key_input.strip() if openai_key_input else None`
(app.py line 122). -/
def OPENAI_API_KEY (openai_key_input : String) : Option String :=
  if openai_key_input ≠ "" then some (pyStrip openai_key_input) else none

/-- Modelled from the spec: the external OpenAI SDK client constructor used
by `openai_client` (app.py lines 266-268).  A truthy explicit key is passed
through; otherwise the constructor reads `OPENAI_API_KEY` from the
environment and raises when it is absent — a check performed before any
generative call. -/
def openai_client (api_key env_key : Option String) : Except String String :=
  match api_key with
  | some k =>
      if k ≠ "" then .ok k
      else match env_key with
        | some e => .ok e
        | none => .error "The api_key client option must be set either by passing api_key to the client or by setting the OPENAI_API_KEY environment variable"
  | none =>
      match env_key with
      | some e => .ok e
      | none => .error "The api_key client option must be set either by passing api_key to the client or by setting the OPENAI_API_KEY environment variable"

/-- The body of the first `try` block shared by both wrappers:
`text = content.strip(); data = extract_json(text) or json.loads(text);`
`return normalize_plan(data), text` — any raise becomes `.error`. -/
def attempt_chat (chat : Except String String) : Except String (Option JVal × String) :=
  match chat with
  | .error e => .error e
  | .ok content =>
      let text := pyStrip content
      let data : Option JVal :=
        match extract_json text with
        | some d => if pyTruthy d then some d else json_loads text
        | none => json_loads text
      match data with
      | none => .error "json.decoder.JSONDecodeError"
      | some d =>
          match normalize_plan d with
          | .ok p => .ok (some p, text)
          | .error e => .error e

/-- The body of the second `try` block shared by both wrappers:
`text = output_text.strip(); data = extract_json(text);`
`if data: return normalize_plan(data), text; return None, text`. -/
def attempt_responses (resps : Except String String) :
    Except String (Option JVal × String) :=
  match resps with
  | .error e => .error e
  | .ok content =>
      let text := pyStrip content
      match extract_json text with
      | some d =>
          if pyTruthy d then
            match normalize_plan d with
            | .ok p => .ok (some p, text)
            | .error e => .error e
          else .ok (none, text)
      | none => .ok (none, text)

/-- `generate_plan_with_llm` (app.py lines 271-338): construct the client
(outside any `try`), then the chat-completions shape, then the responses
fallback; the final handler returns `(None, f"ERROR: {e}")`. -/
def generate_plan_with_llm (api_key env_key : Option String)
    (chat resps : Except String String) : Except String (Option JVal × String) :=
  match openai_client api_key env_key with
  | .error e => .error e
  | .ok _ =>
      match attempt_chat chat with
      | .ok r => .ok r
      | .error _ =>
          match attempt_responses resps with
          | .ok r => .ok r
          | .error e => .ok (none, "ERROR: " ++ e)

/-- `adjust_plan_with_llm` (app.py lines 341-398): identical control flow to
`generate_plan_with_llm` (the prompt payload differs, which only affects the
oracle's answers). -/
def adjust_plan_with_llm (api_key env_key : Option String)
    (current_plan : JVal) (checkin_summary : Summary) (adjustment_note : String)
    (chat resps : Except String String) : Except String (Option JVal × String) :=
  match openai_client api_key env_key with
  | .error e => .error e
  | .ok _ =>
      match attempt_chat chat with
      | .ok r => .ok r
      | .error _ =>
          match attempt_responses resps with
          | .ok r => .ok r
          | .error e => .ok (none, "ERROR: " ++ e)

/-- Claim C5: once the client is constructed, neither wrapper ever
propagates an exception, for every behaviour of the generative endpoint:
each returns normally; when both call shapes raise, each returns `None`
paired with `"ERROR: "` plus the second exception's message; and when the
fallback call returns text from which `extract_json` recovers no truthy
object, each returns `None` paired with that raw stripped text. -/
theorem llm_wrappers_never_raise (api_key env_key : Option String) (k : String)
    (cp : JVal) (sm : Summary) (note : String)
    (hclient : openai_client api_key env_key = .ok k) :
    (∀ chat resps : Except String String,
      ∃ r, generate_plan_with_llm api_key env_key chat resps = .ok r) ∧
    (∀ chat resps : Except String String,
      ∃ r, adjust_plan_with_llm api_key env_key cp sm note chat resps = .ok r) ∧
    (∀ (chat resps : Except String String) (e1 e2 : String),
      attempt_chat chat = .error e1 → attempt_responses resps = .error e2 →
      generate_plan_with_llm api_key env_key chat resps =
        .ok (none, "ERROR: " ++ e2) ∧
      adjust_plan_with_llm api_key env_key cp sm note chat resps =
        .ok (none, "ERROR: " ++ e2)) ∧
    (∀ (chat : Except String String) (e1 content : String),
      attempt_chat chat = .error e1 →
      (extract_json (pyStrip content) = none ∨
        ∃ d, extract_json (pyStrip content) = some d ∧ pyTruthy d = false) →
      generate_plan_with_llm api_key env_key chat (.ok content) =
        .ok (none, pyStrip content) ∧
      adjust_plan_with_llm api_key env_key cp sm note chat (.ok content) =
        .ok (none, pyStrip content)) := by
  have hgen : ∀ chat resps : Except String String,
      generate_plan_with_llm api_key env_key chat resps =
        (match attempt_chat chat with
          | .ok r => .ok r
          | .error _ =>
              match attempt_responses resps with
              | .ok r => .ok r
              | .error e => .ok (none, "ERROR: " ++ e)) := by
    intro chat resps
    unfold generate_plan_with_llm
    rw [hclient]
  have hadj : ∀ chat resps : Except String String,
      adjust_plan_with_llm api_key env_key cp sm note chat resps =
        (match attempt_chat chat with
          | .ok r => .ok r
          | .error _ =>
              match attempt_responses resps with
              | .ok r => .ok r
              | .error e => .ok (none, "ERROR: " ++ e)) := by
    intro chat resps
    unfold adjust_plan_with_llm
    rw [hclient]
  refine ⟨?_, ?_, ?_, ?_⟩
  · intro chat resps
    rw [hgen]
    cases h1 : attempt_chat chat with
    | ok r => exact ⟨r, rfl⟩
    | error e1 =>
        cases h2 : attempt_responses resps with
        | ok r => exact ⟨r, rfl⟩
        | error e2 => exact ⟨(none, "ERROR: " ++ e2), rfl⟩
  · intro chat resps
    rw [hadj]
    cases h1 : attempt_chat chat with
    | ok r => exact ⟨r, rfl⟩
    | error e1 =>
        cases h2 : attempt_responses resps with
        | ok r => exact ⟨r, rfl⟩
        | error e2 => exact ⟨(none, "ERROR: " ++ e2), rfl⟩
  · intro chat resps e1 e2 h1 h2
    constructor
    · rw [hgen, h1, h2]
    · rw [hadj, h1, h2]
  · intro chat e1 content h1 hx
    have hresp : attempt_responses (.ok content) = .ok (none, pyStrip content) := by
      unfold attempt_responses
      dsimp only
      rcases hx with hx | ⟨d, hd, hfd⟩
      · rw [hx]
      · rw [hd]
        simp [hfd]
    constructor
    · rw [hgen, h1, hresp]
    · rw [hadj, h1, hresp]

/-- Witness for `llm_wrappers_never_raise`: a present key, with both call
shapes raising in the first conjunct and the fallback producing unusable
text in the second. -/
theorem llm_wrappers_never_raise_witness :
    generate_plan_with_llm (some "sk-test") none (.error "boom") (.error "down") =
      .ok (none, "ERROR: " ++ "down") ∧
    adjust_plan_with_llm (some "sk-test") none (.jobj []) ⟨7, 0, 0, [], [], []⟩ ""
      (.error "boom") (.ok "no json here") = .ok (none, pyStrip "no json here") := by
  have h := llm_wrappers_never_raise (some "sk-test") none "sk-test" (.jobj [])
    ⟨7, 0, 0, [], [], []⟩ "" (by rfl)
  exact ⟨(h.2.2.1 (.error "boom") (.error "down") "boom" "down" rfl rfl).1,
    (h.2.2.2 (.error "boom") "boom" "no json here" rfl (Or.inl (by decide))).2⟩

/-- Claim C6: with no sidebar key and no environment key, the missing
credential is detected at client construction, before any call: both
wrappers fail with the SDK's credential message for every endpoint
behaviour, and their result does not depend on the endpoint at all (no call
is consulted).  The sidebar resolution maps an empty input to `None`. -/
theorem missing_credential_checked_first (chat resps chat2 resps2 : Except String String)
    (cp : JVal) (sm : Summary) (note : String) :
    OPENAI_API_KEY "" = none ∧
    generate_plan_with_llm none none chat resps
      = .error "The api_key client option must be set either by passing api_key to the client or by setting the OPENAI_API_KEY environment variable" ∧
    generate_plan_with_llm none none chat resps = generate_plan_with_llm none none chat2 resps2 ∧
    adjust_plan_with_llm none none cp sm note chat resps
      = .error "The api_key client option must be set either by passing api_key to the client or by setting the OPENAI_API_KEY environment variable" ∧
    adjust_plan_with_llm none none cp sm note chat resps
      = adjust_plan_with_llm none none cp sm note chat2 resps2 := by
  refine ⟨rfl, rfl, rfl, rfl, rfl⟩

/-!  Claim C4 development: a renderable class of JSON values.

To quantify over "a JSON object literal embedded in surrounding prose,
valid except for trailing commas before closing braces/brackets" we render
`JVal` trees to text.  `renderG bo ba` prints canonical whitespace-free
JSON, inserting a trailing comma before the closing brace of every
non-empty object when `bo` is set and before the closing bracket of every
non-empty array when `ba` is set.  `cleanV` delimits the class: string
contents avoid characters that interact with the regex repairs, the
brace/bracket slicing, the fence search, or JSON escaping, and object keys
are unrepeated. -/

/-- A string character that cannot interfere with rendering, slicing,
fence search, or the comma repairs. -/
def cleanChar (c : Char) : Bool :=
  33 ≤ c.toNat && c ≠ '"' && c ≠ '\\' && c ≠ ',' && c ≠ '\x60' &&
    c ≠ '\x7b' && c ≠ '\x7d' && c ≠ '[' && c ≠ ']'

mutual

/-- Values in the renderable class. -/
def cleanV : JVal → Bool
  | .jnull => true
  | .jbool _ => true
  | .jnum _ => true
  | .jstr s => s.data.all cleanChar
  | .jarr vs => cleanL vs
  | .jobj fs => cleanF fs

/-- Element lists in the renderable class. -/
def cleanL : List JVal → Bool
  | [] => true
  | v :: vs => cleanV v && cleanL vs

/-- Field lists in the renderable class (keys clean and unrepeated). -/
def cleanF : Obj → Bool
  | [] => true
  | (k, v) :: fs =>
      k.data.all cleanChar && cleanV v && (lookupKey fs k).isNone && cleanF fs

end

/-- `true` when the value is not a non-empty collection, i.e. when its
rendering carries no trailing comma at the top level (and, since only
non-empty collections contain sub-values, no trailing comma at all). -/
def noCollV : JVal → Bool
  | .jarr (_ :: _) => false
  | .jobj (_ :: _) => false
  | _ => true

mutual

/-- Canonical whitespace-free JSON rendering; `bo`/`ba` insert a trailing
comma before the close of every non-empty object/array. -/
def renderG (bo ba : Bool) : JVal → List Char
  | .jnull => 'n' :: 'u' :: 'l' :: 'l' :: []
  | .jbool true => 't' :: 'r' :: 'u' :: 'e' :: []
  | .jbool false => 'f' :: 'a' :: 'l' :: 's' :: 'e' :: []
  | .jnum i => if i < 0 then '-' :: natDigits i.natAbs else natDigits i.natAbs
  | .jstr s => '"' :: (s.data ++ ['"'])
  | .jarr [] => '[' :: ']' :: []
  | .jarr (v :: vs) =>
      '[' :: (renderGElems bo ba (v :: vs) ++ (if ba then [','] else []) ++ [']'])
  | .jobj [] => '\x7b' :: '\x7d' :: []
  | .jobj (f :: fs) =>
      '\x7b' :: (renderGFields bo ba (f :: fs) ++ (if bo then [','] else []) ++ ['\x7d'])

/-- Comma-separated rendering of array elements. -/
def renderGElems (bo ba : Bool) : List JVal → List Char
  | [] => []
  | [v] => renderG bo ba v
  | v :: v2 :: vs => renderG bo ba v ++ ',' :: renderGElems bo ba (v2 :: vs)

/-- Comma-separated rendering of object fields. -/
def renderGFields (bo ba : Bool) : Obj → List Char
  | [] => []
  | [(k, v)] => '"' :: (k.data ++ '"' :: ':' :: renderG bo ba v)
  | (k, v) :: f2 :: fs =>
      ('"' :: (k.data ++ '"' :: ':' :: renderG bo ba v)) ++
        ',' :: renderGFields bo ba (f2 :: fs)

end

mutual

/-- Fuel needed by `parseVal` on the rendering of a value. -/
def needV : JVal → Nat
  | .jarr vs => needL vs + 1
  | .jobj fs => needF fs + 1
  | _ => 1

/-- Fuel needed by `parseElems` on rendered elements. -/
def needL : List JVal → Nat
  | [] => 0
  | v :: vs => needV v + needL vs + 1

/-- Fuel needed by `parseFields` on rendered fields. -/
def needF : Obj → Nat
  | [] => 0
  | (_, v) :: fs => needV v + needF fs + 1

end

/-- Characters allowed to follow a complete rendered value without
extending its parse. -/
def headOK : List Char → Bool
  | [] => true
  | c :: _ => c = ',' || c = ']' || c = '\x7d'

/-- Characters a rendering can start with. -/
def StartsRender (c : Char) : Prop :=
  c = 'n' ∨ c = 't' ∨ c = 'f' ∨ c = '"' ∨ c = '[' ∨ c = '\x7b' ∨ c = '-' ∨
    ∃ d, c = digitChar d

theorem digitChar_ne (d : Nat) :
    digitChar d ≠ 'n' ∧ digitChar d ≠ 't' ∧ digitChar d ≠ 'f' ∧
    digitChar d ≠ '"' ∧ digitChar d ≠ '[' ∧ digitChar d ≠ '\x7b' ∧
    digitChar d ≠ '-' ∧ digitChar d ≠ ']' ∧ digitChar d ≠ '\x7d' ∧
    digitChar d ≠ ',' ∧ digitChar d ≠ ':' ∧ digitChar d ≠ '\x60' ∧
    isJsonWs (digitChar d) = false ∧ isPySpace (digitChar d) = false ∧
    48 ≤ (digitChar d).toNat ∧ (digitChar d).toNat ≤ 57 := by
  unfold digitChar
  split <;> exact (by decide)

theorem startsRender_props {c : Char} (h : StartsRender c) :
    isJsonWs c = false ∧ isPySpace c = false ∧ c ≠ ']' ∧ c ≠ '\x7d' ∧
    c ≠ ',' ∧ c ≠ ':' ∧ c ≠ '\x60' := by
  rcases h with h | h | h | h | h | h | h | ⟨d, h⟩ <;> subst h
  · exact (by decide)
  · exact (by decide)
  · exact (by decide)
  · exact (by decide)
  · exact (by decide)
  · exact (by decide)
  · exact (by decide)
  · have hd := digitChar_ne d
    refine ⟨hd.2.2.2.2.2.2.2.2.2.2.2.2.1, hd.2.2.2.2.2.2.2.2.2.2.2.2.2.1,
      hd.2.2.2.2.2.2.2.1, hd.2.2.2.2.2.2.2.2.1, hd.2.2.2.2.2.2.2.2.2.1,
      hd.2.2.2.2.2.2.2.2.2.2.1, hd.2.2.2.2.2.2.2.2.2.2.2.1⟩

theorem skipWs_cons_of_not_ws {c : Char} (cs : List Char)
    (h : isJsonWs c = false) : skipWs (c :: cs) = c :: cs := by
  simp [skipWs, List.dropWhile_cons, h]

theorem natDigitsAux_head {fuel n : Nat} :
    ∃ d cs, natDigitsAux (fuel + 1) n = digitChar d :: cs := by
  induction fuel generalizing n with
  | zero =>
      unfold natDigitsAux
      by_cases hn : n < 10
      · exact ⟨n, [], by simp [hn]⟩
      · exact ⟨n % 10, [], by simp [hn, natDigitsAux]⟩
  | succ fuel ih =>
      unfold natDigitsAux
      by_cases hn : n < 10
      · exact ⟨n, [], by simp [hn]⟩
      · obtain ⟨d, cs, hd⟩ := @ih (n / 10)
        exact ⟨d, cs ++ [digitChar (n % 10)], by simp [hn, hd]⟩

theorem natDigits_head (n : Nat) : ∃ d cs, natDigits n = digitChar d :: cs :=
  natDigitsAux_head

theorem renderG_head (bo ba : Bool) :
    ∀ J : JVal, ∃ c cs, renderG bo ba J = c :: cs ∧ StartsRender c := by
  intro J
  cases J with
  | jnull => exact ⟨'n', _, rfl, Or.inl rfl⟩
  | jbool b =>
      cases b with
      | true => exact ⟨'t', _, rfl, Or.inr (Or.inl rfl)⟩
      | false => exact ⟨'f', _, rfl, Or.inr (Or.inr (Or.inl rfl))⟩
  | jnum i =>
      by_cases hi : i < 0
      · exact ⟨'-', natDigits i.natAbs, by simp [renderG, hi],
          Or.inr (Or.inr (Or.inr (Or.inr (Or.inr (Or.inr (Or.inl rfl))))))⟩
      · obtain ⟨d, cs, hd⟩ := natDigits_head i.natAbs
        exact ⟨digitChar d, cs, by simp [renderG, hi, hd],
          Or.inr (Or.inr (Or.inr (Or.inr (Or.inr (Or.inr (Or.inr ⟨d, rfl⟩))))))⟩
  | jstr s => exact ⟨'"', _, rfl, Or.inr (Or.inr (Or.inr (Or.inl rfl)))⟩
  | jarr vs =>
      cases vs with
      | nil => exact ⟨'[', _, rfl, Or.inr (Or.inr (Or.inr (Or.inr (Or.inl rfl))))⟩
      | cons v vs =>
          exact ⟨'[', _, rfl, Or.inr (Or.inr (Or.inr (Or.inr (Or.inl rfl))))⟩
  | jobj fs =>
      cases fs with
      | nil =>
          exact ⟨'\x7b', _, rfl,
            Or.inr (Or.inr (Or.inr (Or.inr (Or.inr (Or.inl rfl)))))⟩
      | cons f fs =>
          exact ⟨'\x7b', _, rfl,
            Or.inr (Or.inr (Or.inr (Or.inr (Or.inr (Or.inl rfl)))))⟩

theorem noColl_renderG (bo ba : Bool) {J : JVal} (h : noCollV J = true) :
    renderG bo ba J = renderG false false J := by
  cases J with
  | jnull => rfl
  | jbool b => cases b <;> rfl
  | jnum i => rfl
  | jstr s => rfl
  | jarr vs =>
      cases vs with
      | nil => rfl
      | cons v vs => simp [noCollV] at h
  | jobj fs =>
      cases fs with
      | nil => rfl
      | cons f fs => simp [noCollV] at h

theorem digitChar_toNat_of_lt {d : Nat} (h : d < 10) :
    (digitChar d).toNat - 48 = d := by
  interval_cases d <;> decide

theorem digitsToNat_concat (ds : List Char) (c : Char) :
    digitsToNat (ds ++ [c]) = digitsToNat ds * 10 + (c.toNat - 48) := by
  simp [digitsToNat, List.foldl_append]

theorem digitsToNat_natDigitsAux : ∀ fuel n : Nat, n < fuel →
    digitsToNat (natDigitsAux fuel n) = n := by
  intro fuel
  induction fuel with
  | zero => intro n h; omega
  | succ fuel ih =>
      intro n h
      unfold natDigitsAux
      by_cases hn : n < 10
      · simp only [hn, if_true, if_pos]
        have : digitsToNat [digitChar n] = (digitChar n).toNat - 48 := by
          simp [digitsToNat]
        rw [this, digitChar_toNat_of_lt hn]
      · simp only [hn, if_false]
        rw [digitsToNat_concat, ih (n / 10) (by omega),
          digitChar_toNat_of_lt (Nat.mod_lt n (by omega))]
        omega

theorem digitsToNat_natDigits (n : Nat) : digitsToNat (natDigits n) = n :=
  digitsToNat_natDigitsAux (n + 1) n (Nat.lt_succ_self n)

theorem digitChar_ne_zero {n : Nat} (h1 : 0 < n) (h2 : n < 10) :
    digitChar n ≠ '0' := by
  interval_cases n <;> decide

theorem natDigitsAux_ne_nil (fuel n : Nat) : natDigitsAux (fuel + 1) n ≠ [] := by
  unfold natDigitsAux
  by_cases hn : n < 10 <;> simp [hn]

theorem natDigitsAux_head_ne_zero : ∀ fuel n : Nat, n < fuel → 0 < n →
    (natDigitsAux fuel n).head? ≠ some '0' := by
  intro fuel
  induction fuel with
  | zero => intro n h; omega
  | succ fuel ih =>
      intro n h hpos
      unfold natDigitsAux
      by_cases hn : n < 10
      · simpa [hn] using digitChar_ne_zero hpos hn
      · simp only [hn, if_false]
        have h10 : 10 ≤ n := by omega
        obtain ⟨fuel', rfl⟩ : ∃ f, fuel = f + 1 := ⟨fuel - 1, by omega⟩
        obtain ⟨d, cs, hd⟩ := @natDigitsAux_head fuel' (n / 10)
        rw [hd]
        simp only [List.cons_append, List.head?_cons]
        have := ih (n / 10) (by omega) (by omega)
        rw [hd] at this
        simpa using this

theorem natDigits_not_leading_zero (n : Nat) :
    ¬(1 < (natDigits n).length ∧ (natDigits n).head? = some '0') := by
  rintro ⟨hlen, hhead⟩
  by_cases hn : 0 < n
  · exact natDigitsAux_head_ne_zero (n + 1) n (Nat.lt_succ_self n) hn hhead
  · have hz : n = 0 := by omega
    subst hz
    simp [natDigits, natDigitsAux] at hlen

theorem natDigits_all_digits {n : Nat} {c : Char} (h : c ∈ natDigits n) :
    c.isDigit = true := by
  obtain ⟨d, rfl⟩ := mem_natDigitsAux h
  exact digitChar_isDigit d

theorem takeWhile_append_all (p : Char → Bool) :
    ∀ (xs rest : List Char), (∀ c ∈ xs, p c = true) →
      (∀ c, rest.head? = some c → p c = false) →
      xs.takeWhile p ++ rest.takeWhile p = (xs ++ rest).takeWhile p ∧
        (xs ++ rest).takeWhile p = xs ++ rest.takeWhile p ∧
        (xs ++ rest).dropWhile p = rest.dropWhile p ∧
        rest.takeWhile p = [] ∧ rest.dropWhile p = rest := by
  intro xs rest hxs hrest
  have hr : rest.takeWhile p = [] ∧ rest.dropWhile p = rest := by
    cases rest with
    | nil => simp
    | cons c cs =>
        have := hrest c rfl
        simp [List.takeWhile_cons, List.dropWhile_cons, this]
  induction xs with
  | nil => simpa using hr
  | cons x xs ih =>
      have hx : p x = true := hxs x (List.mem_cons_self _ _)
      have ih' := ih (fun c hc => hxs c (List.mem_cons_of_mem _ hc))
      simp only [List.cons_append, List.takeWhile_cons, List.dropWhile_cons, hx,
        if_true] at ih' ⊢
      exact ⟨by rw [← ih'.1, hr.1, List.append_nil], by simp [ih'.2.1], ih'.2.2.1,
        hr.1, hr.2⟩

theorem headOK_not_digit {rest : List Char} (h : headOK rest = true) :
    (∀ c, rest.head? = some c → c.isDigit = false) ∧
    (∀ c rest2, rest = c :: rest2 → c ≠ '.' ∧ c ≠ 'e' ∧ c ≠ 'E') := by
  cases rest with
  | nil => exact ⟨fun c hc => by simp at hc, fun c r hc => by simp at hc⟩
  | cons c cs =>
      simp only [headOK, Bool.or_eq_true, decide_eq_true_eq] at h
      constructor
      · intro c' hc'
        simp only [List.head?_cons, Option.some.injEq] at hc'
        subst hc'
        rcases h with (h | h) | h <;> subst h <;> decide
      · intro c' r hc'
        injection hc' with h1 h2
        subst h1
        rcases h with (h | h) | h <;> subst h <;>
          exact ⟨by decide, by decide, by decide⟩

theorem parseNat_render (n : Nat) (rest : List Char) (h : headOK rest = true) :
    parseNat (natDigits n ++ rest) = some (n, rest) := by
  have hall : ∀ c ∈ natDigits n, Char.isDigit c = true := fun c hc =>
    natDigits_all_digits hc
  have hhd : ∀ c, rest.head? = some c → Char.isDigit c = false :=
    (headOK_not_digit h).1
  have htw := takeWhile_append_all Char.isDigit (natDigits n) rest hall hhd
  unfold parseNat
  dsimp only
  rw [htw.2.1, htw.2.2.1, htw.2.2.2.1, htw.2.2.2.2]
  simp only [List.append_nil]
  have hne : (natDigits n).isEmpty = false := by
    have := natDigitsAux_ne_nil n n
    cases hnn : natDigits n with
    | nil => exact absurd hnn this
    | cons a b => rfl
  rw [hne]
  simp only [Bool.false_eq_true, if_false]
  rw [if_neg (natDigits_not_leading_zero n)]
  have hd2 := (headOK_not_digit h).2
  cases rest with
  | nil => simp [digitsToNat_natDigits]
  | cons c cs =>
      obtain ⟨h1, h2, h3⟩ := hd2 c cs rfl
      split
      · rename_i heq
        injection heq with hc hcs
        exact absurd hc h1
      · rename_i heq
        injection heq with hc hcs
        exact absurd hc h2
      · rename_i heq
        injection heq with hc hcs
        exact absurd hc h3
      · rw [digitsToNat_natDigits]

theorem cleanChar_props {c : Char} (h : cleanChar c = true) :
    33 ≤ c.toNat ∧ c ≠ '"' ∧ c ≠ '\\' ∧ c ≠ ',' ∧ c ≠ '\x60' ∧ c ≠ '\x7b' ∧
      c ≠ '\x7d' ∧ c ≠ '[' ∧ c ≠ ']' := by
  simp only [cleanChar, Bool.and_eq_true, decide_eq_true_eq, ne_eq] at h
  tauto

theorem parseStringBody_plain : ∀ (l : List Char), l.all cleanChar = true →
    ∀ (acc rest : List Char),
      parseStringBody (l ++ '"' :: rest) acc = some (acc.reverse ++ l, rest) := by
  intro l
  induction l with
  | nil =>
      intro _ acc rest
      simp [parseStringBody]
  | cons c l ih =>
      intro hall acc rest
      simp only [List.all_cons, Bool.and_eq_true] at hall
      obtain ⟨hc, hl⟩ := hall
      obtain ⟨hge, hq, hbs, _⟩ := cleanChar_props hc
      rw [List.cons_append, parseStringBody.eq_def]
      split
      · rename_i heq
        simp at heq
      · rename_i heq
        injection heq with h1 h2
        exact absurd h1 hq
      · rename_i heq
        injection heq with h1 h2
        exact absurd h1 hbs
      · rename_i heq
        injection heq with h1 h2
        exact absurd h1 hbs
      · rename_i heq
        injection heq with h1 h2
        subst h1
        subst h2
        rw [if_neg (by omega)]
        rw [ih hl]
        simp

theorem parseValStep_mono
    {pe pe' : List Char → Option (List JVal × List Char)}
    {pf pf' : Obj → List Char → Option (Obj × List Char)}
    (hpe : ∀ cs r, pe cs = some r → pe' cs = some r)
    (hpf : ∀ acc cs r, pf acc cs = some r → pf' acc cs = some r) :
    ∀ cs r, parseValStep pe pf cs = some r → parseValStep pe' pf' cs = some r := by
  intro cs r h
  unfold parseValStep at h ⊢
  dsimp only at h ⊢
  split at h
  · exact h
  · exact h
  · exact h
  · exact h
  · split at h
    · exact h
    · split at h
      · rename_i hpe0
        rw [hpe _ _ hpe0]
        exact h
      · exact absurd h (by simp)
  · split at h
    · exact h
    · split at h
      · rename_i hpf0
        rw [hpf _ _ _ hpf0]
        exact h
      · exact absurd h (by simp)
  · exact h
  · exact h
  · exact h

theorem parseElemsStep_mono
    {pv pv' : List Char → Option (JVal × List Char)}
    {pe pe' : List Char → Option (List JVal × List Char)}
    (hpv : ∀ cs r, pv cs = some r → pv' cs = some r)
    (hpe : ∀ cs r, pe cs = some r → pe' cs = some r) :
    ∀ cs r, parseElemsStep pv pe cs = some r → parseElemsStep pv' pe' cs = some r := by
  intro cs r h
  unfold parseElemsStep at h ⊢
  dsimp only at h ⊢
  split at h
  · exact absurd h (by simp)
  · rename_i hpv0
    split at h
    · rename_i heq
      split at h
      · rename_i hpe0
        simp only [hpv _ _ hpv0, heq, hpe _ _ hpe0]
        exact h
      · exact absurd h (by simp)
    · rename_i heq
      simp only [hpv _ _ hpv0, heq]
      exact h
    · exact absurd h (by simp)

theorem parseFieldsStep_mono
    {pv pv' : List Char → Option (JVal × List Char)}
    {pf pf' : Obj → List Char → Option (Obj × List Char)}
    (hpv : ∀ cs r, pv cs = some r → pv' cs = some r)
    (hpf : ∀ acc cs r, pf acc cs = some r → pf' acc cs = some r) :
    ∀ acc cs r, parseFieldsStep pv pf acc cs = some r →
      parseFieldsStep pv' pf' acc cs = some r := by
  intro acc cs r h
  unfold parseFieldsStep at h ⊢
  dsimp only at h ⊢
  split at h
  · split at h
    · exact absurd h (by simp)
    · split at h
      · split at h
        · exact absurd h (by simp)
        · rename_i hpv0
          split at h
          · rename_i heq2
            simp only [hpv _ _ hpv0, heq2]
            exact hpf _ _ _ h
          · rename_i heq2
            simp only [hpv _ _ hpv0, heq2]
            exact h
          · exact absurd h (by simp)
      · exact absurd h (by simp)
  · exact absurd h (by simp)

theorem parse_mono : ∀ fuel : Nat,
    (∀ cs r, parseVal fuel cs = some r → parseVal (fuel + 1) cs = some r) ∧
    (∀ cs r, parseElems fuel cs = some r → parseElems (fuel + 1) cs = some r) ∧
    (∀ acc cs r, parseFields fuel acc cs = some r →
      parseFields (fuel + 1) acc cs = some r) := by
  intro fuel
  induction fuel with
  | zero =>
      refine ⟨?_, ?_, ?_⟩
      · intro cs r h
        simp [parseVal] at h
      · intro cs r h
        simp [parseElems] at h
      · intro acc cs r h
        simp [parseFields] at h
  | succ n ih =>
      refine ⟨?_, ?_, ?_⟩
      · intro cs r h
        exact parseValStep_mono ih.2.1 ih.2.2 cs r h
      · intro cs r h
        exact parseElemsStep_mono ih.1 ih.2.1 cs r h
      · intro acc cs r h
        exact parseFieldsStep_mono ih.1 ih.2.2 acc cs r h

theorem parse_mono_le {f f' : Nat} (h : f ≤ f') :
    (∀ cs r, parseVal f cs = some r → parseVal f' cs = some r) ∧
    (∀ cs r, parseElems f cs = some r → parseElems f' cs = some r) ∧
    (∀ acc cs r, parseFields f acc cs = some r → parseFields f' acc cs = some r) := by
  induction f' with
  | zero =>
      have hf : f = 0 := by omega
      subst hf
      exact ⟨fun _ _ h => h, fun _ _ h => h, fun _ _ _ h => h⟩
  | succ n ih =>
      by_cases hf : f = n + 1
      · subst hf
        exact ⟨fun _ _ h => h, fun _ _ h => h, fun _ _ _ h => h⟩
      · have hle : f ≤ n := by omega
        have i1 := ih hle
        exact ⟨fun cs r hc => (parse_mono n).1 cs r (i1.1 cs r hc),
          fun cs r hc => (parse_mono n).2.1 cs r (i1.2.1 cs r hc),
          fun acc cs r hc => (parse_mono n).2.2 acc cs r (i1.2.2 acc cs r hc)⟩

theorem setKey_append_of_none {acc : Obj} {k : String} (v : JVal)
    (h : lookupKey acc k = none) : setKey acc k v = acc ++ [(k, v)] := by
  induction acc with
  | nil => rfl
  | cons a rest ih =>
      obtain ⟨a1, a2⟩ := a
      by_cases hk : a1 = k
      · simp [lookupKey, hk] at h
      · simp only [lookupKey, hk, if_false] at h
        simp [setKey, hk, ih h]

theorem lookupKey_none_forall {fs : Obj} {k : String}
    (h : lookupKey fs k = none) : ∀ p ∈ fs, p.1 ≠ k := by
  induction fs with
  | nil => intro p hp; simp at hp
  | cons a rest ih =>
      obtain ⟨a1, a2⟩ := a
      intro p hp
      by_cases hk : a1 = k
      · simp [lookupKey, hk] at h
      · simp only [lookupKey, hk, if_false] at h
        rcases List.mem_cons.mp hp with hp | hp
        · subst hp; exact hk
        · exact ih h p hp

theorem parseValStep_null (pe : List Char → Option (List JVal × List Char))
    (pf : Obj → List Char → Option (Obj × List Char)) (rest : List Char) :
    parseValStep pe pf ('n' :: 'u' :: 'l' :: 'l' :: rest) = some (.jnull, rest) := rfl

theorem parseValStep_true (pe : List Char → Option (List JVal × List Char))
    (pf : Obj → List Char → Option (Obj × List Char)) (rest : List Char) :
    parseValStep pe pf ('t' :: 'r' :: 'u' :: 'e' :: rest) = some (.jbool true, rest) := rfl

theorem parseValStep_false (pe : List Char → Option (List JVal × List Char))
    (pf : Obj → List Char → Option (Obj × List Char)) (rest : List Char) :
    parseValStep pe pf ('f' :: 'a' :: 'l' :: 's' :: 'e' :: rest) =
      some (.jbool false, rest) := rfl

theorem parseValStep_quote (pe : List Char → Option (List JVal × List Char))
    (pf : Obj → List Char → Option (Obj × List Char)) (rest : List Char) :
    parseValStep pe pf ('"' :: rest) =
      match parseStringBody rest [] with
      | some (scs, rest2) => some (.jstr ⟨scs⟩, rest2)
      | none => none := rfl

theorem parseValStep_lbrack (pe : List Char → Option (List JVal × List Char))
    (pf : Obj → List Char → Option (Obj × List Char)) (rest : List Char) :
    parseValStep pe pf ('[' :: rest) =
      match skipWs rest with
      | ']' :: rest2 => some (.jarr [], rest2)
      | r =>
          match pe r with
          | some (vs, rest2) => some (.jarr vs, rest2)
          | none => none := rfl

theorem parseValStep_lbrace (pe : List Char → Option (List JVal × List Char))
    (pf : Obj → List Char → Option (Obj × List Char)) (rest : List Char) :
    parseValStep pe pf ('\x7b' :: rest) =
      match skipWs rest with
      | '\x7d' :: rest2 => some (.jobj [], rest2)
      | r =>
          match pf [] r with
          | some (fs, rest2) => some (.jobj fs, rest2)
          | none => none := rfl

theorem parseValStep_minus (pe : List Char → Option (List JVal × List Char))
    (pf : Obj → List Char → Option (Obj × List Char)) (rest : List Char) :
    parseValStep pe pf ('-' :: rest) =
      match parseNat rest with
      | some (nv, rest2) => some (.jnum (-(nv : Int)), rest2)
      | none => none := rfl

theorem parseValStep_digitChar (pe : List Char → Option (List JVal × List Char))
    (pf : Obj → List Char → Option (Obj × List Char)) (d : Nat) (rest : List Char) :
    parseValStep pe pf (digitChar d :: rest) =
      match parseNat (digitChar d :: rest) with
      | some (nv, rest2) => some (.jnum (nv : Int), rest2)
      | none => none := by
  unfold digitChar
  split <;> rfl

theorem parseValStep_rbrack (pe : List Char → Option (List JVal × List Char))
    (pf : Obj → List Char → Option (Obj × List Char)) (rest : List Char) :
    parseValStep pe pf (']' :: rest) = none := rfl

theorem parseValStep_rbrace (pe : List Char → Option (List JVal × List Char))
    (pf : Obj → List Char → Option (Obj × List Char)) (rest : List Char) :
    parseValStep pe pf ('\x7d' :: rest) = none := rfl

theorem parseVal_render_jnull (fuel : Nat) (rest : List Char) :
    parseVal (fuel + 1) (renderG false false .jnull ++ rest) = some (.jnull, rest) := rfl

theorem parseVal_render_jbool (fuel : Nat) (b : Bool) (rest : List Char) :
    parseVal (fuel + 1) (renderG false false (.jbool b) ++ rest) =
      some (.jbool b, rest) := by
  cases b <;> rfl

theorem parseVal_render_jarr_nil (fuel : Nat) (rest : List Char) :
    parseVal (fuel + 1) (renderG false false (.jarr []) ++ rest) =
      some (.jarr [], rest) := rfl

theorem parseVal_render_jobj_nil (fuel : Nat) (rest : List Char) :
    parseVal (fuel + 1) (renderG false false (.jobj []) ++ rest) =
      some (.jobj [], rest) := rfl

theorem parseVal_render_jnum (fuel : Nat) (i : Int) (rest : List Char)
    (h : headOK rest = true) :
    parseVal (fuel + 1) (renderG false false (.jnum i) ++ rest) =
      some (.jnum i, rest) := by
  by_cases hi : i < 0
  · have hr : renderG false false (.jnum i) = '-' :: natDigits i.natAbs := by
      simp [renderG, hi]
    rw [hr, List.cons_append]
    have hstep : parseVal (fuel + 1) ('-' :: (natDigits i.natAbs ++ rest)) =
        parseValStep (parseElems fuel) (parseFields fuel)
          ('-' :: (natDigits i.natAbs ++ rest)) := rfl
    rw [hstep, parseValStep_minus, parseNat_render _ _ h]
    have hval : -((i.natAbs : Nat) : Int) = i := by omega
    simp only [hval]
  · have hr : renderG false false (.jnum i) = natDigits i.natAbs := by
      simp [renderG, hi]
    obtain ⟨d, ds, hd⟩ := natDigits_head i.natAbs
    rw [hr, hd, List.cons_append]
    have hstep : parseVal (fuel + 1) (digitChar d :: (ds ++ rest)) =
        parseValStep (parseElems fuel) (parseFields fuel)
          (digitChar d :: (ds ++ rest)) := rfl
    rw [hstep, parseValStep_digitChar]
    have hre : digitChar d :: (ds ++ rest) = (digitChar d :: ds) ++ rest := rfl
    rw [hre, ← hd, parseNat_render _ _ h]
    have hval : ((i.natAbs : Nat) : Int) = i := by omega
    simp only [hval]

theorem parseVal_render_jstr (fuel : Nat) (s : String)
    (hs : s.data.all cleanChar = true) (rest : List Char) :
    parseVal (fuel + 1) (renderG false false (.jstr s) ++ rest) =
      some (.jstr s, rest) := by
  have hr : renderG false false (.jstr s) ++ rest = '"' :: (s.data ++ '"' :: rest) := by
    simp [renderG]
  rw [hr]
  have hstep : parseVal (fuel + 1) ('"' :: (s.data ++ '"' :: rest)) =
      parseValStep (parseElems fuel) (parseFields fuel)
        ('"' :: (s.data ++ '"' :: rest)) := rfl
  rw [hstep, parseValStep_quote, parseStringBody_plain s.data hs [] rest]
  simp

theorem needV_pos (J : JVal) : 1 ≤ needV J := by
  cases J <;> simp [needV]

theorem needL_pos (v : JVal) (vs : List JVal) : 1 ≤ needL (v :: vs) := by
  simp [needL]

theorem needF_pos (f : String × JVal) (fs : Obj) : 1 ≤ needF (f :: fs) := by
  obtain ⟨k, v⟩ := f
  simp [needF]

theorem renderGElems_cons (bo ba : Bool) (v : JVal) (vs : List JVal) :
    renderGElems bo ba (v :: vs) =
      renderG bo ba v ++
        (match vs with
          | [] => []
          | _ :: _ => ',' :: renderGElems bo ba vs) := by
  cases vs with
  | nil => simp [renderGElems]
  | cons v2 vs2 => rfl

theorem renderGFields_cons (bo ba : Bool) (k : String) (v : JVal) (fs : Obj) :
    renderGFields bo ba ((k, v) :: fs) =
      ('"' :: (k.data ++ '"' :: ':' :: renderG bo ba v)) ++
        (match fs with
          | [] => []
          | _ :: _ => ',' :: renderGFields bo ba fs) := by
  cases fs with
  | nil => simp [renderGFields]
  | cons f2 fs2 => rfl

theorem renderGElems_head (bo ba : Bool) (v : JVal) (vs : List JVal) :
    ∃ c cs, renderGElems bo ba (v :: vs) = c :: cs ∧ StartsRender c := by
  obtain ⟨c, cs, hc, hst⟩ := renderG_head bo ba v
  cases vs with
  | nil => exact ⟨c, cs, by simp [renderGElems, hc], hst⟩
  | cons v2 vs2 =>
      exact ⟨c, cs ++ ',' :: renderGElems bo ba (v2 :: vs2),
        by rw [renderGElems_cons, hc]; rfl, hst⟩

theorem renderGFields_head (bo ba : Bool) (k : String) (v : JVal) (fs : Obj) :
    ∃ cs, renderGFields bo ba ((k, v) :: fs) = '"' :: cs := by
  cases fs with
  | nil => exact ⟨k.data ++ '"' :: ':' :: renderG bo ba v, rfl⟩
  | cons f2 fs2 =>
      exact ⟨(k.data ++ '"' :: ':' :: renderG bo ba v) ++
        ',' :: renderGFields bo ba (f2 :: fs2), rfl⟩

theorem parse_render : ∀ n : Nat,
    (∀ J : JVal, needV J ≤ n → cleanV J = true → ∀ fuel rest, needV J ≤ fuel →
      headOK rest = true →
      parseVal fuel (renderG false false J ++ rest) = some (J, rest)) ∧
    (∀ (v : JVal) (vs : List JVal), needL (v :: vs) ≤ n → cleanL (v :: vs) = true →
      ∀ fuel rest, needL (v :: vs) ≤ fuel →
      parseElems fuel (renderGElems false false (v :: vs) ++ ']' :: rest) =
        some (v :: vs, rest)) ∧
    (∀ (k : String) (v : JVal) (fs : Obj), needF ((k, v) :: fs) ≤ n →
      cleanF ((k, v) :: fs) = true → ∀ fuel acc rest, needF ((k, v) :: fs) ≤ fuel →
      (∀ p ∈ (k, v) :: fs, lookupKey acc p.1 = none) →
      parseFields fuel acc
          (renderGFields false false ((k, v) :: fs) ++ '\x7d' :: rest) =
        some (acc ++ (k, v) :: fs, rest)) := by
  intro n
  induction n using Nat.strong_induction_on with
  | _ n ih =>
  refine ⟨?_, ?_, ?_⟩
  · intro J hn hcl fuel rest hfuel hOK
    obtain ⟨fuel', rfl⟩ : ∃ m, fuel = m + 1 :=
      ⟨fuel - 1, by have := needV_pos J; omega⟩
    cases J with
    | jnull => exact parseVal_render_jnull fuel' rest
    | jbool b => exact parseVal_render_jbool fuel' b rest
    | jnum i => exact parseVal_render_jnum fuel' i rest hOK
    | jstr s =>
        have hs : s.data.all cleanChar = true := by simpa [cleanV] using hcl
        exact parseVal_render_jstr fuel' s hs rest
    | jarr vs =>
        cases vs with
        | nil => exact parseVal_render_jarr_nil fuel' rest
        | cons v vs2 =>
            have hcl2 : cleanL (v :: vs2) = true := by simpa [cleanV] using hcl
            have hr : renderG false false (.jarr (v :: vs2)) ++ rest =
                '[' :: (renderGElems false false (v :: vs2) ++ ']' :: rest) := by
              simp [renderG]
            rw [hr]
            have hstep : parseVal (fuel' + 1)
                ('[' :: (renderGElems false false (v :: vs2) ++ ']' :: rest)) =
                parseValStep (parseElems fuel') (parseFields fuel')
                  ('[' :: (renderGElems false false (v :: vs2) ++ ']' :: rest)) := rfl
            rw [hstep, parseValStep_lbrack]
            obtain ⟨c, cs0, hc, hst⟩ := renderGElems_head false false v vs2
            have hsk : skipWs (renderGElems false false (v :: vs2) ++ ']' :: rest) =
                renderGElems false false (v :: vs2) ++ ']' :: rest := by
              rw [hc, List.cons_append]
              exact skipWs_cons_of_not_ws _ (startsRender_props hst).1
            rw [hsk]
            have hlt : needL (v :: vs2) < n := by
              simp only [needV] at hn; omega
            have hE := (ih _ hlt).2.1 v vs2 (le_refl _) hcl2 fuel' rest
              (by simp only [needV] at hfuel; omega)
            split
            · rename_i heq
              rw [hc, List.cons_append] at heq
              injection heq with h1 h2
              exact absurd h1 (startsRender_props hst).2.2.1
            · simp only [hE]
    | jobj fs =>
        cases fs with
        | nil => exact parseVal_render_jobj_nil fuel' rest
        | cons kv fs2 =>
            obtain ⟨k, v⟩ := kv
            have hcl2 : cleanF ((k, v) :: fs2) = true := by simpa [cleanV] using hcl
            have hr : renderG false false (.jobj ((k, v) :: fs2)) ++ rest =
                '\x7b' ::
                  (renderGFields false false ((k, v) :: fs2) ++ '\x7d' :: rest) := by
              simp [renderG]
            rw [hr]
            have hstep : parseVal (fuel' + 1)
                ('\x7b' ::
                  (renderGFields false false ((k, v) :: fs2) ++ '\x7d' :: rest)) =
                parseValStep (parseElems fuel') (parseFields fuel')
                  ('\x7b' ::
                    (renderGFields false false ((k, v) :: fs2) ++ '\x7d' :: rest)) := rfl
            rw [hstep, parseValStep_lbrace]
            obtain ⟨cs0, hc⟩ := renderGFields_head false false k v fs2
            have hsk : skipWs (renderGFields false false ((k, v) :: fs2) ++
                '\x7d' :: rest) =
                renderGFields false false ((k, v) :: fs2) ++ '\x7d' :: rest := by
              rw [hc, List.cons_append]
              exact skipWs_cons_of_not_ws _ (by decide)
            rw [hsk]
            have hlt : needF ((k, v) :: fs2) < n := by
              simp only [needV] at hn; omega
            have hF := (ih _ hlt).2.2 k v fs2 (le_refl _) hcl2 fuel' [] rest
              (by simp only [needV] at hfuel; omega) (by intro p hp; rfl)
            split
            · rename_i heq
              rw [hc, List.cons_append] at heq
              injection heq with h1 h2
              exact absurd h1 (by decide)
            · simp [hF]
  · intro v vs hn hcl fuel rest hfuel
    obtain ⟨fuel', rfl⟩ : ∃ m, fuel = m + 1 :=
      ⟨fuel - 1, by have := needL_pos v vs; omega⟩
    simp only [cleanL, Bool.and_eq_true] at hcl
    obtain ⟨hclv, hclvs⟩ := hcl
    cases vs with
    | nil =>
        have hE : renderGElems false false [v] = renderG false false v := by
          simp [renderGElems]
        rw [hE]
        have hlt : needV v < n := by
          simp only [needL] at hn; omega
        have h1 := (ih _ hlt).1 v (le_refl _) hclv fuel' (']' :: rest)
          (by simp only [needL] at hfuel; omega) (by simp [headOK])
        have hgoal : parseElems (fuel' + 1) (renderG false false v ++ ']' :: rest) =
            parseElemsStep (parseVal fuel') (parseElems fuel')
              (renderG false false v ++ ']' :: rest) := rfl
        rw [hgoal]
        have hsk : skipWs (']' :: rest) = ']' :: rest :=
          skipWs_cons_of_not_ws rest (by decide)
        simp only [parseElemsStep, h1, hsk]
    | cons v2 vs3 =>
        have hcons : renderGElems false false (v :: v2 :: vs3) =
            renderG false false v ++ ',' :: renderGElems false false (v2 :: vs3) := rfl
        rw [hcons, List.append_assoc, List.cons_append]
        have hlt1 : needV v < n := by
          simp only [needL] at hn
          have := needL_pos v2 vs3
          omega
        have h1 := (ih _ hlt1).1 v (le_refl _) hclv fuel'
          (',' :: (renderGElems false false (v2 :: vs3) ++ ']' :: rest))
          (by simp only [needL] at hfuel; omega) (by simp [headOK])
        have hgoal : parseElems (fuel' + 1) (renderG false false v ++
            ',' :: (renderGElems false false (v2 :: vs3) ++ ']' :: rest)) =
            parseElemsStep (parseVal fuel') (parseElems fuel')
              (renderG false false v ++
                ',' :: (renderGElems false false (v2 :: vs3) ++ ']' :: rest)) := rfl
        rw [hgoal]
        have hsk1 : skipWs (',' ::
            (renderGElems false false (v2 :: vs3) ++ ']' :: rest)) =
            ',' :: (renderGElems false false (v2 :: vs3) ++ ']' :: rest) :=
          skipWs_cons_of_not_ws _ (by decide)
        obtain ⟨c, cs0, hc, hst⟩ := renderGElems_head false false v2 vs3
        have hsk2 : skipWs (renderGElems false false (v2 :: vs3) ++ ']' :: rest) =
            renderGElems false false (v2 :: vs3) ++ ']' :: rest := by
          rw [hc, List.cons_append]
          exact skipWs_cons_of_not_ws _ (startsRender_props hst).1
        have hlt2 : needL (v2 :: vs3) < n := by
          simp only [needL] at hn ⊢
          have := needV_pos v
          omega
        have h2 := (ih _ hlt2).2.1 v2 vs3 (le_refl _) hclvs fuel' rest
          (by simp only [needL] at hfuel ⊢; omega)
        simp only [parseElemsStep, h1, hsk1, hsk2, h2]
  · intro k v fs hn hcl fuel acc rest hfuel hdisj
    obtain ⟨fuel', rfl⟩ : ∃ m, fuel = m + 1 :=
      ⟨fuel - 1, by have := needF_pos (k, v) fs; omega⟩
    simp only [cleanF, Bool.and_eq_true] at hcl
    obtain ⟨⟨⟨hk, hclv⟩, hlkn⟩, hclfs⟩ := hcl
    have hlk : lookupKey fs k = none := Option.isNone_iff_eq_none.mp hlkn
    have hacck : lookupKey acc k = none := hdisj (k, v) (List.mem_cons_self _ _)
    have hketa : ({ data := k.data } : String) = k := rfl
    cases fs with
    | nil =>
        have hflds : renderGFields false false [(k, v)] ++ '\x7d' :: rest =
            '"' :: (k.data ++ '"' :: (':' ::
              (renderG false false v ++ '\x7d' :: rest))) := by
          simp [renderGFields]
        rw [hflds]
        have hgoal : parseFields (fuel' + 1) acc
            ('"' :: (k.data ++ '"' :: (':' ::
              (renderG false false v ++ '\x7d' :: rest)))) =
            parseFieldsStep (parseVal fuel') (parseFields fuel') acc
              ('"' :: (k.data ++ '"' :: (':' ::
                (renderG false false v ++ '\x7d' :: rest)))) := rfl
        rw [hgoal]
        have hsb := parseStringBody_plain k.data hk []
          (':' :: (renderG false false v ++ '\x7d' :: rest))
        have hsk1 : skipWs (':' :: (renderG false false v ++ '\x7d' :: rest)) =
            ':' :: (renderG false false v ++ '\x7d' :: rest) :=
          skipWs_cons_of_not_ws _ (by decide)
        obtain ⟨c, cs0, hc, hst⟩ := renderG_head false false v
        have hsk2 : skipWs (renderG false false v ++ '\x7d' :: rest) =
            renderG false false v ++ '\x7d' :: rest := by
          rw [hc, List.cons_append]
          exact skipWs_cons_of_not_ws _ (startsRender_props hst).1
        have hlt : needV v < n := by
          simp only [needF] at hn; omega
        have h1 := (ih _ hlt).1 v (le_refl _) hclv fuel' ('\x7d' :: rest)
          (by simp only [needF] at hfuel; omega) (by simp [headOK])
        have hsk3 : skipWs ('\x7d' :: rest) = '\x7d' :: rest :=
          skipWs_cons_of_not_ws _ (by decide)
        have hset : setKey acc k v = acc ++ [(k, v)] :=
          setKey_append_of_none v hacck
        simp only [parseFieldsStep, hsb, List.reverse_nil, List.nil_append,
          hsk1, hsk2, h1, hsk3, hketa, hset]
    | cons kv2 fs3 =>
        have hflds : renderGFields false false ((k, v) :: kv2 :: fs3) ++
            '\x7d' :: rest =
            '"' :: (k.data ++ '"' :: (':' :: (renderG false false v ++
              ',' :: (renderGFields false false (kv2 :: fs3) ++
                '\x7d' :: rest)))) := by
          obtain ⟨k2, v2⟩ := kv2
          simp [renderGFields]
        rw [hflds]
        have hgoal : parseFields (fuel' + 1) acc
            ('"' :: (k.data ++ '"' :: (':' :: (renderG false false v ++
              ',' :: (renderGFields false false (kv2 :: fs3) ++
                '\x7d' :: rest))))) =
            parseFieldsStep (parseVal fuel') (parseFields fuel') acc
              ('"' :: (k.data ++ '"' :: (':' :: (renderG false false v ++
                ',' :: (renderGFields false false (kv2 :: fs3) ++
                  '\x7d' :: rest))))) := rfl
        rw [hgoal]
        have hsb := parseStringBody_plain k.data hk []
          (':' :: (renderG false false v ++
            ',' :: (renderGFields false false (kv2 :: fs3) ++ '\x7d' :: rest)))
        have hsk1 : skipWs (':' :: (renderG false false v ++
            ',' :: (renderGFields false false (kv2 :: fs3) ++ '\x7d' :: rest))) =
            ':' :: (renderG false false v ++
              ',' :: (renderGFields false false (kv2 :: fs3) ++ '\x7d' :: rest)) :=
          skipWs_cons_of_not_ws _ (by decide)
        obtain ⟨c, cs0, hc, hst⟩ := renderG_head false false v
        have hsk2 : skipWs (renderG false false v ++
            ',' :: (renderGFields false false (kv2 :: fs3) ++ '\x7d' :: rest)) =
            renderG false false v ++
              ',' :: (renderGFields false false (kv2 :: fs3) ++ '\x7d' :: rest) := by
          rw [hc, List.cons_append]
          exact skipWs_cons_of_not_ws _ (startsRender_props hst).1
        have hlt : needV v < n := by
          obtain ⟨k2, v2⟩ := kv2
          simp only [needF] at hn
          have := needV_pos v2
          omega
        have h1 := (ih _ hlt).1 v (le_refl _) hclv fuel'
          (',' :: (renderGFields false false (kv2 :: fs3) ++ '\x7d' :: rest))
          (by obtain ⟨k2, v2⟩ := kv2; simp only [needF] at hfuel; omega)
          (by simp [headOK])
        have hsk3 : skipWs (',' ::
            (renderGFields false false (kv2 :: fs3) ++ '\x7d' :: rest)) =
            ',' :: (renderGFields false false (kv2 :: fs3) ++ '\x7d' :: rest) :=
          skipWs_cons_of_not_ws _ (by decide)
        obtain ⟨k2, v2⟩ := kv2
        obtain ⟨cs1, hc2⟩ := renderGFields_head false false k2 v2 fs3
        have hsk4 : skipWs (renderGFields false false ((k2, v2) :: fs3) ++
            '\x7d' :: rest) =
            renderGFields false false ((k2, v2) :: fs3) ++ '\x7d' :: rest := by
          rw [hc2, List.cons_append]
          exact skipWs_cons_of_not_ws _ (by decide)
        have hset : setKey acc k v = acc ++ [(k, v)] :=
          setKey_append_of_none v hacck
        have hlt2 : needF ((k2, v2) :: fs3) < n := by
          simp only [needF] at hn ⊢
          have := needV_pos v
          omega
        have hdisj2 : ∀ p ∈ (k2, v2) :: fs3, lookupKey (acc ++ [(k, v)]) p.1 = none := by
          intro p hp
          have hpa : lookupKey acc p.1 = none := hdisj p (List.mem_cons_of_mem _ hp)
          have hpk : p.1 ≠ k := lookupKey_none_forall hlk p hp
          rw [lookupKey_append_of_none _ hpa]
          have hkp : k ≠ p.1 := fun he => hpk he.symm
          simp [lookupKey, hkp]
        have h2 := (ih _ hlt2).2.2 k2 v2 fs3 (le_refl _) hclfs fuel'
          (acc ++ [(k, v)]) rest
          (by simp only [needF] at hfuel ⊢; omega) hdisj2
        simp only [parseFieldsStep, hsb, List.reverse_nil, List.nil_append,
          hsk1, hsk2, h1, hsk3, hketa, hset, hsk4, h2, List.append_assoc,
          List.singleton_append]

theorem parse_render_unique {J : JVal} (hcl : cleanV J = true) {rest : List Char}
    (hOK : headOK rest = true) {fuel : Nat} {r : JVal × List Char}
    (h : parseVal fuel (renderG false false J ++ rest) = some r) : r = (J, rest) := by
  have hm := (parse_mono_le (Nat.le_max_left fuel (needV J))).1 _ _ h
  have ha := (parse_render (needV J)).1 J (le_refl _) hcl (max fuel (needV J))
    rest (Nat.le_max_right _ _) hOK
  rw [hm] at ha
  injection ha

theorem natDigits_length_pos (n : Nat) : 1 ≤ (natDigits n).length := by
  have := natDigitsAux_ne_nil n n
  cases hnn : natDigits n with
  | nil => exact absurd hnn this
  | cons a b => simp

theorem need_le_render : ∀ n : Nat,
    (∀ J : JVal, needV J ≤ n → needV J ≤ (renderG false false J).length) ∧
    (∀ (v : JVal) (vs : List JVal), needL (v :: vs) ≤ n →
      needL (v :: vs) ≤ (renderGElems false false (v :: vs)).length + 1) ∧
    (∀ (k : String) (v : JVal) (fs : Obj), needF ((k, v) :: fs) ≤ n →
      needF ((k, v) :: fs) ≤ (renderGFields false false ((k, v) :: fs)).length + 1) := by
  intro n
  induction n using Nat.strong_induction_on with
  | _ n ih =>
  refine ⟨?_, ?_, ?_⟩
  · intro J hn
    cases J with
    | jnull => simp [needV, renderG]
    | jbool b => cases b <;> simp [needV, renderG]
    | jnum i =>
        have := natDigits_length_pos i.natAbs
        by_cases hi : i < 0 <;> simp [needV, renderG, hi] <;> omega
    | jstr s => simp [needV, renderG]
    | jarr vs =>
        cases vs with
        | nil => simp [needV, needL, renderG]
        | cons v vs2 =>
            have hlt : needL (v :: vs2) < n := by simp only [needV] at hn; omega
            have hE := (ih _ hlt).2.1 v vs2 (le_refl _)
            simp only [needV, renderG, List.length_cons, List.length_append,
              if_neg (Bool.false_ne_true), List.length_nil]
            simp only [needL] at hE ⊢
            simp
            omega
    | jobj fs =>
        cases fs with
        | nil => simp [needV, needF, renderG]
        | cons kv fs2 =>
            obtain ⟨k, v⟩ := kv
            have hlt : needF ((k, v) :: fs2) < n := by simp only [needV] at hn; omega
            have hF := (ih _ hlt).2.2 k v fs2 (le_refl _)
            simp only [needV, renderG, List.length_cons, List.length_append,
              if_neg (Bool.false_ne_true), List.length_nil]
            simp only [needF] at hF ⊢
            simp
            omega
  · intro v vs hn
    cases vs with
    | nil =>
        have hlt : needV v < n := by simp only [needL] at hn; omega
        have hV := (ih _ hlt).1 v (le_refl _)
        have hE : renderGElems false false [v] = renderG false false v := by
          simp [renderGElems]
        simp only [needL, hE]
        omega
    | cons v2 vs3 =>
        have hlt1 : needV v < n := by
          simp only [needL] at hn
          have := needL_pos v2 vs3
          omega
        have hlt2 : needL (v2 :: vs3) < n := by
          simp only [needL] at hn ⊢
          have := needV_pos v
          omega
        have hV := (ih _ hlt1).1 v (le_refl _)
        have hE := (ih _ hlt2).2.1 v2 vs3 (le_refl _)
        have hcons : renderGElems false false (v :: v2 :: vs3) =
            renderG false false v ++ ',' :: renderGElems false false (v2 :: vs3) := rfl
        rw [hcons]
        simp only [needL] at hE ⊢
        simp
        omega
  · intro k v fs hn
    cases fs with
    | nil =>
        have hlt : needV v < n := by simp only [needF] at hn; omega
        have hV := (ih _ hlt).1 v (le_refl _)
        have hf : renderGFields false false [(k, v)] =
            '"' :: (k.data ++ '"' :: ':' :: renderG false false v) := rfl
        rw [hf]
        simp only [needF]
        simp
        omega
    | cons kv2 fs3 =>
        obtain ⟨k2, v2⟩ := kv2
        have hlt1 : needV v < n := by
          simp only [needF] at hn
          have := needV_pos v2
          omega
        have hlt2 : needF ((k2, v2) :: fs3) < n := by
          simp only [needF] at hn ⊢
          have := needV_pos v
          omega
        have hV := (ih _ hlt1).1 v (le_refl _)
        have hF := (ih _ hlt2).2.2 k2 v2 fs3 (le_refl _)
        have hcons : renderGFields false false ((k, v) :: (k2, v2) :: fs3) =
            ('"' :: (k.data ++ '"' :: ':' :: renderG false false v)) ++
              ',' :: renderGFields false false ((k2, v2) :: fs3) := rfl
        rw [hcons]
        simp only [needF] at hF ⊢
        simp
        omega

theorem json_loads_render {J : JVal} (hcl : cleanV J = true) :
    json_loads_list (renderG false false J) = some J := by
  unfold json_loads_list
  obtain ⟨c, cs, hc, hst⟩ := renderG_head false false J
  have hsk : skipWs (renderG false false J) = renderG false false J := by
    rw [hc]
    exact skipWs_cons_of_not_ws _ (startsRender_props hst).1
  rw [hsk]
  have hlen : needV J ≤ (renderG false false J).length + 1 := by
    have := (need_le_render (needV J)).1 J (le_refl _)
    omega
  have ha := (parse_render (needV J)).1 J (le_refl _) hcl
    ((renderG false false J).length + 1) [] hlen (by simp [headOK])
  rw [List.append_nil] at ha
  rw [ha]
  simp [skipWs]

theorem parseVal_rbrack_none (fuel : Nat) (rest : List Char) :
    parseVal fuel (']' :: rest) = none := by
  cases fuel with
  | zero => rfl
  | succ n => exact parseValStep_rbrack (parseElems n) (parseFields n) rest

theorem parseElems_rbrack_none (fuel : Nat) (rest : List Char) :
    parseElems fuel (']' :: rest) = none := by
  cases fuel with
  | zero => rfl
  | succ n =>
      have hstep : parseElems (n + 1) (']' :: rest) =
          parseElemsStep (parseVal n) (parseElems n) (']' :: rest) := rfl
      rw [hstep]
      unfold parseElemsStep
      dsimp only
      rw [parseVal_rbrack_none]

theorem parseFields_rbrace_none (fuel : Nat) (acc : Obj) (rest : List Char) :
    parseFields fuel acc ('\x7d' :: rest) = none := by
  cases fuel with
  | zero => rfl
  | succ n => rfl

theorem parse_renderTT : ∀ n : Nat,
    (∀ J : JVal, needV J ≤ n → cleanV J = true → noCollV J = false →
      ∀ fuel rest, parseVal fuel (renderG true true J ++ rest) = none) ∧
    (∀ (v : JVal) (vs : List JVal), needL (v :: vs) ≤ n → cleanL (v :: vs) = true →
      ∀ fuel rest, parseElems fuel
        (renderGElems true true (v :: vs) ++ ',' :: ']' :: rest) = none) ∧
    (∀ (k : String) (v : JVal) (fs : Obj), needF ((k, v) :: fs) ≤ n →
      cleanF ((k, v) :: fs) = true → ∀ fuel acc rest,
      parseFields fuel acc
        (renderGFields true true ((k, v) :: fs) ++ ',' :: '\x7d' :: rest) = none) := by
  intro n
  induction n using Nat.strong_induction_on with
  | _ n ih =>
  refine ⟨?_, ?_, ?_⟩
  · intro J hn hcl hnc fuel rest
    cases fuel with
    | zero => rfl
    | succ fuel' =>
    cases J with
    | jnull => simp [noCollV] at hnc
    | jbool b => simp [noCollV] at hnc
    | jnum i => simp [noCollV] at hnc
    | jstr s => simp [noCollV] at hnc
    | jarr vs =>
        cases vs with
        | nil => simp [noCollV] at hnc
        | cons v vs2 =>
            have hcl2 : cleanL (v :: vs2) = true := by simpa [cleanV] using hcl
            have hr : renderG true true (.jarr (v :: vs2)) ++ rest =
                '[' :: (renderGElems true true (v :: vs2) ++ ',' :: ']' :: rest) := by
              simp [renderG]
            rw [hr]
            have hstep : parseVal (fuel' + 1)
                ('[' :: (renderGElems true true (v :: vs2) ++ ',' :: ']' :: rest)) =
                parseValStep (parseElems fuel') (parseFields fuel')
                  ('[' :: (renderGElems true true (v :: vs2) ++
                    ',' :: ']' :: rest)) := rfl
            rw [hstep, parseValStep_lbrack]
            obtain ⟨c, cs0, hc, hst⟩ := renderGElems_head true true v vs2
            have hsk : skipWs (renderGElems true true (v :: vs2) ++
                ',' :: ']' :: rest) =
                renderGElems true true (v :: vs2) ++ ',' :: ']' :: rest := by
              rw [hc, List.cons_append]
              exact skipWs_cons_of_not_ws _ (startsRender_props hst).1
            rw [hsk]
            have hlt : needL (v :: vs2) < n := by
              simp only [needV] at hn; omega
            have hE := (ih _ hlt).2.1 v vs2 (le_refl _) hcl2 fuel' rest
            split
            · rename_i heq
              rw [hc, List.cons_append] at heq
              injection heq with h1 h2
              exact absurd h1 (startsRender_props hst).2.2.1
            · simp only [hE]
    | jobj fs =>
        cases fs with
        | nil => simp [noCollV] at hnc
        | cons kv fs2 =>
            obtain ⟨k, v⟩ := kv
            have hcl2 : cleanF ((k, v) :: fs2) = true := by simpa [cleanV] using hcl
            have hr : renderG true true (.jobj ((k, v) :: fs2)) ++ rest =
                '\x7b' :: (renderGFields true true ((k, v) :: fs2) ++
                  ',' :: '\x7d' :: rest) := by
              simp [renderG]
            rw [hr]
            have hstep : parseVal (fuel' + 1)
                ('\x7b' :: (renderGFields true true ((k, v) :: fs2) ++
                  ',' :: '\x7d' :: rest)) =
                parseValStep (parseElems fuel') (parseFields fuel')
                  ('\x7b' :: (renderGFields true true ((k, v) :: fs2) ++
                    ',' :: '\x7d' :: rest)) := rfl
            rw [hstep, parseValStep_lbrace]
            obtain ⟨cs0, hc⟩ := renderGFields_head true true k v fs2
            have hsk : skipWs (renderGFields true true ((k, v) :: fs2) ++
                ',' :: '\x7d' :: rest) =
                renderGFields true true ((k, v) :: fs2) ++ ',' :: '\x7d' :: rest := by
              rw [hc, List.cons_append]
              exact skipWs_cons_of_not_ws _ (by decide)
            rw [hsk]
            have hlt : needF ((k, v) :: fs2) < n := by
              simp only [needV] at hn; omega
            have hF := (ih _ hlt).2.2 k v fs2 (le_refl _) hcl2 fuel' [] rest
            split
            · rename_i heq
              rw [hc, List.cons_append] at heq
              injection heq with h1 h2
              exact absurd h1 (by decide)
            · simp only [hF]
  · intro v vs hn hcl fuel rest
    cases fuel with
    | zero => rfl
    | succ fuel' =>
    simp only [cleanL, Bool.and_eq_true] at hcl
    obtain ⟨hclv, hclvs⟩ := hcl
    cases vs with
    | nil =>
        have hE : renderGElems true true [v] = renderG true true v := by
          simp [renderGElems]
        rw [hE]
        have hgoal : parseElems (fuel' + 1)
            (renderG true true v ++ ',' :: ']' :: rest) =
            parseElemsStep (parseVal fuel') (parseElems fuel')
              (renderG true true v ++ ',' :: ']' :: rest) := rfl
        rw [hgoal]
        cases hnc : noCollV v with
        | false =>
            have hlt : needV v < n := by simp only [needL] at hn; omega
            have h1 := (ih _ hlt).1 v (le_refl _) hclv hnc fuel'
              (',' :: ']' :: rest)
            simp only [parseElemsStep, h1]
        | true =>
            rw [noColl_renderG true true hnc]
            cases hpv : parseVal fuel' (renderG false false v ++
                ',' :: ']' :: rest) with
            | none => simp only [parseElemsStep, hpv]
            | some r =>
                have hr := parse_render_unique hclv (by simp [headOK]) hpv
                subst hr
                have hsk1 : skipWs (',' :: ']' :: rest) = ',' :: ']' :: rest :=
                  skipWs_cons_of_not_ws _ (by decide)
                have hsk2 : skipWs (']' :: rest) = ']' :: rest :=
                  skipWs_cons_of_not_ws _ (by decide)
                simp only [parseElemsStep, hpv, hsk1, hsk2,
                  parseElems_rbrack_none]
    | cons v2 vs3 =>
        have hcons : renderGElems true true (v :: v2 :: vs3) =
            renderG true true v ++ ',' :: renderGElems true true (v2 :: vs3) := rfl
        rw [hcons, List.append_assoc, List.cons_append]
        have hgoal : parseElems (fuel' + 1) (renderG true true v ++
            ',' :: (renderGElems true true (v2 :: vs3) ++ ',' :: ']' :: rest)) =
            parseElemsStep (parseVal fuel') (parseElems fuel')
              (renderG true true v ++
                ',' :: (renderGElems true true (v2 :: vs3) ++
                  ',' :: ']' :: rest)) := rfl
        rw [hgoal]
        cases hnc : noCollV v with
        | false =>
            have hlt : needV v < n := by
              simp only [needL] at hn
              have := needL_pos v2 vs3
              omega
            have h1 := (ih _ hlt).1 v (le_refl _) hclv hnc fuel'
              (',' :: (renderGElems true true (v2 :: vs3) ++ ',' :: ']' :: rest))
            simp only [parseElemsStep, h1]
        | true =>
            rw [noColl_renderG true true hnc]
            cases hpv : parseVal fuel' (renderG false false v ++
                ',' :: (renderGElems true true (v2 :: vs3) ++
                  ',' :: ']' :: rest)) with
            | none => simp only [parseElemsStep, hpv]
            | some r =>
                have hr := parse_render_unique hclv (by simp [headOK]) hpv
                subst hr
                have hsk1 : skipWs (',' :: (renderGElems true true (v2 :: vs3) ++
                    ',' :: ']' :: rest)) =
                    ',' :: (renderGElems true true (v2 :: vs3) ++
                      ',' :: ']' :: rest) :=
                  skipWs_cons_of_not_ws _ (by decide)
                obtain ⟨c, cs0, hc, hst⟩ := renderGElems_head true true v2 vs3
                have hsk2 : skipWs (renderGElems true true (v2 :: vs3) ++
                    ',' :: ']' :: rest) =
                    renderGElems true true (v2 :: vs3) ++ ',' :: ']' :: rest := by
                  rw [hc, List.cons_append]
                  exact skipWs_cons_of_not_ws _ (startsRender_props hst).1
                have hlt2 : needL (v2 :: vs3) < n := by
                  simp only [needL] at hn ⊢
                  have := needV_pos v
                  omega
                have h2 := (ih _ hlt2).2.1 v2 vs3 (le_refl _) hclvs fuel' rest
                simp only [parseElemsStep, hpv, hsk1, hsk2, h2]
  · intro k v fs hn hcl fuel acc rest
    cases fuel with
    | zero => rfl
    | succ fuel' =>
    simp only [cleanF, Bool.and_eq_true] at hcl
    obtain ⟨⟨⟨hk, hclv⟩, hlkn⟩, hclfs⟩ := hcl
    have hketa : ({ data := k.data } : String) = k := rfl
    cases fs with
    | nil =>
        have hflds : renderGFields true true [(k, v)] ++ ',' :: '\x7d' :: rest =
            '"' :: (k.data ++ '"' :: (':' ::
              (renderG true true v ++ ',' :: '\x7d' :: rest))) := by
          simp [renderGFields]
        rw [hflds]
        have hgoal : parseFields (fuel' + 1) acc
            ('"' :: (k.data ++ '"' :: (':' ::
              (renderG true true v ++ ',' :: '\x7d' :: rest)))) =
            parseFieldsStep (parseVal fuel') (parseFields fuel') acc
              ('"' :: (k.data ++ '"' :: (':' ::
                (renderG true true v ++ ',' :: '\x7d' :: rest)))) := rfl
        rw [hgoal]
        have hsb := parseStringBody_plain k.data hk []
          (':' :: (renderG true true v ++ ',' :: '\x7d' :: rest))
        have hsk1 : skipWs (':' :: (renderG true true v ++
            ',' :: '\x7d' :: rest)) =
            ':' :: (renderG true true v ++ ',' :: '\x7d' :: rest) :=
          skipWs_cons_of_not_ws _ (by decide)
        obtain ⟨c, cs0, hc, hst⟩ := renderG_head true true v
        have hsk2 : skipWs (renderG true true v ++ ',' :: '\x7d' :: rest) =
            renderG true true v ++ ',' :: '\x7d' :: rest := by
          rw [hc, List.cons_append]
          exact skipWs_cons_of_not_ws _ (startsRender_props hst).1
        cases hnc : noCollV v with
        | false =>
            have hlt : needV v < n := by simp only [needF] at hn; omega
            have h1 := (ih _ hlt).1 v (le_refl _) hclv hnc fuel'
              (',' :: '\x7d' :: rest)
            simp only [parseFieldsStep, hsb, List.reverse_nil, List.nil_append,
              hsk1, hsk2, h1]
        | true =>
            rw [noColl_renderG true true hnc] at hsb hsk1 hsk2 ⊢
            cases hpv : parseVal fuel' (renderG false false v ++
                ',' :: '\x7d' :: rest) with
            | none =>
                simp only [parseFieldsStep, hsb, List.reverse_nil,
                  List.nil_append, hsk1, hsk2, hpv]
            | some r =>
                have hr := parse_render_unique hclv (by simp [headOK]) hpv
                subst hr
                have hsk3 : skipWs (',' :: '\x7d' :: rest) =
                    ',' :: '\x7d' :: rest :=
                  skipWs_cons_of_not_ws _ (by decide)
                have hsk4 : skipWs ('\x7d' :: rest) = '\x7d' :: rest :=
                  skipWs_cons_of_not_ws _ (by decide)
                simp only [parseFieldsStep, hsb, List.reverse_nil,
                  List.nil_append, hsk1, hsk2, hpv, hsk3, hsk4,
                  parseFields_rbrace_none]
    | cons kv2 fs3 =>
        obtain ⟨k2, v2⟩ := kv2
        have hflds : renderGFields true true ((k, v) :: (k2, v2) :: fs3) ++
            ',' :: '\x7d' :: rest =
            '"' :: (k.data ++ '"' :: (':' :: (renderG true true v ++
              ',' :: (renderGFields true true ((k2, v2) :: fs3) ++
                ',' :: '\x7d' :: rest)))) := by
          simp [renderGFields]
        rw [hflds]
        have hgoal : parseFields (fuel' + 1) acc
            ('"' :: (k.data ++ '"' :: (':' :: (renderG true true v ++
              ',' :: (renderGFields true true ((k2, v2) :: fs3) ++
                ',' :: '\x7d' :: rest))))) =
            parseFieldsStep (parseVal fuel') (parseFields fuel') acc
              ('"' :: (k.data ++ '"' :: (':' :: (renderG true true v ++
                ',' :: (renderGFields true true ((k2, v2) :: fs3) ++
                  ',' :: '\x7d' :: rest))))) := rfl
        rw [hgoal]
        have hsb := parseStringBody_plain k.data hk []
          (':' :: (renderG true true v ++
            ',' :: (renderGFields true true ((k2, v2) :: fs3) ++
              ',' :: '\x7d' :: rest)))
        have hsk1 : skipWs (':' :: (renderG true true v ++
            ',' :: (renderGFields true true ((k2, v2) :: fs3) ++
              ',' :: '\x7d' :: rest))) =
            ':' :: (renderG true true v ++
              ',' :: (renderGFields true true ((k2, v2) :: fs3) ++
                ',' :: '\x7d' :: rest)) :=
          skipWs_cons_of_not_ws _ (by decide)
        obtain ⟨c, cs0, hc, hst⟩ := renderG_head true true v
        have hsk2 : skipWs (renderG true true v ++
            ',' :: (renderGFields true true ((k2, v2) :: fs3) ++
              ',' :: '\x7d' :: rest)) =
            renderG true true v ++
              ',' :: (renderGFields true true ((k2, v2) :: fs3) ++
                ',' :: '\x7d' :: rest) := by
          rw [hc, List.cons_append]
          exact skipWs_cons_of_not_ws _ (startsRender_props hst).1
        cases hnc : noCollV v with
        | false =>
            have hlt : needV v < n := by
              simp only [needF] at hn
              have := needV_pos v2
              omega
            have h1 := (ih _ hlt).1 v (le_refl _) hclv hnc fuel'
              (',' :: (renderGFields true true ((k2, v2) :: fs3) ++
                ',' :: '\x7d' :: rest))
            simp only [parseFieldsStep, hsb, List.reverse_nil, List.nil_append,
              hsk1, hsk2, h1]
        | true =>
            rw [noColl_renderG true true hnc] at hsb hsk1 hsk2 ⊢
            cases hpv : parseVal fuel' (renderG false false v ++
                ',' :: (renderGFields true true ((k2, v2) :: fs3) ++
                  ',' :: '\x7d' :: rest)) with
            | none =>
                simp only [parseFieldsStep, hsb, List.reverse_nil,
                  List.nil_append, hsk1, hsk2, hpv]
            | some r =>
                have hr := parse_render_unique hclv (by simp [headOK]) hpv
                subst hr
                have hsk3 : skipWs (',' ::
                    (renderGFields true true ((k2, v2) :: fs3) ++
                      ',' :: '\x7d' :: rest)) =
                    ',' :: (renderGFields true true ((k2, v2) :: fs3) ++
                      ',' :: '\x7d' :: rest) :=
                  skipWs_cons_of_not_ws _ (by decide)
                obtain ⟨cs1, hc2⟩ := renderGFields_head true true k2 v2 fs3
                have hsk4 : skipWs (renderGFields true true ((k2, v2) :: fs3) ++
                    ',' :: '\x7d' :: rest) =
                    renderGFields true true ((k2, v2) :: fs3) ++
                      ',' :: '\x7d' :: rest := by
                  rw [hc2, List.cons_append]
                  exact skipWs_cons_of_not_ws _ (by decide)
                have hlt2 : needF ((k2, v2) :: fs3) < n := by
                  simp only [needF] at hn ⊢
                  have := needV_pos v
                  omega
                have h2 := (ih _ hlt2).2.2 k2 v2 fs3 (le_refl _) hclfs fuel'
                  (setKey acc k v) rest
                simp only [parseFieldsStep, hsb, List.reverse_nil,
                  List.nil_append, hsk1, hsk2, hpv, hsk3, hsk4, hketa, h2]

theorem subCommaClose_nil (close : Char) : subCommaClose close [] = [] := by
  simp [subCommaClose]

theorem subCommaClose_cons_ne (close : Char) {c : Char} (cs : List Char)
    (h : c ≠ ',') : subCommaClose close (c :: cs) = c :: subCommaClose close cs := by
  rw [subCommaClose.eq_def]
  split
  · rename_i heq
    simp at heq
  · rename_i heq
    injection heq with h1 h2
    exact absurd h1 h
  · rename_i heq
    injection heq with h1 h2
    subst h1
    subst h2
    rfl

theorem subCommaClose_comma_close (close : Char) (cs2 : List Char)
    (h : isPySpace close = false) :
    subCommaClose close (',' :: close :: cs2) = close :: subCommaClose close cs2 := by
  rw [subCommaClose.eq_def]
  have hd : (close :: cs2).dropWhile isPySpace = close :: cs2 := by
    simp [List.dropWhile_cons, h]
  split
  · rename_i heq
    simp at heq
  · rename_i cs heq
    injection heq with h1 h2
    subst h2
    split
    · rename_i c cs3 heq2
      rw [hd] at heq2
      injection heq2 with h3 h4
      subst h3
      subst h4
      simp
    · rename_i heq2
      rw [hd] at heq2
      simp at heq2
  · rename_i hneq heq
    injection heq with h1 h2
    exact absurd h1.symm hneq

theorem subCommaClose_comma_ne (close : Char) {z : Char} (zs : List Char)
    (hz : z ≠ close) (hs : isPySpace z = false) :
    subCommaClose close (',' :: z :: zs) = ',' :: subCommaClose close (z :: zs) := by
  rw [subCommaClose.eq_def]
  have hd : (z :: zs).dropWhile isPySpace = z :: zs := by
    simp [List.dropWhile_cons, hs]
  split
  · rename_i heq
    simp at heq
  · rename_i cs heq
    injection heq with h1 h2
    subst h2
    split
    · rename_i c cs3 heq2
      rw [hd] at heq2
      injection heq2 with h3 h4
      subst h3
      subst h4
      simp [hz]
    · rename_i heq2
      rw [hd] at heq2
      try simp at heq2
  · rename_i hneq heq
    injection heq with h1 h2
    exact absurd h1.symm hneq

theorem subCommaClose_id (close : Char) :
    ∀ cs : List Char, ',' ∉ cs → subCommaClose close cs = cs := by
  intro cs
  induction cs with
  | nil => intro _; exact subCommaClose_nil close
  | cons c cs ih =>
      intro h
      have hc : c ≠ ',' := fun he => h (he ▸ List.mem_cons_self _ _)
      rw [subCommaClose_cons_ne close cs hc, ih (fun hm => h (List.mem_cons_of_mem _ hm))]

theorem getLast?_append_some {ys : List Char} {c : Char}
    (h : ys.getLast? = some c) (xs : List Char) :
    (xs ++ ys).getLast? = some c := by
  induction xs with
  | nil => simpa
  | cons x xs ih =>
      rw [List.cons_append]
      cases hxy : xs ++ ys with
      | nil =>
          have hy : ys = [] := by
            cases hys : ys with
            | nil => rfl
            | cons a b =>
                rw [hys] at hxy
                simp at hxy
          rw [hy] at h
          simp at h
      | cons a b =>
          rw [List.getLast?_cons_cons]
          rw [← hxy, ih]

theorem subCommaClose_append (close : Char) :
    ∀ n : Nat, ∀ xs ys : List Char, xs.length ≤ n →
      (∀ c ∈ xs, isPySpace c = false) → xs.getLast? ≠ some ',' →
      subCommaClose close (xs ++ ys) =
        subCommaClose close xs ++ subCommaClose close ys := by
  intro n
  induction n using Nat.strong_induction_on with
  | _ n ih =>
  intro xs ys hlen hns hlast
  cases xs with
  | nil => simp [subCommaClose_nil]
  | cons x xs2 =>
      rw [List.length_cons] at hlen
      by_cases hx : x = ','
      · subst hx
        cases xs2 with
        | nil => simp at hlast
        | cons z zs =>
            rw [List.length_cons] at hlen
            have hzs : isPySpace z = false := hns z (by simp)
            by_cases hz : z = close
            · subst hz
              rw [List.cons_append, List.cons_append,
                subCommaClose_comma_close z (zs ++ ys) hzs,
                subCommaClose_comma_close z zs hzs]
              have hrec := ih (n - 1) (by omega) zs ys (by omega)
                (fun c hc => hns c (by simp [hc]))
                (by
                  intro hl
                  apply hlast
                  rw [List.getLast?_cons_cons]
                  cases zs with
                  | nil => simp at hl
                  | cons a b => rw [List.getLast?_cons_cons, hl])
              rw [hrec, List.cons_append]
            · rw [List.cons_append, List.cons_append,
                subCommaClose_comma_ne close (zs ++ ys) hz hzs,
                subCommaClose_comma_ne close zs hz hzs]
              have hrec := ih (n - 1) (by omega) (z :: zs) ys (by simp; omega)
                (fun c hc => hns c (by simp [List.mem_cons] at hc ⊢; tauto))
                (by
                  intro hl
                  apply hlast
                  rw [List.getLast?_cons_cons, hl])
              rw [← List.cons_append, hrec, List.cons_append]
      · rw [List.cons_append, subCommaClose_cons_ne close (xs2 ++ ys) hx,
          subCommaClose_cons_ne close xs2 hx]
        have hrec := ih (n - 1) (by omega) xs2 ys (by omega)
          (fun c hc => hns c (List.mem_cons_of_mem _ hc))
          (by
            intro hl
            apply hlast
            cases xs2 with
            | nil => simp at hl
            | cons a b => rw [List.getLast?_cons_cons, hl])
        rw [hrec, List.cons_append]

theorem isPySpace_eq_false_of_ge {c : Char} (h : 33 ≤ c.toNat) :
    isPySpace c = false := by
  unfold isPySpace
  simp only [Bool.or_eq_false_iff, beq_eq_false_iff_ne, ne_eq]
  refine ⟨⟨⟨⟨⟨?_, ?_⟩, ?_⟩, ?_⟩, ?_⟩, ?_⟩ <;> intro he <;> subst he <;> revert h <;> decide

theorem natDigits_getLast (n : Nat) :
    ∃ d, (natDigits n).getLast? = some (digitChar d) := by
  unfold natDigits natDigitsAux
  by_cases hn : n < 10
  · exact ⟨n, by simp [hn]⟩
  · refine ⟨n % 10, ?_⟩
    simp only [hn, if_false]
    exact getLast?_append_some (by simp) _

theorem renderG_shape : ∀ n : Nat, ∀ bo ba : Bool,
    (∀ J : JVal, needV J ≤ n → cleanV J = true →
      (∀ c ∈ renderG bo ba J, isPySpace c = false ∧ c ≠ '\x60') ∧
      (renderG bo ba J).getLast? ≠ some ',') ∧
    (∀ (v : JVal) (vs : List JVal), needL (v :: vs) ≤ n → cleanL (v :: vs) = true →
      (∀ c ∈ renderGElems bo ba (v :: vs), isPySpace c = false ∧ c ≠ '\x60') ∧
      (renderGElems bo ba (v :: vs)).getLast? ≠ some ',') ∧
    (∀ (k : String) (v : JVal) (fs : Obj), needF ((k, v) :: fs) ≤ n →
      cleanF ((k, v) :: fs) = true →
      (∀ c ∈ renderGFields bo ba ((k, v) :: fs), isPySpace c = false ∧ c ≠ '\x60') ∧
      (renderGFields bo ba ((k, v) :: fs)).getLast? ≠ some ',') := by
  intro n
  induction n using Nat.strong_induction_on with
  | _ n ih =>
  intro bo ba
  refine ⟨?_, ?_, ?_⟩
  · intro J hn hcl
    cases J with
    | jnull =>
        constructor
        · intro c hc
          rw [show renderG bo ba .jnull = ['n', 'u', 'l', 'l'] from rfl] at hc
          fin_cases hc <;> exact ⟨by decide, by decide⟩
        · rw [show renderG bo ba .jnull = ['n', 'u', 'l', 'l'] from rfl]
          decide
    | jbool b =>
        cases b
        · constructor
          · intro c hc
            rw [show renderG bo ba (.jbool false) =
              ['f', 'a', 'l', 's', 'e'] from rfl] at hc
            fin_cases hc <;> exact ⟨by decide, by decide⟩
          · rw [show renderG bo ba (.jbool false) = ['f', 'a', 'l', 's', 'e'] from rfl]
            decide
        · constructor
          · intro c hc
            rw [show renderG bo ba (.jbool true) = ['t', 'r', 'u', 'e'] from rfl] at hc
            fin_cases hc <;> exact ⟨by decide, by decide⟩
          · rw [show renderG bo ba (.jbool true) = ['t', 'r', 'u', 'e'] from rfl]
            decide
    | jnum i =>
        constructor
        · intro c hc
          by_cases hi : i < 0
          · rw [show renderG bo ba (.jnum i) =
                '-' :: natDigits i.natAbs from by simp [renderG, hi]] at hc
            rcases List.mem_cons.mp hc with h | h
            · subst h; exact ⟨by decide, by decide⟩
            · obtain ⟨d, rfl⟩ := mem_natDigitsAux h
              have hd := digitChar_ne d
              exact ⟨hd.2.2.2.2.2.2.2.2.2.2.2.2.2.1, hd.2.2.2.2.2.2.2.2.2.2.2.1⟩
          · rw [show renderG bo ba (.jnum i) =
                natDigits i.natAbs from by simp [renderG, hi]] at hc
            obtain ⟨d, rfl⟩ := mem_natDigitsAux hc
            have hd := digitChar_ne d
            exact ⟨hd.2.2.2.2.2.2.2.2.2.2.2.2.2.1, hd.2.2.2.2.2.2.2.2.2.2.2.1⟩
        · obtain ⟨d, hd⟩ := natDigits_getLast i.natAbs
          have hne := (digitChar_ne d).2.2.2.2.2.2.2.2.2.1
          by_cases hi : i < 0
          · rw [show renderG bo ba (.jnum i) =
                '-' :: natDigits i.natAbs from by simp [renderG, hi]]
            have hnn : natDigits i.natAbs ≠ [] := by
              intro h
              rw [h] at hd
              simp at hd
            obtain ⟨a, as, has⟩ := List.exists_cons_of_ne_nil hnn
            rw [has]
            rw [has] at hd
            rw [List.getLast?_cons_cons, hd]
            intro hcon
            injection hcon with h1
            exact hne h1
          · rw [show renderG bo ba (.jnum i) =
                natDigits i.natAbs from by simp [renderG, hi], hd]
            intro hcon
            injection hcon with h1
            exact hne h1
    | jstr s =>
        have hs : s.data.all cleanChar = true := by simpa [cleanV] using hcl
        rw [List.all_eq_true] at hs
        have hsh : renderG bo ba (.jstr s) = ('"' :: s.data) ++ ['"'] := by
          simp [renderG]
        constructor
        · intro c hc
          rw [hsh] at hc
          rcases List.mem_append.mp hc with h | h
          · rcases List.mem_cons.mp h with h | h
            · subst h; exact ⟨by decide, by decide⟩
            · obtain ⟨hge, _, _, _, hbt, _⟩ := cleanChar_props (hs c h)
              exact ⟨isPySpace_eq_false_of_ge hge, hbt⟩
          · rw [List.mem_singleton] at h
            subst h; exact ⟨by decide, by decide⟩
        · rw [hsh, @getLast?_append_some ['"'] '"' (by decide) ('"' :: s.data)]
          intro hcon
          injection hcon with h1
          exact absurd h1 (by decide)
    | jarr vs =>
        cases vs with
        | nil =>
            constructor
            · intro c hc
              rw [show renderG bo ba (.jarr []) = ['[', ']'] from rfl] at hc
              fin_cases hc <;> exact ⟨by decide, by decide⟩
            · rw [show renderG bo ba (.jarr []) = ['[', ']'] from rfl]
              decide
        | cons v vs2 =>
            have hcl2 : cleanL (v :: vs2) = true := by simpa [cleanV] using hcl
            have hlt : needL (v :: vs2) < n := by simp only [needV] at hn; omega
            have hE := ((ih _ hlt) bo ba).2.1 v vs2 (le_refl _) hcl2
            have hsh : renderG bo ba (.jarr (v :: vs2)) =
                '[' :: ((renderGElems bo ba (v :: vs2) ++
                  (if ba then [','] else [])) ++ [']']) := rfl
            constructor
            · intro c hc
              rw [hsh] at hc
              rcases List.mem_cons.mp hc with h | h
              · subst h; exact ⟨by decide, by decide⟩
              rcases List.mem_append.mp h with h | h
              · rcases List.mem_append.mp h with h | h
                · exact hE.1 c h
                · cases ba
                  · simp at h
                  · rw [if_pos rfl, List.mem_singleton] at h
                    subst h; exact ⟨by decide, by decide⟩
              · rw [List.mem_singleton] at h
                subst h; exact ⟨by decide, by decide⟩
            · rw [hsh, show '[' :: ((renderGElems bo ba (v :: vs2) ++
                  (if ba then [','] else [])) ++ [']']) =
                  ('[' :: (renderGElems bo ba (v :: vs2) ++
                    (if ba then [','] else []))) ++ [']'] from rfl,
                @getLast?_append_some [']'] ']' (by decide) _]
              intro hcon
              injection hcon with h1
              exact absurd h1 (by decide)
    | jobj fs =>
        cases fs with
        | nil =>
            constructor
            · intro c hc
              rw [show renderG bo ba (.jobj []) = ['\x7b', '\x7d'] from rfl] at hc
              fin_cases hc <;> exact ⟨by decide, by decide⟩
            · rw [show renderG bo ba (.jobj []) = ['\x7b', '\x7d'] from rfl]
              decide
        | cons kv fs2 =>
            obtain ⟨k, v⟩ := kv
            have hcl2 : cleanF ((k, v) :: fs2) = true := by simpa [cleanV] using hcl
            have hlt : needF ((k, v) :: fs2) < n := by simp only [needV] at hn; omega
            have hF := ((ih _ hlt) bo ba).2.2 k v fs2 (le_refl _) hcl2
            have hsh : renderG bo ba (.jobj ((k, v) :: fs2)) =
                '\x7b' :: ((renderGFields bo ba ((k, v) :: fs2) ++
                  (if bo then [','] else [])) ++ ['\x7d']) := rfl
            constructor
            · intro c hc
              rw [hsh] at hc
              rcases List.mem_cons.mp hc with h | h
              · subst h; exact ⟨by decide, by decide⟩
              rcases List.mem_append.mp h with h | h
              · rcases List.mem_append.mp h with h | h
                · exact hF.1 c h
                · cases bo
                  · simp at h
                  · rw [if_pos rfl, List.mem_singleton] at h
                    subst h; exact ⟨by decide, by decide⟩
              · rw [List.mem_singleton] at h
                subst h; exact ⟨by decide, by decide⟩
            · rw [hsh, show '\x7b' :: ((renderGFields bo ba ((k, v) :: fs2) ++
                  (if bo then [','] else [])) ++ ['\x7d']) =
                  ('\x7b' :: (renderGFields bo ba ((k, v) :: fs2) ++
                    (if bo then [','] else []))) ++ ['\x7d'] from rfl,
                @getLast?_append_some ['\x7d'] '\x7d' (by decide) _]
              intro hcon
              injection hcon with h1
              exact absurd h1 (by decide)
  · intro v vs hn hcl
    simp only [cleanL, Bool.and_eq_true] at hcl
    obtain ⟨hclv, hclvs⟩ := hcl
    cases vs with
    | nil =>
        have hlt : needV v < n := by simp only [needL] at hn; omega
        have hV := ((ih _ hlt) bo ba).1 v (le_refl _) hclv
        have hE : renderGElems bo ba [v] = renderG bo ba v := by
          simp [renderGElems]
        rw [hE]
        exact hV
    | cons v2 vs3 =>
        have hlt1 : needV v < n := by
          simp only [needL] at hn
          have := needL_pos v2 vs3
          omega
        have hlt2 : needL (v2 :: vs3) < n := by
          simp only [needL] at hn ⊢
          have := needV_pos v
          omega
        have hV := ((ih _ hlt1) bo ba).1 v (le_refl _) hclv
        have hE := ((ih _ hlt2) bo ba).2.1 v2 vs3 (le_refl _) hclvs
        have hcons : renderGElems bo ba (v :: v2 :: vs3) =
            renderG bo ba v ++ ',' :: renderGElems bo ba (v2 :: vs3) := rfl
        rw [hcons]
        constructor
        · intro c hc
          rcases List.mem_append.mp hc with h | h
          · exact hV.1 c h
          · rcases List.mem_cons.mp h with h | h
            · subst h; exact ⟨by decide, by decide⟩
            · exact hE.1 c h
        · obtain ⟨c0, cs0, hc0, _⟩ := renderGElems_head bo ba v2 vs3
          cases hgl : (renderGElems bo ba (v2 :: vs3)).getLast? with
          | none =>
              rw [hc0] at hgl
              simp at hgl
          | some c1 =>
              have hwhole : (renderG bo ba v ++
                  ',' :: renderGElems bo ba (v2 :: vs3)).getLast? = some c1 := by
                apply getLast?_append_some _ _
                rw [hc0, List.getLast?_cons_cons, ← hc0, hgl]
              rw [hwhole]
              intro hcon
              injection hcon with h1
              subst h1
              rw [hgl] at hE
              exact hE.2 rfl
  · intro k v fs hn hcl
    simp only [cleanF, Bool.and_eq_true] at hcl
    obtain ⟨⟨⟨hk, hclv⟩, hlkn⟩, hclfs⟩ := hcl
    rw [List.all_eq_true] at hk
    cases fs with
    | nil =>
        have hlt : needV v < n := by simp only [needF] at hn; omega
        have hV := ((ih _ hlt) bo ba).1 v (le_refl _) hclv
        have hf : renderGFields bo ba [(k, v)] =
            ('"' :: (k.data ++ ['"', ':'])) ++ renderG bo ba v := by
          simp [renderGFields]
        rw [hf]
        constructor
        · intro c hc
          rcases List.mem_append.mp hc with h | h
          · rcases List.mem_cons.mp h with h | h
            · subst h; exact ⟨by decide, by decide⟩
            rcases List.mem_append.mp h with h | h
            · obtain ⟨hge, _, _, _, hbt, _⟩ := cleanChar_props (hk c h)
              exact ⟨isPySpace_eq_false_of_ge hge, hbt⟩
            · fin_cases h <;> exact ⟨by decide, by decide⟩
          · exact hV.1 c h
        · obtain ⟨c0, cs0, hc0, _⟩ := renderG_head bo ba v
          cases hgl : (renderG bo ba v).getLast? with
          | none =>
              rw [hc0] at hgl
              simp at hgl
          | some c1 =>
              rw [getLast?_append_some hgl _]
              intro hcon
              injection hcon with h1
              subst h1
              rw [hgl] at hV
              exact hV.2 rfl
    | cons kv2 fs3 =>
        obtain ⟨k2, v2⟩ := kv2
        have hlt1 : needV v < n := by
          simp only [needF] at hn
          have := needV_pos v2
          omega
        have hlt2 : needF ((k2, v2) :: fs3) < n := by
          simp only [needF] at hn ⊢
          have := needV_pos v
          omega
        have hV := ((ih _ hlt1) bo ba).1 v (le_refl _) hclv
        have hF := ((ih _ hlt2) bo ba).2.2 k2 v2 fs3 (le_refl _) hclfs
        have hcons : renderGFields bo ba ((k, v) :: (k2, v2) :: fs3) =
            (('"' :: (k.data ++ ['"', ':'])) ++ renderG bo ba v) ++
              ',' :: renderGFields bo ba ((k2, v2) :: fs3) := by
          simp [renderGFields]
        rw [hcons]
        constructor
        · intro c hc
          rcases List.mem_append.mp hc with h | h
          · rcases List.mem_append.mp h with h | h
            · rcases List.mem_cons.mp h with h | h
              · subst h; exact ⟨by decide, by decide⟩
              rcases List.mem_append.mp h with h | h
              · obtain ⟨hge, _, _, _, hbt, _⟩ := cleanChar_props (hk c h)
                exact ⟨isPySpace_eq_false_of_ge hge, hbt⟩
              · fin_cases h <;> exact ⟨by decide, by decide⟩
            · exact hV.1 c h
          · rcases List.mem_cons.mp h with h | h
            · subst h; exact ⟨by decide, by decide⟩
            · exact hF.1 c h
        · obtain ⟨cs1, hc1⟩ := renderGFields_head bo ba k2 v2 fs3
          cases hgl : (renderGFields bo ba ((k2, v2) :: fs3)).getLast? with
          | none =>
              rw [hc1] at hgl
              simp at hgl
          | some c1 =>
              have hwhole : ((('"' :: (k.data ++ ['"', ':'])) ++ renderG bo ba v) ++
                  ',' :: renderGFields bo ba ((k2, v2) :: fs3)).getLast? =
                  some c1 := by
                apply getLast?_append_some _ _
                rw [hc1, List.getLast?_cons_cons, ← hc1, hgl]
              rw [hwhole]
              intro hcon
              injection hcon with h1
              subst h1
              rw [hgl] at hF
              exact hF.2 rfl

theorem subCC_append2 (close : Char) (xs ys : List Char)
    (h1 : ∀ c ∈ xs, isPySpace c = false) (h2 : xs.getLast? ≠ some ',') :
    subCommaClose close (xs ++ ys) =
      subCommaClose close xs ++ subCommaClose close ys :=
  subCommaClose_append close xs.length xs ys (le_refl _) h1 h2

theorem renderG_shape_V (bo ba : Bool) (J : JVal) (hcl : cleanV J = true) :
    (∀ c ∈ renderG bo ba J, isPySpace c = false ∧ c ≠ '\x60') ∧
      (renderG bo ba J).getLast? ≠ some ',' :=
  ((renderG_shape (needV J)) bo ba).1 J (le_refl _) hcl

theorem renderG_shape_E (bo ba : Bool) (v : JVal) (vs : List JVal)
    (hcl : cleanL (v :: vs) = true) :
    (∀ c ∈ renderGElems bo ba (v :: vs), isPySpace c = false ∧ c ≠ '\x60') ∧
      (renderGElems bo ba (v :: vs)).getLast? ≠ some ',' :=
  ((renderG_shape (needL (v :: vs))) bo ba).2.1 v vs (le_refl _) hcl

theorem renderG_shape_F (bo ba : Bool) (k : String) (v : JVal) (fs : Obj)
    (hcl : cleanF ((k, v) :: fs) = true) :
    (∀ c ∈ renderGFields bo ba ((k, v) :: fs), isPySpace c = false ∧ c ≠ '\x60') ∧
      (renderGFields bo ba ((k, v) :: fs)).getLast? ≠ some ',' :=
  ((renderG_shape (needF ((k, v) :: fs))) bo ba).2.2 k v fs (le_refl _) hcl

theorem comma_not_mem_render {ba bo : Bool} {i : Int} :
    ',' ∉ renderG bo ba (.jnum i) := by
  intro hmem
  by_cases hi : i < 0
  · rw [show renderG bo ba (.jnum i) = '-' :: natDigits i.natAbs from by
      simp [renderG, hi]] at hmem
    rcases List.mem_cons.mp hmem with h | h
    · exact absurd h (by decide)
    · obtain ⟨d, hd⟩ := mem_natDigitsAux h
      exact absurd hd.symm (digitChar_ne d).2.2.2.2.2.2.2.2.2.1
  · rw [show renderG bo ba (.jnum i) = natDigits i.natAbs from by
      simp [renderG, hi]] at hmem
    obtain ⟨d, hd⟩ := mem_natDigitsAux hmem
    exact absurd hd.symm (digitChar_ne d).2.2.2.2.2.2.2.2.2.1

theorem comma_not_mem_jstr {bo ba : Bool} {s : String}
    (hs : s.data.all cleanChar = true) : ',' ∉ renderG bo ba (.jstr s) := by
  rw [List.all_eq_true] at hs
  intro hmem
  rw [show renderG bo ba (.jstr s) = ('"' :: s.data) ++ ['"'] from by
    simp [renderG]] at hmem
  rcases List.mem_append.mp hmem with h | h
  · rcases List.mem_cons.mp h with h | h
    · exact absurd h (by decide)
    · exact absurd rfl (cleanChar_props (hs ',' h)).2.2.2.1
  · rw [List.mem_singleton] at h
    exact absurd h (by decide)

theorem subCC_obj_render : ∀ n : Nat, ∀ ba : Bool,
    (∀ J : JVal, needV J ≤ n → cleanV J = true →
      subCommaClose '\x7d' (renderG true ba J) = renderG false ba J) ∧
    (∀ (v : JVal) (vs : List JVal), needL (v :: vs) ≤ n → cleanL (v :: vs) = true →
      subCommaClose '\x7d' (renderGElems true ba (v :: vs)) =
        renderGElems false ba (v :: vs)) ∧
    (∀ (k : String) (v : JVal) (fs : Obj), needF ((k, v) :: fs) ≤ n →
      cleanF ((k, v) :: fs) = true →
      subCommaClose '\x7d' (renderGFields true ba ((k, v) :: fs)) =
        renderGFields false ba ((k, v) :: fs)) := by
  intro n
  induction n using Nat.strong_induction_on with
  | _ n ih =>
  intro ba
  refine ⟨?_, ?_, ?_⟩
  · intro J hn hcl
    cases J with
    | jnull =>
        rw [show renderG true ba .jnull = ['n', 'u', 'l', 'l'] from rfl,
          subCommaClose_id _ _ (by decide)]
        rfl
    | jbool b =>
        cases b
        · rw [show renderG true ba (.jbool false) = ['f', 'a', 'l', 's', 'e'] from rfl,
            subCommaClose_id _ _ (by decide)]
          rfl
        · rw [show renderG true ba (.jbool true) = ['t', 'r', 'u', 'e'] from rfl,
            subCommaClose_id _ _ (by decide)]
          rfl
    | jnum i =>
        rw [subCommaClose_id _ _ comma_not_mem_render]
        rfl
    | jstr s =>
        have hs : s.data.all cleanChar = true := by simpa [cleanV] using hcl
        rw [subCommaClose_id _ _ (comma_not_mem_jstr hs)]
        rfl
    | jarr vs =>
        cases vs with
        | nil =>
            rw [show renderG true ba (.jarr []) = ['[', ']'] from rfl,
              subCommaClose_id _ _ (by decide)]
            rfl
        | cons v vs2 =>
            have hcl2 : cleanL (v :: vs2) = true := by simpa [cleanV] using hcl
            have hlt : needL (v :: vs2) < n := by simp only [needV] at hn; omega
            have hE := ((ih _ hlt) ba).2.1 v vs2 (le_refl _) hcl2
            have hshape := renderG_shape_E true ba v vs2 hcl2
            have hT : subCommaClose '\x7d' ((if ba then [','] else []) ++ [']']) =
                (if ba then [','] else []) ++ [']'] := by
              cases ba
              · rw [if_neg (by simp), List.nil_append,
                  subCommaClose_id _ _ (by decide)]
              · rw [if_pos rfl]
                rw [show ([','] : List Char) ++ [']'] = [',', ']'] from rfl,
                  subCommaClose_comma_ne _ _ (by decide) (by decide),
                  subCommaClose_cons_ne _ _ (by decide), subCommaClose_nil]
            have hsh : renderG true ba (.jarr (v :: vs2)) =
                '[' :: (renderGElems true ba (v :: vs2) ++
                  ((if ba then [','] else []) ++ [']'])) := by
              simp [renderG]
            have hsh2 : renderG false ba (.jarr (v :: vs2)) =
                '[' :: (renderGElems false ba (v :: vs2) ++
                  ((if ba then [','] else []) ++ [']'])) := by
              simp [renderG]
            rw [hsh, hsh2, subCommaClose_cons_ne _ _ (by decide),
              subCC_append2 _ _ _ (fun c hc => (hshape.1 c hc).1) hshape.2,
              hE, hT]
    | jobj fs =>
        cases fs with
        | nil =>
            rw [show renderG true ba (.jobj []) = ['\x7b', '\x7d'] from rfl,
              subCommaClose_id _ _ (by decide)]
            rfl
        | cons kv fs2 =>
            obtain ⟨k, v⟩ := kv
            have hcl2 : cleanF ((k, v) :: fs2) = true := by simpa [cleanV] using hcl
            have hlt : needF ((k, v) :: fs2) < n := by simp only [needV] at hn; omega
            have hF := ((ih _ hlt) ba).2.2 k v fs2 (le_refl _) hcl2
            have hshape := renderG_shape_F true ba k v fs2 hcl2
            have hsh : renderG true ba (.jobj ((k, v) :: fs2)) =
                '\x7b' :: (renderGFields true ba ((k, v) :: fs2) ++
                  [',', '\x7d']) := by
              simp [renderG]
            have hsh2 : renderG false ba (.jobj ((k, v) :: fs2)) =
                '\x7b' :: (renderGFields false ba ((k, v) :: fs2) ++ ['\x7d']) := by
              simp [renderG]
            have hT : subCommaClose '\x7d' [',', '\x7d'] = ['\x7d'] := by
              rw [show ([',', '\x7d'] : List Char) = ',' :: '\x7d' :: [] from rfl,
                subCommaClose_comma_close _ _ (by decide), subCommaClose_nil]
            rw [hsh, hsh2, subCommaClose_cons_ne _ _ (by decide),
              subCC_append2 _ _ _ (fun c hc => (hshape.1 c hc).1) hshape.2,
              hF, hT]
  · intro v vs hn hcl
    simp only [cleanL, Bool.and_eq_true] at hcl
    obtain ⟨hclv, hclvs⟩ := hcl
    cases vs with
    | nil =>
        have hlt : needV v < n := by simp only [needL] at hn; omega
        have hV := ((ih _ hlt) ba).1 v (le_refl _) hclv
        rw [show renderGElems true ba [v] = renderG true ba v from by
          simp [renderGElems], show renderGElems false ba [v] =
            renderG false ba v from by simp [renderGElems]]
        exact hV
    | cons v2 vs3 =>
        have hlt1 : needV v < n := by
          simp only [needL] at hn
          have := needL_pos v2 vs3
          omega
        have hlt2 : needL (v2 :: vs3) < n := by
          simp only [needL] at hn ⊢
          have := needV_pos v
          omega
        have hV := ((ih _ hlt1) ba).1 v (le_refl _) hclv
        have hE := ((ih _ hlt2) ba).2.1 v2 vs3 (le_refl _) hclvs
        have hshape := renderG_shape_V true ba v hclv
        obtain ⟨z, zs0, hz, hzst⟩ := renderGElems_head true ba v2 vs3
        have hcons : renderGElems true ba (v :: v2 :: vs3) =
            renderG true ba v ++ ',' :: renderGElems true ba (v2 :: vs3) := rfl
        have hcons2 : renderGElems false ba (v :: v2 :: vs3) =
            renderG false ba v ++ ',' :: renderGElems false ba (v2 :: vs3) := rfl
        rw [hcons, hcons2,
          subCC_append2 _ _ _ (fun c hc => (hshape.1 c hc).1) hshape.2, hV]
        rw [hz, subCommaClose_comma_ne _ _ (startsRender_props hzst).2.2.2.1
          ((startsRender_props hzst).2.1), ← hz, hE]
  · intro k v fs hn hcl
    have hcl' := hcl
    simp only [cleanF, Bool.and_eq_true] at hcl'
    obtain ⟨⟨⟨hk, hclv⟩, hlkn⟩, hclfs⟩ := hcl'
    have hkall := hk
    rw [List.all_eq_true] at hkall
    have hPchars : ∀ c ∈ '"' :: (k.data ++ ['"', ':']), isPySpace c = false := by
      intro c hc
      rcases List.mem_cons.mp hc with h | h
      · subst h; decide
      rcases List.mem_append.mp h with h | h
      · exact isPySpace_eq_false_of_ge (cleanChar_props (hkall c h)).1
      · fin_cases h <;> decide
    have hPlast : ('"' :: (k.data ++ ['"', ':'])).getLast? ≠ some ',' := by
      rw [show '"' :: (k.data ++ ['"', ':']) =
        ('"' :: (k.data ++ ['"'])) ++ [':'] from by simp,
        @getLast?_append_some [':'] ':' (by decide) _]
      intro hcon
      injection hcon with h1
      exact absurd h1 (by decide)
    have hPid : subCommaClose '\x7d' ('"' :: (k.data ++ ['"', ':'])) =
        '"' :: (k.data ++ ['"', ':']) := by
      refine subCommaClose_id _ _ ?_
      intro hmem
      rcases List.mem_cons.mp hmem with h | h
      · exact absurd h (by decide)
      rcases List.mem_append.mp h with h | h
      · exact absurd rfl (cleanChar_props (hkall ',' h)).2.2.2.1
      · exact absurd h (by decide)
    cases fs with
    | nil =>
        have hlt : needV v < n := by simp only [needF] at hn; omega
        have hV := ((ih _ hlt) ba).1 v (le_refl _) hclv
        have hf1 : renderGFields true ba [(k, v)] =
            ('"' :: (k.data ++ ['"', ':'])) ++ renderG true ba v := by
          simp [renderGFields]
        have hf2 : renderGFields false ba [(k, v)] =
            ('"' :: (k.data ++ ['"', ':'])) ++ renderG false ba v := by
          simp [renderGFields]
        rw [hf1, hf2, subCC_append2 _ _ _ hPchars hPlast, hPid, hV]
    | cons kv2 fs3 =>
        obtain ⟨k2, v2⟩ := kv2
        have hlt1 : needV v < n := by
          simp only [needF] at hn
          have := needV_pos v2
          omega
        have hlt2 : needF ((k2, v2) :: fs3) < n := by
          simp only [needF] at hn ⊢
          have := needV_pos v
          omega
        have hV := ((ih _ hlt1) ba).1 v (le_refl _) hclv
        have hF := ((ih _ hlt2) ba).2.2 k2 v2 fs3 (le_refl _) hclfs
        have hshapeV := renderG_shape_V true ba v hclv
        have hf1 : renderGFields true ba ((k, v) :: (k2, v2) :: fs3) =
            (('"' :: (k.data ++ ['"', ':'])) ++ renderG true ba v) ++
              ',' :: renderGFields true ba ((k2, v2) :: fs3) := by
          simp [renderGFields]
        have hf2 : renderGFields false ba ((k, v) :: (k2, v2) :: fs3) =
            (('"' :: (k.data ++ ['"', ':'])) ++ renderG false ba v) ++
              ',' :: renderGFields false ba ((k2, v2) :: fs3) := by
          simp [renderGFields]
        have hxs_chars : ∀ c ∈ ('"' :: (k.data ++ ['"', ':'])) ++
            renderG true ba v, isPySpace c = false := by
          intro c hc
          rcases List.mem_append.mp hc with h | h
          · exact hPchars c h
          · exact (hshapeV.1 c h).1
        have hxs_last : ((('"' :: (k.data ++ ['"', ':'])) ++
            renderG true ba v)).getLast? ≠ some ',' := by
          obtain ⟨c0, cs0, hc0, _⟩ := renderG_head true ba v
          cases hgl : (renderG true ba v).getLast? with
          | none =>
              rw [hc0] at hgl
              simp at hgl
          | some c1 =>
              rw [getLast?_append_some hgl _]
              intro hcon
              injection hcon with h1
              subst h1
              rw [hgl] at hshapeV
              exact hshapeV.2 rfl
        obtain ⟨zs1, hz1⟩ := renderGFields_head true ba k2 v2 fs3
        rw [hf1, hf2, subCC_append2 _ _ _ hxs_chars hxs_last,
          subCC_append2 _ _ _ hPchars hPlast, hPid, hV]
        rw [hz1, subCommaClose_comma_ne _ _ (by decide) (by decide), ← hz1, hF]

theorem subCC_arr_render : ∀ n : Nat, ∀ bo : Bool,
    (∀ J : JVal, needV J ≤ n → cleanV J = true →
      subCommaClose ']' (renderG bo true J) = renderG bo false J) ∧
    (∀ (v : JVal) (vs : List JVal), needL (v :: vs) ≤ n → cleanL (v :: vs) = true →
      subCommaClose ']' (renderGElems bo true (v :: vs)) =
        renderGElems bo false (v :: vs)) ∧
    (∀ (k : String) (v : JVal) (fs : Obj), needF ((k, v) :: fs) ≤ n →
      cleanF ((k, v) :: fs) = true →
      subCommaClose ']' (renderGFields bo true ((k, v) :: fs)) =
        renderGFields bo false ((k, v) :: fs)) := by
  intro n
  induction n using Nat.strong_induction_on with
  | _ n ih =>
  intro bo
  refine ⟨?_, ?_, ?_⟩
  · intro J hn hcl
    cases J with
    | jnull =>
        rw [show renderG bo true .jnull = ['n', 'u', 'l', 'l'] from rfl,
          subCommaClose_id _ _ (by decide)]
        rfl
    | jbool b =>
        cases b
        · rw [show renderG bo true (.jbool false) = ['f', 'a', 'l', 's', 'e'] from rfl,
            subCommaClose_id _ _ (by decide)]
          rfl
        · rw [show renderG bo true (.jbool true) = ['t', 'r', 'u', 'e'] from rfl,
            subCommaClose_id _ _ (by decide)]
          rfl
    | jnum i =>
        rw [subCommaClose_id _ _ comma_not_mem_render]
        rfl
    | jstr s =>
        have hs : s.data.all cleanChar = true := by simpa [cleanV] using hcl
        rw [subCommaClose_id _ _ (comma_not_mem_jstr hs)]
        rfl
    | jarr vs =>
        cases vs with
        | nil =>
            rw [show renderG bo true (.jarr []) = ['[', ']'] from rfl,
              subCommaClose_id _ _ (by decide)]
            rfl
        | cons v vs2 =>
            have hcl2 : cleanL (v :: vs2) = true := by simpa [cleanV] using hcl
            have hlt : needL (v :: vs2) < n := by simp only [needV] at hn; omega
            have hE := ((ih _ hlt) bo).2.1 v vs2 (le_refl _) hcl2
            have hshape := renderG_shape_E bo true v vs2 hcl2
            have hsh : renderG bo true (.jarr (v :: vs2)) =
                '[' :: (renderGElems bo true (v :: vs2) ++ [',', ']']) := by
              simp [renderG]
            have hsh2 : renderG bo false (.jarr (v :: vs2)) =
                '[' :: (renderGElems bo false (v :: vs2) ++ [']']) := by
              simp [renderG]
            have hT : subCommaClose ']' [',', ']'] = [']'] := by
              rw [show ([',', ']'] : List Char) = ',' :: ']' :: [] from rfl,
                subCommaClose_comma_close _ _ (by decide), subCommaClose_nil]
            rw [hsh, hsh2, subCommaClose_cons_ne _ _ (by decide),
              subCC_append2 _ _ _ (fun c hc => (hshape.1 c hc).1) hshape.2,
              hE, hT]
    | jobj fs =>
        cases fs with
        | nil =>
            rw [show renderG bo true (.jobj []) = ['\x7b', '\x7d'] from rfl,
              subCommaClose_id _ _ (by decide)]
            rfl
        | cons kv fs2 =>
            obtain ⟨k, v⟩ := kv
            have hcl2 : cleanF ((k, v) :: fs2) = true := by simpa [cleanV] using hcl
            have hlt : needF ((k, v) :: fs2) < n := by simp only [needV] at hn; omega
            have hF := ((ih _ hlt) bo).2.2 k v fs2 (le_refl _) hcl2
            have hshape := renderG_shape_F bo true k v fs2 hcl2
            have hT : subCommaClose ']' ((if bo then [','] else []) ++ ['\x7d']) =
                (if bo then [','] else []) ++ ['\x7d'] := by
              cases bo
              · rw [if_neg (by simp), List.nil_append,
                  subCommaClose_id _ _ (by decide)]
              · rw [if_pos rfl]
                rw [show ([','] : List Char) ++ ['\x7d'] = [',', '\x7d'] from rfl,
                  subCommaClose_comma_ne _ _ (by decide) (by decide),
                  subCommaClose_cons_ne _ _ (by decide), subCommaClose_nil]
            have hsh : renderG bo true (.jobj ((k, v) :: fs2)) =
                '\x7b' :: (renderGFields bo true ((k, v) :: fs2) ++
                  ((if bo then [','] else []) ++ ['\x7d'])) := by
              simp [renderG]
            have hsh2 : renderG bo false (.jobj ((k, v) :: fs2)) =
                '\x7b' :: (renderGFields bo false ((k, v) :: fs2) ++
                  ((if bo then [','] else []) ++ ['\x7d'])) := by
              simp [renderG]
            rw [hsh, hsh2, subCommaClose_cons_ne _ _ (by decide),
              subCC_append2 _ _ _ (fun c hc => (hshape.1 c hc).1) hshape.2,
              hF, hT]
  · intro v vs hn hcl
    simp only [cleanL, Bool.and_eq_true] at hcl
    obtain ⟨hclv, hclvs⟩ := hcl
    cases vs with
    | nil =>
        have hlt : needV v < n := by simp only [needL] at hn; omega
        have hV := ((ih _ hlt) bo).1 v (le_refl _) hclv
        rw [show renderGElems bo true [v] = renderG bo true v from by
          simp [renderGElems], show renderGElems bo false [v] =
            renderG bo false v from by simp [renderGElems]]
        exact hV
    | cons v2 vs3 =>
        have hlt1 : needV v < n := by
          simp only [needL] at hn
          have := needL_pos v2 vs3
          omega
        have hlt2 : needL (v2 :: vs3) < n := by
          simp only [needL] at hn ⊢
          have := needV_pos v
          omega
        have hV := ((ih _ hlt1) bo).1 v (le_refl _) hclv
        have hE := ((ih _ hlt2) bo).2.1 v2 vs3 (le_refl _) hclvs
        have hshape := renderG_shape_V bo true v hclv
        obtain ⟨z, zs0, hz, hzst⟩ := renderGElems_head bo true v2 vs3
        have hcons : renderGElems bo true (v :: v2 :: vs3) =
            renderG bo true v ++ ',' :: renderGElems bo true (v2 :: vs3) := rfl
        have hcons2 : renderGElems bo false (v :: v2 :: vs3) =
            renderG bo false v ++ ',' :: renderGElems bo false (v2 :: vs3) := rfl
        rw [hcons, hcons2,
          subCC_append2 _ _ _ (fun c hc => (hshape.1 c hc).1) hshape.2, hV]
        rw [hz, subCommaClose_comma_ne _ _ (startsRender_props hzst).2.2.1
          ((startsRender_props hzst).2.1), ← hz, hE]
  · intro k v fs hn hcl
    have hcl' := hcl
    simp only [cleanF, Bool.and_eq_true] at hcl'
    obtain ⟨⟨⟨hk, hclv⟩, hlkn⟩, hclfs⟩ := hcl'
    have hkall := hk
    rw [List.all_eq_true] at hkall
    have hPchars : ∀ c ∈ '"' :: (k.data ++ ['"', ':']), isPySpace c = false := by
      intro c hc
      rcases List.mem_cons.mp hc with h | h
      · subst h; decide
      rcases List.mem_append.mp h with h | h
      · exact isPySpace_eq_false_of_ge (cleanChar_props (hkall c h)).1
      · fin_cases h <;> decide
    have hPlast : ('"' :: (k.data ++ ['"', ':'])).getLast? ≠ some ',' := by
      rw [show '"' :: (k.data ++ ['"', ':']) =
        ('"' :: (k.data ++ ['"'])) ++ [':'] from by simp,
        @getLast?_append_some [':'] ':' (by decide) _]
      intro hcon
      injection hcon with h1
      exact absurd h1 (by decide)
    have hPid : subCommaClose ']' ('"' :: (k.data ++ ['"', ':'])) =
        '"' :: (k.data ++ ['"', ':']) := by
      refine subCommaClose_id _ _ ?_
      intro hmem
      rcases List.mem_cons.mp hmem with h | h
      · exact absurd h (by decide)
      rcases List.mem_append.mp h with h | h
      · exact absurd rfl (cleanChar_props (hkall ',' h)).2.2.2.1
      · exact absurd h (by decide)
    cases fs with
    | nil =>
        have hlt : needV v < n := by simp only [needF] at hn; omega
        have hV := ((ih _ hlt) bo).1 v (le_refl _) hclv
        have hf1 : renderGFields bo true [(k, v)] =
            ('"' :: (k.data ++ ['"', ':'])) ++ renderG bo true v := by
          simp [renderGFields]
        have hf2 : renderGFields bo false [(k, v)] =
            ('"' :: (k.data ++ ['"', ':'])) ++ renderG bo false v := by
          simp [renderGFields]
        rw [hf1, hf2, subCC_append2 _ _ _ hPchars hPlast, hPid, hV]
    | cons kv2 fs3 =>
        obtain ⟨k2, v2⟩ := kv2
        have hlt1 : needV v < n := by
          simp only [needF] at hn
          have := needV_pos v2
          omega
        have hlt2 : needF ((k2, v2) :: fs3) < n := by
          simp only [needF] at hn ⊢
          have := needV_pos v
          omega
        have hV := ((ih _ hlt1) bo).1 v (le_refl _) hclv
        have hF := ((ih _ hlt2) bo).2.2 k2 v2 fs3 (le_refl _) hclfs
        have hshapeV := renderG_shape_V bo true v hclv
        have hf1 : renderGFields bo true ((k, v) :: (k2, v2) :: fs3) =
            (('"' :: (k.data ++ ['"', ':'])) ++ renderG bo true v) ++
              ',' :: renderGFields bo true ((k2, v2) :: fs3) := by
          simp [renderGFields]
        have hf2 : renderGFields bo false ((k, v) :: (k2, v2) :: fs3) =
            (('"' :: (k.data ++ ['"', ':'])) ++ renderG bo false v) ++
              ',' :: renderGFields bo false ((k2, v2) :: fs3) := by
          simp [renderGFields]
        have hxs_chars : ∀ c ∈ ('"' :: (k.data ++ ['"', ':'])) ++
            renderG bo true v, isPySpace c = false := by
          intro c hc
          rcases List.mem_append.mp hc with h | h
          · exact hPchars c h
          · exact (hshapeV.1 c h).1
        have hxs_last : ((('"' :: (k.data ++ ['"', ':'])) ++
            renderG bo true v)).getLast? ≠ some ',' := by
          obtain ⟨c0, cs0, hc0, _⟩ := renderG_head bo true v
          cases hgl : (renderG bo true v).getLast? with
          | none =>
              rw [hc0] at hgl
              simp at hgl
          | some c1 =>
              rw [getLast?_append_some hgl _]
              intro hcon
              injection hcon with h1
              subst h1
              rw [hgl] at hshapeV
              exact hshapeV.2 rfl
        obtain ⟨zs1, hz1⟩ := renderGFields_head bo true k2 v2 fs3
        rw [hf1, hf2, subCC_append2 _ _ _ hxs_chars hxs_last,
          subCC_append2 _ _ _ hPchars hPlast, hPid, hV]
        rw [hz1, subCommaClose_comma_ne _ _ (by decide) (by decide), ← hz1, hF]

theorem stripRepair_render {J : JVal} (hcl : cleanV J = true) :
    stripRepair (renderG true true J) = renderG false false J := by
  unfold stripRepair
  rw [((subCC_obj_render (needV J)) true).1 J (le_refl _) hcl,
    ((subCC_arr_render (needV J)) false).1 J (le_refl _) hcl]

theorem fenceSearch_none : ∀ cs : List Char, '\x60' ∉ cs → fenceSearch cs = none := by
  intro cs
  induction cs with
  | nil => intro _; rfl
  | cons c cs ih =>
      intro h
      have hc : c ≠ '\x60' := fun he => h (he ▸ List.mem_cons_self _ _)
      unfold fenceSearch
      have hm : fenceMatchAt (c :: cs) = none := by
        unfold fenceMatchAt
        rw [if_neg]
        intro hpre
        rw [show ("```json".data) =
          '\x60' :: '\x60' :: '\x60' :: 'j' :: 's' :: 'o' :: 'n' :: [] from rfl] at hpre
        rw [List.isPrefixOf] at hpre
        simp only [Bool.and_eq_true, beq_iff_eq] at hpre
        exact hc hpre.1.symm
      rw [hm]
      exact ih (fun hm2 => h (List.mem_cons_of_mem _ hm2))

theorem findChar_prefix {t : Char} : ∀ (p1 rest : List Char), t ∉ p1 →
    findChar (p1 ++ t :: rest) t = some p1.length := by
  intro p1
  induction p1 with
  | nil => intro rest _; simp [findChar]
  | cons c p1 ih =>
      intro rest h
      have hc : c ≠ t := fun he => h (he ▸ List.mem_cons_self _ _)
      rw [List.cons_append]
      unfold findChar
      rw [if_neg hc, ih rest (fun hm => h (List.mem_cons_of_mem _ hm))]
      rfl

theorem rfind_last {t : Char} (p1 A p2 : List Char) (h : t ∉ p2) :
    rfindChar (p1 ++ (A ++ [t]) ++ p2) t = some (p1.length + A.length) := by
  unfold rfindChar
  have hrev : (p1 ++ (A ++ [t]) ++ p2).reverse =
      p2.reverse ++ t :: (A.reverse ++ p1.reverse) := by simp
  rw [hrev, findChar_prefix _ _ (by simpa using h)]
  simp [List.length_append]
  try omega

theorem slice_middle (p1 R p2 : List Char) :
    sliceList (p1 ++ R ++ p2) p1.length (p1.length + R.length) = R := by
  unfold sliceList
  rw [List.append_assoc, List.drop_left]
  have harith : p1.length + R.length - p1.length = R.length := by omega
  rw [harith, List.take_left]

theorem extract_json_eval (text : String) (hne : text ≠ "")
    (hfence : fenceSearch text.data = none) (s e : Nat)
    (hfind : findChar text.data '\x7b' = some s)
    (hrfind : rfindChar text.data '\x7d' = some e) (hlt : s < e)
    (hdir : json_loads_list (sliceList text.data s (e + 1)) = none) (v : JVal)
    (hrep : json_loads_list (stripRepair (sliceList text.data s (e + 1))) = some v) :
    extract_json text = some v := by
  unfold extract_json
  rw [if_neg hne, hfence]
  simp only [Option.none_bind]
  rw [hfind, hrfind]
  simp only [if_pos hlt]
  rw [hdir, hrep]

/-- Claim C4: for every JSON object literal (over the renderable class:
at least one field, clean strings, unrepeated keys) printed with a trailing
comma before the closing delimiter of every non-empty object and array, and
embedded in prose whose left part contains no opening brace or backtick and
whose right part contains no closing brace or backtick, `extract_json`
returns the parsed object rather than `None`: the direct `json.loads` of the
first-brace-to-last-brace slice fails on the trailing commas, and the
re-parse after the two comma repairs yields exactly the original object. -/
theorem extract_json_repairs_trailing_commas
    (p1 p2 : List Char) (k0 : String) (v0 : JVal) (fs : Obj)
    (hclean : cleanV (.jobj ((k0, v0) :: fs)) = true)
    (hp1 : '\x7b' ∉ p1) (hp2 : '\x7d' ∉ p2)
    (hb1 : '\x60' ∉ p1) (hb2 : '\x60' ∉ p2) :
    json_loads_list (renderG true true (.jobj ((k0, v0) :: fs))) = none ∧
    json_loads_list (stripRepair (renderG true true (.jobj ((k0, v0) :: fs)))) =
      some (.jobj ((k0, v0) :: fs)) ∧
    extract_json ⟨p1 ++ renderG true true (.jobj ((k0, v0) :: fs)) ++ p2⟩ =
      some (.jobj ((k0, v0) :: fs)) := by
  have hnc : noCollV (.jobj ((k0, v0) :: fs)) = false := rfl
  have hdirect : json_loads_list
      (renderG true true (.jobj ((k0, v0) :: fs))) = none := by
    unfold json_loads_list
    obtain ⟨c, cs, hc, hst⟩ := renderG_head true true (.jobj ((k0, v0) :: fs))
    have hsk : skipWs (renderG true true (.jobj ((k0, v0) :: fs))) =
        renderG true true (.jobj ((k0, v0) :: fs)) := by
      rw [hc]
      exact skipWs_cons_of_not_ws _ (startsRender_props hst).1
    rw [hsk]
    have hB := (parse_renderTT (needV (.jobj ((k0, v0) :: fs)))).1 _
      (le_refl _) hclean hnc
      ((renderG true true (.jobj ((k0, v0) :: fs))).length + 1) []
    rw [List.append_nil] at hB
    rw [hB]
  have hrepair : json_loads_list
      (stripRepair (renderG true true (.jobj ((k0, v0) :: fs)))) =
      some (.jobj ((k0, v0) :: fs)) := by
    rw [stripRepair_render hclean]
    exact json_loads_render hclean
  refine ⟨hdirect, hrepair, ?_⟩
  have hhead : renderG true true (.jobj ((k0, v0) :: fs)) =
      '\x7b' :: ((renderGFields true true ((k0, v0) :: fs) ++ [',']) ++
        ['\x7d']) := by
    simp [renderG]
  have htext : ((⟨p1 ++ renderG true true (.jobj ((k0, v0) :: fs)) ++ p2⟩ :
      String)).data = p1 ++ renderG true true (.jobj ((k0, v0) :: fs)) ++ p2 := rfl
  have hne0 : (⟨p1 ++ renderG true true (.jobj ((k0, v0) :: fs)) ++ p2⟩ :
      String) ≠ "" := by
    intro he
    have hdata := congrArg String.data he
    rw [htext, hhead] at hdata
    simp at hdata
  have hfence : fenceSearch
      (p1 ++ renderG true true (.jobj ((k0, v0) :: fs)) ++ p2) = none := by
    apply fenceSearch_none
    intro hmem
    rcases List.mem_append.mp hmem with hmem | hmem
    · rcases List.mem_append.mp hmem with hmem | hmem
      · exact hb1 hmem
      · exact ((renderG_shape_V true true _ hclean).1 _ hmem).2 rfl
    · exact hb2 hmem
  have harr1 : p1 ++ renderG true true (.jobj ((k0, v0) :: fs)) ++ p2 =
      p1 ++ '\x7b' :: (((renderGFields true true ((k0, v0) :: fs) ++ [',']) ++
        ['\x7d']) ++ p2) := by
    rw [hhead]
    simp
  have hfind : findChar
      (p1 ++ renderG true true (.jobj ((k0, v0) :: fs)) ++ p2) '\x7b' =
      some p1.length := by
    rw [harr1, findChar_prefix _ _ hp1]
  have harr2 : p1 ++ renderG true true (.jobj ((k0, v0) :: fs)) ++ p2 =
      p1 ++ (('\x7b' :: (renderGFields true true ((k0, v0) :: fs) ++ [','])) ++
        ['\x7d']) ++ p2 := by
    rw [hhead]
    simp
  have hrfind : rfindChar
      (p1 ++ renderG true true (.jobj ((k0, v0) :: fs)) ++ p2) '\x7d' =
      some (p1.length +
        ('\x7b' :: (renderGFields true true ((k0, v0) :: fs) ++ [','])).length) := by
    rw [harr2, rfind_last _ _ _ hp2]
  have hlt : p1.length < p1.length +
      ('\x7b' :: (renderGFields true true ((k0, v0) :: fs) ++ [','])).length := by
    simp
  have harith : p1.length +
      ('\x7b' :: (renderGFields true true ((k0, v0) :: fs) ++ [','])).length + 1 =
      p1.length + (renderG true true (.jobj ((k0, v0) :: fs))).length := by
    rw [hhead]
    simp
    omega
  have hslice : sliceList
      (p1 ++ renderG true true (.jobj ((k0, v0) :: fs)) ++ p2) p1.length
      (p1.length +
        ('\x7b' :: (renderGFields true true ((k0, v0) :: fs) ++ [','])).length +
        1) = renderG true true (.jobj ((k0, v0) :: fs)) := by
    rw [harith, slice_middle]
  exact extract_json_eval _ hne0 hfence p1.length _ hfind hrfind hlt
    (by rw [htext, hslice]; exact hdirect) _
    (by rw [htext, hslice]; exact hrepair)

/-- Witness for `extract_json_repairs_trailing_commas`: the object
`\x7b"a": 1\x7d` printed with a trailing comma and embedded in prose. -/
theorem extract_json_repairs_trailing_commas_witness :
    json_loads "\x7b\x22a\x22:1,\x7d" = none ∧
    extract_json "Sure: \x7b\x22a\x22:1,\x7d done." =
      some (.jobj [("a", .jnum 1)]) := by
  have h := extract_json_repairs_trailing_commas "Sure: ".data " done.".data
    "a" (.jnum 1) [] (by decide) (by decide) (by decide) (by decide) (by decide)
  have h1 : renderG true true (.jobj [("a", .jnum 1)]) =
      "\x7b\x22a\x22:1,\x7d".data := by decide
  constructor
  · have h2 := h.1
    rw [h1] at h2
    exact h2
  · have h3 := h.2.2
    have h4 : (⟨"Sure: ".data ++ renderG true true (.jobj [("a", .jnum 1)]) ++
        " done.".data⟩ : String) = "Sure: \x7b\x22a\x22:1,\x7d done." := by
      rw [h1]
      rfl
    rw [h4] at h3
    exact h3
